import Mathlib

/-!
# Mython interpreter: lexer and runtime core

A shallow embedding of `lexer.h` / `lexer.cpp` (namespace `parse`), of
`runtime.cpp` (namespace `runtime`) and of `statement.cpp` (namespace `ast`),
as far as the verified properties are about them.

Modelling conventions.

* The character stream `input_` is the list of characters that have not been
  read yet.  `get()` removes the head, `putback(ch)` conses `ch` back (it is
  only ever called right after the `get()` that produced `ch`), and the test
  `input_.eof() || input_.peek() == EOF` is `input_ = []`: `eofbit` is only
  raised by a read that hits the end of the stream and no character is put
  back afterwards.
* `isdigit`, `isalpha`, `isalnum` are the "C" locale classifiers
  (`Char.isDigit`, `Char.isAlpha`, `Char.isAlphanum`).
* `int` members are `Int`; the only place where the 32-bit range matters is
  `std::stoi`, whose `std::out_of_range` exception is modelled.
* A C++ function that mutates the lexer is a function returning the new lexer.
  Recursive calls of `ParseToken` are made explicit (`Step`), and the
  recursion is run with a budget that is shown to be sufficient.
* In the evaluator a holder is `none` (null) or an object; a class instance is
  referred to by the address of its fields, which live in the `World` next to
  the output stream.  `Execute` returns an `Outcome`: a value, a thrown
  `ObjectHolder` (`Return`), a `std::runtime_error` with its message, or
  undefined behaviour.  A statement can call methods that call themselves, so
  `Execute` has a budget for the depth of nested calls.
-/

namespace parse

/-- The token variant of `lexer.h` (`token_type::*`). -/
inductive Token where
  | Number (value : Int)
  | Id (value : String)
  | Char (value : Char)
  | String (value : String)
  | Class | Return | If | Else | Def | Newline | Print | Indent | Dedent
  | And | Or | Not | Eq | NotEq | LessOrEq | GreaterOrEq | None | True | False | Eof
  deriving DecidableEq, Repr

/-- Ways in which a call into the lexer does not come back with a token. -/
inductive Failure where
  /-- `std::stoi` throws `std::out_of_range`. -/
  | out_of_range
  /-- `ParseString` reaches the end of the stream: `get()` keeps returning
  `EOF`, which is never equal to the quote, so the loop never ends. -/
  | unterminated_string
  /-- The recursion budget of the model is used up. -/
  | out_of_fuel
  deriving DecidableEq, Repr

/-- The data members of `class Lexer`, with their default member initialisers.
`Token current_token_{}` value-initialises the first alternative of the
variant, `Number{0}`. -/
structure Lexer where
  input_ : List Char
  current_token_ : Token := Token.Number 0
  count_indent_ : Int := 0
  dedent_count_ : Int := 0
  is_start_line_ : Bool := true
  is_code_block_ : Bool := false
  deriving DecidableEq, Repr

/-- `Lexer::CurrentToken`. -/
def CurrentToken (l : Lexer) : Token := l.current_token_

/-- `Lexer::CheckBeforeParse`: the returned `Bool` is the function's result,
the lexer is the state it leaves behind. -/
def CheckBeforeParse (l : Lexer) : Bool × Lexer :=
  if l.current_token_ = Token.Eof then (false, l)
  else if l.input_ = [] then
    if l.count_indent_ > 0 then
      (false, { l with current_token_ := Token.Dedent,
                       count_indent_ := l.count_indent_ - 2 })
    else if l.current_token_ ≠ Token.Newline ∧ l.current_token_ ≠ Token.Dedent then
      (false, { l with current_token_ := Token.Newline })
    else
      (false, { l with current_token_ := Token.Eof })
  else if l.dedent_count_ > 0 then
    (false, { l with dedent_count_ := l.dedent_count_ - 1,
                     count_indent_ := l.count_indent_ - 2,
                     current_token_ := Token.Dedent })
  else (true, l)

/-- `Lexer::HandleCharCases`: the string after the `push_back`. -/
def HandleCharCases (string_to_push : List Char) (escaped_char ch : Char) : List Char :=
  if escaped_char = 'n' then string_to_push ++ ['\n']
  else if escaped_char = 't' then string_to_push ++ ['\t']
  else if escaped_char = 'r' then string_to_push ++ ['\r']
  else if escaped_char = '"' then string_to_push ++ ['"']
  else if escaped_char = '\'' then string_to_push ++ ['\'']
  else if escaped_char = '\\' then string_to_push ++ ['\\']
  else string_to_push ++ [ch]

/-- `Lexer::ParseKeyword`: the result and the lexer it leaves behind. -/
def ParseKeyword (s : String) (l : Lexer) : Bool × Lexer :=
  if s = "class" then (true, { l with current_token_ := Token.Class })
  else if s = "return" then (true, { l with current_token_ := Token.Return })
  else if s = "if" then (true, { l with current_token_ := Token.If })
  else if s = "else" then (true, { l with current_token_ := Token.Else })
  else if s = "def" then (true, { l with current_token_ := Token.Def })
  else if s = "print" then (true, { l with current_token_ := Token.Print })
  else if s = "and" then (true, { l with current_token_ := Token.And })
  else if s = "or" then (true, { l with current_token_ := Token.Or })
  else if s = "not" then (true, { l with current_token_ := Token.Not })
  else if s = "None" then (true, { l with current_token_ := Token.None })
  else if s = "True" then (true, { l with current_token_ := Token.True })
  else if s = "False" then (true, { l with current_token_ := Token.False })
  else (false, l)

/-- The `for` loop of `Lexer::ParseString` on the unread characters, with the
string `s` built so far: the value of `s` and the unread characters when the
closing quote `input` has been read, or `none` when the stream ends first
(then `get()` yields `EOF` for ever and the loop does not end). -/
def ParseStringLoop (input : Char) : List Char → List Char → Option (List Char × List Char)
  | [], _ => none
  | ch :: rest, s =>
    if ch = input then some (s, rest)
    else if ch = '\\' then
      match rest with
      | [] => none
      | escaped_char :: rest' =>
        ParseStringLoop input rest' (HandleCharCases s escaped_char ch)
    else ParseStringLoop input rest (s ++ [ch])

/-- `Lexer::ParseString`, entered after the opening quote has been read. -/
def ParseString (input : Char) (l : Lexer) : Except Failure Lexer :=
  match ParseStringLoop input l.input_ [] with
  | some (s, rest) =>
    .ok { l with input_ := rest, current_token_ := Token.String (String.mk s) }
  | none => .error Failure.unterminated_string

/-- The value `std::stoi` computes on a run of decimal digits. -/
def stoi (parsed_num : List Char) : Nat :=
  parsed_num.foldl (fun acc c => 10 * acc + (c.toNat - '0'.toNat)) 0

/-- `Lexer::ParseNumber`. -/
def ParseNumber (l : Lexer) : Except Failure Lexer :=
  let parsed_num := l.input_.takeWhile Char.isDigit
  if stoi parsed_num ≤ 2147483647 then
    .ok { l with input_ := l.input_.dropWhile Char.isDigit,
                 current_token_ := Token.Number (stoi parsed_num) }
  else .error Failure.out_of_range

/-- The loop condition of `Lexer::ParseIdentifier`. -/
def isIdentifierChar (c : Char) : Bool := c.isAlphanum || c = '_'

/-- `Lexer::ParseIdentifier`. -/
def ParseIdentifier (l : Lexer) : Lexer :=
  let s := String.mk (l.input_.takeWhile isIdentifierChar)
  let l1 : Lexer := { l with input_ := l.input_.dropWhile isIdentifierChar }
  let r := ParseKeyword s l1
  if r.1 then r.2 else { r.2 with current_token_ := Token.Id s }

/-- The loop `while (difference > 2) { difference -= 2; ++dedent_count_; }` of
`Lexer::ParseIndent`; the first argument bounds the number of iterations. -/
def dedentLoop : Nat → Int → Int → Int
  | 0, _, dedent_count => dedent_count
  | n + 1, difference, dedent_count =>
    if difference > 2 then dedentLoop n (difference - 2) (dedent_count + 1)
    else dedent_count

/-- What `Lexer::ParseIndent` does: either it returns in the given state, or
it ends in `return ParseToken();` to be run in the given state. -/
inductive IndentResult where
  | done (l : Lexer)
  | parse_token (l : Lexer)

/-- `Lexer::ParseIndent`, entered with the space put back. -/
def ParseIndent (l : Lexer) : IndentResult :=
  if l.current_token_ ≠ Token.Newline then
    .parse_token { l with input_ := l.input_.tail }
  else
    let count_spaces : Int := Int.ofNat (l.input_.takeWhile (· = ' ')).length
    let l1 : Lexer := { l with input_ := l.input_.dropWhile (· = ' ') }
    if count_spaces = l1.count_indent_ then
      .parse_token { l1 with is_code_block_ := true }
    else if count_spaces - l1.count_indent_ = 2 then
      .done { l1 with count_indent_ := l1.count_indent_ + 2,
                      current_token_ := Token.Indent }
    else
      let difference := l1.count_indent_ - count_spaces
      .done { l1 with current_token_ := Token.Dedent,
                      count_indent_ := l1.count_indent_ - 2,
                      dedent_count_ := dedentLoop difference.toNat difference l1.dedent_count_ }

/-- `Lexer::ParseSymbol`, entered with the character put back. -/
def ParseSymbol (l : Lexer) : Lexer :=
  match l.input_ with
  | [] => l
  | ch :: rest =>
    if ch = '=' then
      match rest with
      | '=' :: rest' => { l with input_ := rest', current_token_ := Token.Eq }
      | _ => { l with input_ := rest, current_token_ := Token.Char ch }
    else if ch = '>' then
      match rest with
      | '=' :: rest' => { l with input_ := rest', current_token_ := Token.GreaterOrEq }
      | _ => { l with input_ := rest, current_token_ := Token.Char ch }
    else if ch = '<' then
      match rest with
      | '=' :: rest' => { l with input_ := rest', current_token_ := Token.LessOrEq }
      | _ => { l with input_ := rest, current_token_ := Token.Char ch }
    else if ch = '!' then
      match rest with
      | '=' :: rest' => { l with input_ := rest', current_token_ := Token.NotEq }
      | _ => { l with input_ := rest }
    else { l with input_ := rest, current_token_ := Token.Char ch }

/-- `getline(input_, temp)`: the stream after the rest of the line and its
newline have been extracted. -/
def getline (input : List Char) : List Char :=
  (input.dropWhile (· ≠ '\n')).tail

/-- One activation of `Lexer::ParseToken`, up to its return or up to the
recursive call it makes. -/
inductive Step where
  /-- The activation returns in this state. -/
  | done (l : Lexer)
  /-- The activation calls `ParseToken()` in this state and returns right
  after that call (`return ParseToken();`, or `ParseToken(); return;`). -/
  | recur (l : Lexer)
  /-- `ParseIndent` calls `ParseToken()` in this state; when that call is
  back, the activation goes on to `is_start_line_ = false;`. -/
  | recur_from_indent (l : Lexer)

/-- The body of `Lexer::ParseToken`. -/
def ParseTokenBody (l : Lexer) : Except Failure Step :=
  let c := CheckBeforeParse l
  if c.1 = false then .ok (.done c.2)
  else
    match c.2.input_ with
    | [] => .ok (.done c.2)  -- not reached: `CheckBeforeParse` saw a character
    | ch :: rest =>
      let l1 : Lexer := { c.2 with input_ := rest }
      if ch = '#' then
        let l2 : Lexer := { l1 with input_ := getline rest, current_token_ := Token.Newline }
        if l2.is_start_line_ then .ok (.recur l2) else .ok (.done l2)
      else if ch = '\n' ∧ l1.current_token_ = Token.Newline then
        .ok (.recur { l1 with is_start_line_ := true })
      else if l1.is_start_line_ = true ∧ l1.count_indent_ > 0 ∧ ch ≠ ' ' ∧
          l1.is_code_block_ = false then
        .ok (.done { l1 with input_ := ch :: rest,
                             current_token_ := Token.Dedent,
                             count_indent_ := l1.count_indent_ - 2 })
      else
        let l2 : Lexer := { l1 with is_code_block_ := false }
        if ch = '\n' then
          .ok (.done { l2 with current_token_ := Token.Newline, is_start_line_ := true })
        else if ch = '\'' ∨ ch = '"' then
          (ParseString ch l2).map fun l3 => .done { l3 with is_start_line_ := false }
        else if ch.isDigit then
          (ParseNumber { l2 with input_ := ch :: rest }).map fun l3 =>
            .done { l3 with is_start_line_ := false }
        else if ch.isAlpha ∨ ch = '_' then
          .ok (.done { ParseIdentifier { l2 with input_ := ch :: rest } with
                       is_start_line_ := false })
        else if ch = ' ' then
          match ParseIndent { l2 with input_ := ch :: rest } with
          | .done l3 => .ok (.done { l3 with is_start_line_ := false })
          | .parse_token l3 => .ok (.recur_from_indent l3)
        else
          .ok (.done { ParseSymbol { l2 with input_ := ch :: rest } with
                       is_start_line_ := false })

/-- `Lexer::ParseToken` with a budget for the nested calls. -/
def ParseTokenFuel : Nat → Lexer → Except Failure Lexer
  | 0, _ => .error Failure.out_of_fuel
  | fuel + 1, l =>
    match ParseTokenBody l with
    | .error e => .error e
    | .ok (.done l1) => .ok l1
    | .ok (.recur l1) => ParseTokenFuel fuel l1
    | .ok (.recur_from_indent l1) =>
      (ParseTokenFuel fuel l1).map fun l2 => { l2 with is_start_line_ := false }

/-- `Lexer::ParseToken`: every nested call is made after at least one
character has been read, so the number of unread characters bounds the depth. -/
def ParseToken (l : Lexer) : Except Failure Lexer :=
  ParseTokenFuel (l.input_.length + 1) l

/-- `Lexer::NextToken`: the lexer after the call; the returned token is its
`CurrentToken`. -/
def NextToken (l : Lexer) : Except Failure Lexer := ParseToken l

/-- The constructor `Lexer::Lexer(std::istream&)`. -/
def Lexer.new (input : List Char) : Except Failure Lexer :=
  ParseToken { input_ := input.dropWhile (· = '\n') }

/-- The tokens a client reads from lexer `l`: its current token, then the
results of successive `NextToken` calls, up to and including the first `Eof`.
`none` when a call fails or `Eof` is not reached within `n` calls. -/
def tokensUntilEof : Nat → Lexer → Option (List Token)
  | 0, l => if l.current_token_ = Token.Eof then some [Token.Eof] else none
  | n + 1, l =>
    if l.current_token_ = Token.Eof then some [Token.Eof]
    else
      match NextToken l with
      | .ok l1 => (tokensUntilEof n l1).map (l.current_token_ :: ·)
      | .error _ => none

/-- Construct a lexer on `src` and read tokens up to the first `Eof`, making at
most `n` calls of `NextToken`. -/
def lex (n : Nat) (src : String) : Option (List Token) :=
  match Lexer.new src.toList with
  | .ok l => tokensUntilEof n l
  | .error _ => none

/-- `n` successive calls of `Lexer::NextToken`. -/
def NextTokenTimes : Nat → Lexer → Except Failure Lexer
  | 0, l => .ok l
  | n + 1, l =>
    match NextToken l with
    | .ok l1 => NextTokenTimes n l1
    | .error e => .error e

end parse

namespace runtime

/-- Modelled from the spec: `struct Method` is declared in `runtime.h`, which
is not among the sources; its members are the ones `runtime.cpp` reads.  `Body`
is the type of the statement a method owns. -/
structure Method (Body : Type) where
  name : String
  formal_params : List String
  body : Body
  deriving DecidableEq

/-- Modelled from the spec: `class Class` is declared in `runtime.h`; the
members `name_`, `methods_`, `parent_` are those its constructor in
`runtime.cpp` initialises.  `base` is a class whose `parent_` is null,
`derived` one whose `parent_` points to the given class. -/
inductive Class (Body : Type) where
  | base (name_ : String) (methods_ : List (Method Body))
  | derived (name_ : String) (methods_ : List (Method Body)) (parent_ : Class Body)
  deriving DecidableEq

/-- The member `methods_`. -/
def Class.methods_ {Body : Type} : Class Body → List (Method Body)
  | .base _ ms => ms
  | .derived _ ms _ => ms

/-- The member `parent_` (`none` for a null pointer). -/
def Class.parent_ {Body : Type} : Class Body → Option (Class Body)
  | .base _ _ => none
  | .derived _ _ p => some p

/-- `Class::GetName`. -/
def Class.GetName {Body : Type} : Class Body → String
  | .base n _ => n
  | .derived n _ _ => n

/-- `Class::GetMethod(const std::string& name)`: `std::find_if` over
`methods_`, then the parent. -/
def Class.GetMethodByName {Body : Type} : Class Body → String → Option (Method Body)
  | .base _ ms, name => ms.find? (fun value => value.name = name)
  | .derived _ ms p, name =>
    match ms.find? (fun value => value.name = name) with
    | some m => some m
    | none => p.GetMethodByName name

/-- `Class::GetMethod(const std::string& name, size_t args_count)`. -/
def Class.GetMethod {Body : Type} (c : Class Body) (name : String) (args_count : Nat) :
    Option (Method Body) :=
  match c.GetMethodByName name with
  | some method => if method.formal_params.length = args_count then some method else none
  | none => none

/-- Modelled from the spec: the object kinds of `runtime.h` (`Number`,
`String`, `Bool`, `Class`, `ClassInstance`).  An instance is known by the class
it was made from (`cls_`) and by the address under which its fields are kept. -/
inductive Object (Body : Type) where
  | Number (value : Int)
  | String (value : String)
  | Bool (value : Bool)
  | Class (cls : Class Body)
  | ClassInstance (cls_ : Class Body) (address : Nat)

/-- Modelled from the spec: `ObjectHolder` of `runtime.h`, null (`none`) or
referring to an object. -/
abbrev ObjectHolder (Body : Type) := Option (Object Body)

/-- `runtime::IsTrue`. -/
def IsTrue {Body : Type} (object : ObjectHolder Body) : Bool :=
  match object with
  | some (.Number value) => decide (value ≠ 0)
  | some (.String value) => !value.isEmpty
  | some (.Bool value) => value
  | _ => false

/-- The resolution rule as the specification words it: the class's own method
of that name and arity if it has one, otherwise what the parent resolves,
otherwise null. -/
def Class.GetMethodClaimed {Body : Type} : Class Body → String → Nat → Option (Method Body)
  | .base _ ms, name, args_count =>
    ms.find? (fun value => value.name = name ∧ value.formal_params.length = args_count)
  | .derived _ ms p, name, args_count =>
    match ms.find? (fun value => value.name = name ∧ value.formal_params.length = args_count) with
    | some m => some m
    | none => p.GetMethodClaimed name args_count

end runtime

/-! ## Runtime: closures, memory and calls -/

namespace runtime

/-- Modelled from the spec: `Closure` of `runtime.h`, the table from variable
names to holders.  `find name` is `none` when the name is not bound. -/
structure Closure (Body : Type) where
  find : String → Option (ObjectHolder Body)

/-- A closure without entries (`Closure closure;`). -/
def Closure.empty {Body : Type} : Closure Body := ⟨fun _ => none⟩

/-- The closure after `it->second = value` for the entry of `name`. -/
def Closure.assign {Body : Type} (c : Closure Body) (name : String)
    (value : ObjectHolder Body) : Closure Body :=
  ⟨fun k => if k = name then some value else c.find k⟩

/-- The call `closure.emplace(name, value)` of `std::unordered_map`: an entry
is inserted only if the name is not bound yet.  The result is the closure
after the call and `it->second`, the holder the entry of `name` has then. -/
def Closure.emplace {Body : Type} (c : Closure Body) (name : String)
    (value : ObjectHolder Body) : Closure Body × ObjectHolder Body :=
  match c.find name with
  | some old => (c, old)
  | none => (c.assign name value, value)

/-- Modelled from the spec: what a run acts on besides the closure it is
given.  `fields address` is the member `closure_` of the class instance kept
at that address, `output` is what has been written to the stream of
`Context::GetOutputStream`, and `pointer_text address` is the text that
`os << this` writes for the instance at that address. -/
structure World (Body : Type) where
  fields : Nat → Closure Body
  output : String
  pointer_text : Nat → String

/-- The world after `text` has been written to the output stream. -/
def World.write {Body : Type} (w : World Body) (text : String) : World Body :=
  { w with output := w.output ++ text }

/-- The world after the fields of the instance at `address` have become `c`. -/
def World.setFields {Body : Type} (w : World Body) (address : Nat) (c : Closure Body) :
    World Body :=
  { w with fields := fun a => if a = address then c else w.fields a }

/-- How a call ends: it returns a value, it is left by `throw` of an
`ObjectHolder` (the signal of `Return`), it is left by a `std::runtime_error`
with the given message, its behaviour is undefined (a null pointer is
dereferenced, `int` arithmetic overflows, `front()` of an empty vector), or
the budget of the model is used up.  The first three carry the state that the
call leaves behind. -/
inductive Outcome (Body σ α : Type) where
  | normal (value : α) (state : σ)
  | returned (value : ObjectHolder Body) (state : σ)
  | error (what : String) (state : σ)
  | undefined
  | out_of_fuel

/-- Go on with `f` after a call that returned; anything else leaves the
enclosing function too. -/
def Outcome.bind {Body σ α β : Type} (x : Outcome Body σ α)
    (f : α → σ → Outcome Body σ β) : Outcome Body σ β :=
  match x with
  | .normal value state => f value state
  | .returned value state => .returned value state
  | .error what state => .error what state
  | .undefined => .undefined
  | .out_of_fuel => .out_of_fuel

/-- The same outcome seen from a caller whose state is `g` of the callee's. -/
def Outcome.mapState {Body σ τ α : Type} (g : σ → τ) (x : Outcome Body σ α) :
    Outcome Body τ α :=
  match x with
  | .normal value state => .normal value (g state)
  | .returned value state => .returned value (g state)
  | .error what state => .error what (g state)
  | .undefined => .undefined
  | .out_of_fuel => .out_of_fuel

/-- The outcome with `h` applied to the value returned. -/
def Outcome.map {Body σ α β : Type} (h : α → β) (x : Outcome Body σ α) :
    Outcome Body σ β :=
  x.bind fun value state => .normal (h value) state

/-- The type of `Executable::Execute(Closure&, Context&)` for statements of
type `Body`: the state is the closure passed by reference and the world. -/
abbrev Exec (Body : Type) :=
  Body → Closure Body → World Body →
    Outcome Body (Closure Body × World Body) (ObjectHolder Body)

/-- `ClassInstance::CreateLocalClosure`, for the instance `self`. -/
def ClassInstance.CreateLocalClosure {Body : Type} (self : Object Body)
    (formal_params : List String) (actual_args : List (ObjectHolder Body)) : Closure Body :=
  (formal_params.zip actual_args).foldl (fun closure p => (closure.emplace p.1 p.2).1)
    (Closure.empty.emplace "self" (some self)).1

/-- `ClassInstance::Call(const Method*, actual_args, context)` on the instance
of class `cls_` at `address`; `exec` runs the body.  The `assert` of
`CreateLocalClosure` that both vectors have the same size is a precondition. -/
def ClassInstance.CallMethod {Body : Type} (exec : Exec Body) (cls_ : Class Body)
    (address : Nat) (method : Method Body) (actual_args : List (ObjectHolder Body))
    (context : World Body) : Outcome Body (World Body) (ObjectHolder Body) :=
  if method.formal_params.length = actual_args.length then
    (exec method.body
      (ClassInstance.CreateLocalClosure (Object.ClassInstance cls_ address)
        method.formal_params actual_args) context).mapState Prod.snd
  else .undefined

/-- `ClassInstance::HasMethod`. -/
def ClassInstance.HasMethod {Body : Type} (cls_ : Class Body) (method : String)
    (argument_count : Nat) : Bool :=
  (cls_.GetMethod method argument_count).isSome

/-- `ClassInstance::Call(const std::string& method, actual_args, context)`,
with `ClassInstance::GetMethod` inlined: the error is thrown when the class
resolves no method. -/
def ClassInstance.Call {Body : Type} (exec : Exec Body) (cls_ : Class Body) (address : Nat)
    (method : String) (actual_args : List (ObjectHolder Body)) (context : World Body) :
    Outcome Body (World Body) (ObjectHolder Body) :=
  match cls_.GetMethod method actual_args.length with
  | some ptr_method => ClassInstance.CallMethod exec cls_ address ptr_method actual_args context
  | none => .error ("Unknown method name: " ++ method) context

/-- The virtual `Object::Print(os, context)`: the text written to `os` and the
world after the call.  `Number` and `String` write their value (modelled from
the spec, their `Print` is in `runtime.h`), `Bool::Print`, `Class::Print` and
`ClassInstance::Print` are those of `runtime.cpp`.  The first argument bounds
the chain of `__str__` results that are instances themselves. -/
def PrintObject {Body : Type} (exec : Exec Body) :
    Nat → Object Body → World Body → Outcome Body (World Body) String
  | _, .Number value, context => .normal (toString value) context
  | _, .String value, context => .normal value context
  | _, .Bool value, context => .normal (if value then "True" else "False") context
  | _, .Class cls, context => .normal ("Class " ++ cls.GetName) context
  | fuel, .ClassInstance cls_ address, context =>
    match cls_.GetMethod "__str__" 0 with
    | none => .normal (context.pointer_text address) context
    | some ptr_method =>
      match fuel with
      | 0 => .out_of_fuel
      | fuel + 1 =>
        (ClassInstance.CallMethod exec cls_ address ptr_method [] context).bind
          fun object_holder context1 =>
            match object_holder with
            | some object => PrintObject exec fuel object context1
            | none => .undefined

/-- Printing a holder the way `Print::Execute` and `Stringify::Execute` do: a
null holder gives the text "None". -/
def PrintHolder {Body : Type} (exec : Exec Body) (fuel : Nat) (obj : ObjectHolder Body)
    (context : World Body) : Outcome Body (World Body) String :=
  match obj with
  | some object => PrintObject exec fuel object context
  | none => .normal "None" context

/-- The function objects `std::equal_to{}` and `std::less{}` handed to
`MakeComparison`. -/
inductive Compare where
  | equal_to
  | less
  deriving DecidableEq

/-- `cmp` on two `int` values. -/
def Compare.onInt : Compare → Int → Int → Bool
  | .equal_to, a, b => decide (a = b)
  | .less, a, b => decide (a < b)

/-- `cmp` on two `std::string` values. -/
def Compare.onString : Compare → String → String → Bool
  | .equal_to, a, b => decide (a = b)
  | .less, a, b => decide (a < b)

/-- `cmp` on two `bool` values. -/
def Compare.onBool : Compare → Bool → Bool → Bool
  | .equal_to, a, b => decide (a = b)
  | .less, a, b => !a && b

/-- `runtime::MakeComparison`. -/
def MakeComparison {Body : Type} (exec : Exec Body) (lhs rhs : ObjectHolder Body)
    (context : World Body) (func_name : String) (cmp : Compare) :
    Outcome Body (World Body) Bool :=
  match lhs, rhs with
  | some (.ClassInstance cls_ address), some r =>
    (ClassInstance.Call exec cls_ address func_name [some r] context).map IsTrue
  | some (.String a), some (.String b) => .normal (cmp.onString a b) context
  | some (.Number a), some (.Number b) => .normal (cmp.onInt a b) context
  | some (.Bool a), some (.Bool b) => .normal (cmp.onBool a b) context
  | _, _ => .error ("Cannot compare objects for " ++ func_name) context

/-- `runtime::Equal`. -/
def Equal {Body : Type} (exec : Exec Body) (lhs rhs : ObjectHolder Body)
    (context : World Body) : Outcome Body (World Body) Bool :=
  match lhs, rhs with
  | none, none => .normal true context
  | _, _ => MakeComparison exec lhs rhs context "__eq__" Compare.equal_to

/-- `runtime::Less`. -/
def Less {Body : Type} (exec : Exec Body) (lhs rhs : ObjectHolder Body)
    (context : World Body) : Outcome Body (World Body) Bool :=
  MakeComparison exec lhs rhs context "__lt__" Compare.less

/-- `runtime::NotEqual`. -/
def NotEqual {Body : Type} (exec : Exec Body) (lhs rhs : ObjectHolder Body)
    (context : World Body) : Outcome Body (World Body) Bool :=
  (Equal exec lhs rhs context).map (!·)

/-- `runtime::Greater`: `!Less(...) && !Equal(...)`, where `Equal` is only
called when `Less` returned false. -/
def Greater {Body : Type} (exec : Exec Body) (lhs rhs : ObjectHolder Body)
    (context : World Body) : Outcome Body (World Body) Bool :=
  (Less exec lhs rhs context).bind fun less context1 =>
    if less then .normal false context1
    else (Equal exec lhs rhs context1).map (!·)

/-- `runtime::LessOrEqual`. -/
def LessOrEqual {Body : Type} (exec : Exec Body) (lhs rhs : ObjectHolder Body)
    (context : World Body) : Outcome Body (World Body) Bool :=
  (Greater exec lhs rhs context).map (!·)

/-- `runtime::GreaterOrEqual`. -/
def GreaterOrEqual {Body : Type} (exec : Exec Body) (lhs rhs : ObjectHolder Body)
    (context : World Body) : Outcome Body (World Body) Bool :=
  (Less exec lhs rhs context).map (!·)

end runtime

/-! ## Syntax tree: the statements and their `Execute` -/

namespace ast

open runtime

/-- Modelled from the spec: the `Comparator` a `Comparison` node holds is one
of the six comparison functions of `runtime.cpp`. -/
inductive Comparator where
  | Equal | NotEqual | Less | Greater | LessOrEqual | GreaterOrEqual
  deriving DecidableEq

/-- Modelled from the spec: the node classes of `statement.h`, each with the
members its constructor and its `Execute` in `statement.cpp` use.  A
`FieldAssignment` holds its `VariableValue` by its dotted names, a
`ClassDefinition` the class its holder refers to, and a `NewInstance` the
class and the address of the one `ClassInstance` member (`instance_`) that
the node owns. -/
inductive Statement where
  | NumericConst (value : Int)
  | StringConst (value : String)
  | BoolConst (value : Bool)
  | NoneConst
  | VariableValue (dotted_ids_ : List String)
  | Assignment (var_name_ : String) (rv_ : Statement)
  | FieldAssignment (object_ : List String) (field_name_ : String) (rv_ : Statement)
  | Print (args_ : List Statement)
  | Stringify (argument_ : Statement)
  | MethodCall (object_ : Statement) (method_ : String) (args_ : List Statement)
  | Add (lhs_ rhs_ : Statement)
  | Sub (lhs_ rhs_ : Statement)
  | Mult (lhs_ rhs_ : Statement)
  | Div (lhs_ rhs_ : Statement)
  | Or (lhs_ rhs_ : Statement)
  | And (lhs_ rhs_ : Statement)
  | Not (argument_ : Statement)
  | Compound (statements_ : List Statement)
  | MethodBody (body_ : Statement)
  | Return (statement_ : Statement)
  | ClassDefinition (cls_ : Class Statement)
  | IfElse (condition_ if_body_ : Statement) (else_body_ : Option Statement)
  | Comparison (cmp_ : Comparator) (lhs_ rhs_ : Statement)
  | NewInstance (instance_ : Nat) (cls : Class Statement) (args_ : List Statement)

/-- A holder of objects whose methods own statements. -/
abbrev Holder := ObjectHolder Statement

/-- The state `Execute` acts on: the closure passed by reference and the world. -/
abbrev State := Closure Statement × World Statement

/-- The outcome of `Execute`. -/
abbrev Result := Outcome Statement State Holder

/-- The comparison function a `Comparator` stands for. -/
def Comparator.call (cmp : Comparator) (exec : Exec Statement) (lhs rhs : Holder)
    (context : World Statement) : Outcome Statement (World Statement) Bool :=
  match cmp with
  | .Equal => runtime.Equal exec lhs rhs context
  | .NotEqual => runtime.NotEqual exec lhs rhs context
  | .Less => runtime.Less exec lhs rhs context
  | .Greater => runtime.Greater exec lhs rhs context
  | .LessOrEqual => runtime.LessOrEqual exec lhs rhs context
  | .GreaterOrEqual => runtime.GreaterOrEqual exec lhs rhs context

/-- The result of `int` arithmetic: the exact value when it is representable
in 32 bits, undefined behaviour otherwise. -/
def intResult (number : Int) (state : State) : Result :=
  if -2147483648 ≤ number ∧ number ≤ 2147483647 then
    .normal (some (Object.Number number)) state
  else .undefined

/-- The loop of `VariableValue::Execute` over `dotted_ids_[1..]`, with the
holder found so far. -/
def VariableValue.fieldLoop (closure : Closure Statement) (context : World Statement) :
    List String → Holder → Result
  | [], found_object => .normal found_object (closure, context)
  | id :: rest, found_object =>
    match found_object with
    | some (.ClassInstance _ address) =>
      match (context.fields address).find id with
      | some next => VariableValue.fieldLoop closure context rest next
      | none => .error "Not find variable" (closure, context)
    | _ => .undefined

/-- `VariableValue::Execute`. -/
def VariableValue.Execute (dotted_ids_ : List String) (closure : Closure Statement)
    (context : World Statement) : Result :=
  match dotted_ids_ with
  | [] => .undefined
  | front :: rest =>
    match closure.find front with
    | none => .error "Not find variable" (closure, context)
    | some found_object => VariableValue.fieldLoop closure context rest found_object

/-- `Assignment::Execute`. -/
def Assignment.Execute (exec : Exec Statement) (var_name_ : String) (rv_ : Statement)
    (closure : Closure Statement) (context : World Statement) : Result :=
  match closure.find var_name_ with
  | some _ =>
    (exec rv_ closure context).bind fun value state =>
      .normal value (state.1.assign var_name_ value, state.2)
  | none =>
    (exec rv_ closure context).bind fun value state =>
      .normal (state.1.emplace var_name_ value).2
        ((state.1.emplace var_name_ value).1, state.2)

/-- `FieldAssignment::Execute`. -/
def FieldAssignment.Execute (exec : Exec Statement) (object_ : List String)
    (field_name_ : String) (rv_ : Statement) (closure : Closure Statement)
    (context : World Statement) : Result :=
  (VariableValue.Execute object_ closure context).bind fun ex state =>
    match ex with
    | some (.ClassInstance _ address) =>
      match (state.2.fields address).find field_name_ with
      | some _ =>
        (exec rv_ state.1 state.2).bind fun value state1 =>
          .normal value
            (state1.1,
              state1.2.setFields address ((state1.2.fields address).assign field_name_ value))
      | none =>
        (exec rv_ state.1 state.2).bind fun value state1 =>
          .normal ((state1.2.fields address).emplace field_name_ value).2
            (state1.1,
              state1.2.setFields address ((state1.2.fields address).emplace field_name_ value).1)
    | _ => .undefined

/-- One argument of `Print::Execute`: it is executed, printed to the output
stream (`None` for a null holder), and `separator` is written after it. -/
def Print.argument (exec : Exec Statement) (fuel : Nat) (arg : Statement) (separator : String)
    (closure : Closure Statement) (context : World Statement) :
    Outcome Statement State Unit :=
  (exec arg closure context).bind fun obj state =>
    ((PrintHolder exec fuel obj state.2).mapState fun context1 => (state.1, context1)).bind
      fun text state1 => .normal () (state1.1, (state1.2.write text).write separator)

/-- The loop of `Print::Execute` over all arguments but the last, followed by
the last argument, for a non-empty `args_`. -/
def Print.loop (exec : Exec Statement) (fuel : Nat) :
    List Statement → Closure Statement → World Statement → Result
  | [], closure, context => .normal none (closure, context)
  | [last], closure, context =>
    (Print.argument exec fuel last "\n" closure context).bind fun _ state =>
      .normal none state
  | arg :: rest, closure, context =>
    (Print.argument exec fuel arg " " closure context).bind fun _ state =>
      Print.loop exec fuel rest state.1 state.2

/-- `Print::Execute`. -/
def Print.Execute (exec : Exec Statement) (fuel : Nat) (args_ : List Statement)
    (closure : Closure Statement) (context : World Statement) : Result :=
  match args_ with
  | [] => .normal none (closure, context.write "\n")
  | _ => Print.loop exec fuel args_ closure context

/-- `Stringify::Execute`. -/
def Stringify.Execute (exec : Exec Statement) (fuel : Nat) (argument_ : Statement)
    (closure : Closure Statement) (context : World Statement) : Result :=
  (exec argument_ closure context).bind fun obj state =>
    ((PrintHolder exec fuel obj state.2).mapState fun context1 => (state.1, context1)).bind
      fun text state1 => .normal (some (Object.String text)) state1

/-- The loops `for (const auto& arg : args_) actual_args.push_back(...)` of
`MethodCall::Execute` and `NewInstance::Execute`. -/
def ExecuteArgs (exec : Exec Statement) :
    List Statement → Closure Statement → World Statement →
      Outcome Statement State (List Holder)
  | [], closure, context => .normal [] (closure, context)
  | arg :: rest, closure, context =>
    (exec arg closure context).bind fun temp_obj state =>
      (ExecuteArgs exec rest state.1 state.2).bind fun actual_args state1 =>
        .normal (temp_obj :: actual_args) state1

/-- `MethodCall::Execute`. -/
def MethodCall.Execute (exec : Exec Statement) (object_ : Statement) (method_ : String)
    (args_ : List Statement) (closure : Closure Statement) (context : World Statement) :
    Result :=
  (exec object_ closure context).bind fun obj state =>
    (ExecuteArgs exec args_ state.1 state.2).bind fun actual_args state1 =>
      match obj with
      | some (.ClassInstance cls_ address) =>
        (ClassInstance.Call exec cls_ address method_ actual_args state1.2).mapState
          fun context1 => (state1.1, context1)
      | _ => .undefined

/-- `Add::Execute`. -/
def Add.Execute (exec : Exec Statement) (lhs_ rhs_ : Statement)
    (closure : Closure Statement) (context : World Statement) : Result :=
  (exec lhs_ closure context).bind fun lhs state =>
    (exec rhs_ state.1 state.2).bind fun rhs state1 =>
      match lhs, rhs with
      | some (.Number a), some (.Number b) => intResult (a + b) state1
      | some (.String a), some (.String b) => .normal (some (Object.String (a ++ b))) state1
      | some (.ClassInstance cls_ address), _ =>
        if ClassInstance.HasMethod cls_ "__add__" 1 then
          (ClassInstance.Call exec cls_ address "__add__" [rhs] state1.2).mapState
            fun context1 => (state1.1, context1)
        else .error "No __add__ method" state1
      | _, _ => .error "No __add__ method" state1

/-- `Sub::Execute`. -/
def Sub.Execute (exec : Exec Statement) (lhs_ rhs_ : Statement)
    (closure : Closure Statement) (context : World Statement) : Result :=
  (exec lhs_ closure context).bind fun lhs state =>
    (exec rhs_ state.1 state.2).bind fun rhs state1 =>
      match lhs, rhs with
      | some (.Number a), some (.Number b) => intResult (a - b) state1
      | _, _ => .error "lhs or rhs not Number" state1

/-- `Mult::Execute`. -/
def Mult.Execute (exec : Exec Statement) (lhs_ rhs_ : Statement)
    (closure : Closure Statement) (context : World Statement) : Result :=
  (exec lhs_ closure context).bind fun lhs state =>
    (exec rhs_ state.1 state.2).bind fun rhs state1 =>
      match lhs, rhs with
      | some (.Number a), some (.Number b) => intResult (a * b) state1
      | _, _ => .error "lhs or rhs not Number" state1

/-- `Div::Execute`; `/` on `int` truncates toward zero. -/
def Div.Execute (exec : Exec Statement) (lhs_ rhs_ : Statement)
    (closure : Closure Statement) (context : World Statement) : Result :=
  (exec lhs_ closure context).bind fun lhs state =>
    (exec rhs_ state.1 state.2).bind fun rhs state1 =>
      match lhs, rhs with
      | some (.Number a), some (.Number b) =>
        if b = 0 then .error "Division by zero" state1
        else intResult (Int.tdiv a b) state1
      | _, _ => .error "lhs or rhs not Number" state1

/-- `Or::Execute`. -/
def Or.Execute (exec : Exec Statement) (lhs_ rhs_ : Statement)
    (closure : Closure Statement) (context : World Statement) : Result :=
  (exec lhs_ closure context).bind fun lhs state =>
    (exec rhs_ state.1 state.2).bind fun rhs state1 =>
      .normal (some (Object.Bool (IsTrue lhs || IsTrue rhs))) state1

/-- `And::Execute`. -/
def And.Execute (exec : Exec Statement) (lhs_ rhs_ : Statement)
    (closure : Closure Statement) (context : World Statement) : Result :=
  (exec lhs_ closure context).bind fun lhs state =>
    (exec rhs_ state.1 state.2).bind fun rhs state1 =>
      .normal (some (Object.Bool (IsTrue lhs && IsTrue rhs))) state1

/-- `Not::Execute`. -/
def Not.Execute (exec : Exec Statement) (argument_ : Statement)
    (closure : Closure Statement) (context : World Statement) : Result :=
  (exec argument_ closure context).bind fun arg state =>
    .normal (some (Object.Bool (!IsTrue arg))) state

/-- `Compound::Execute`. -/
def Compound.Execute (exec : Exec Statement) :
    List Statement → Closure Statement → World Statement → Result
  | [], closure, context => .normal none (closure, context)
  | stmt :: rest, closure, context =>
    (exec stmt closure context).bind fun _ state =>
      Compound.Execute exec rest state.1 state.2

/-- `MethodBody::Execute`: the `try` block with its `catch (ObjectHolder&)`. -/
def MethodBody.Execute (exec : Exec Statement) (body_ : Statement)
    (closure : Closure Statement) (context : World Statement) : Result :=
  match exec body_ closure context with
  | .normal _ state => .normal none state
  | .returned obj state => .normal obj state
  | .error what state => .error what state
  | .undefined => .undefined
  | .out_of_fuel => .out_of_fuel

/-- `Return::Execute`: the value of the statement is thrown. -/
def Return.Execute (exec : Exec Statement) (statement_ : Statement)
    (closure : Closure Statement) (context : World Statement) : Result :=
  (exec statement_ closure context).bind fun value state => .returned value state

/-- `ClassDefinition::Execute`. -/
def ClassDefinition.Execute (cls_ : Class Statement) (closure : Closure Statement)
    (context : World Statement) : Result :=
  .normal (closure.emplace cls_.GetName (some (Object.Class cls_))).2
    ((closure.emplace cls_.GetName (some (Object.Class cls_))).1, context)

/-- `IfElse::Execute`. -/
def IfElse.Execute (exec : Exec Statement) (condition_ if_body_ : Statement)
    (else_body_ : Option Statement) (closure : Closure Statement)
    (context : World Statement) : Result :=
  (exec condition_ closure context).bind fun condition state =>
    if IsTrue condition then exec if_body_ state.1 state.2
    else
      match else_body_ with
      | some else_body => exec else_body state.1 state.2
      | none => .normal none state

/-- `Comparison::Execute`. -/
def Comparison.Execute (exec : Exec Statement) (cmp_ : Comparator) (lhs_ rhs_ : Statement)
    (closure : Closure Statement) (context : World Statement) : Result :=
  (exec lhs_ closure context).bind fun lhs state =>
    (exec rhs_ state.1 state.2).bind fun rhs state1 =>
      ((cmp_.call exec lhs rhs state1.2).mapState fun context1 => (state1.1, context1)).bind
        fun result state2 => .normal (some (Object.Bool result)) state2

/-- `NewInstance::Execute`. -/
def NewInstance.Execute (exec : Exec Statement) (instance_ : Nat) (cls : Class Statement)
    (args_ : List Statement) (closure : Closure Statement) (context : World Statement) :
    Result :=
  (ExecuteArgs exec args_ closure context).bind fun actual_args state =>
    if ClassInstance.HasMethod cls "__init__" actual_args.length then
      ((ClassInstance.Call exec cls instance_ "__init__" actual_args state.2).mapState
        fun context1 => (state.1, context1)).bind
        fun _ state1 => .normal (some (Object.ClassInstance cls instance_)) state1
    else .normal (some (Object.ClassInstance cls instance_)) state

/-- The virtual call `statement->Execute(closure, context)`, with a budget for
the depth of nested calls. -/
def Execute : Nat → Statement → Closure Statement → World Statement → Result
  | 0, _, _, _ => .out_of_fuel
  | fuel + 1, statement, closure, context =>
    match statement with
    | .NumericConst value => .normal (some (Object.Number value)) (closure, context)
    | .StringConst value => .normal (some (Object.String value)) (closure, context)
    | .BoolConst value => .normal (some (Object.Bool value)) (closure, context)
    | .NoneConst => .normal none (closure, context)
    | .VariableValue dotted_ids_ => VariableValue.Execute dotted_ids_ closure context
    | .Assignment var_name_ rv_ =>
      Assignment.Execute (Execute fuel) var_name_ rv_ closure context
    | .FieldAssignment object_ field_name_ rv_ =>
      FieldAssignment.Execute (Execute fuel) object_ field_name_ rv_ closure context
    | .Print args_ => Print.Execute (Execute fuel) fuel args_ closure context
    | .Stringify argument_ => Stringify.Execute (Execute fuel) fuel argument_ closure context
    | .MethodCall object_ method_ args_ =>
      MethodCall.Execute (Execute fuel) object_ method_ args_ closure context
    | .Add lhs_ rhs_ => Add.Execute (Execute fuel) lhs_ rhs_ closure context
    | .Sub lhs_ rhs_ => Sub.Execute (Execute fuel) lhs_ rhs_ closure context
    | .Mult lhs_ rhs_ => Mult.Execute (Execute fuel) lhs_ rhs_ closure context
    | .Div lhs_ rhs_ => Div.Execute (Execute fuel) lhs_ rhs_ closure context
    | .Or lhs_ rhs_ => Or.Execute (Execute fuel) lhs_ rhs_ closure context
    | .And lhs_ rhs_ => And.Execute (Execute fuel) lhs_ rhs_ closure context
    | .Not argument_ => Not.Execute (Execute fuel) argument_ closure context
    | .Compound statements_ => Compound.Execute (Execute fuel) statements_ closure context
    | .MethodBody body_ => MethodBody.Execute (Execute fuel) body_ closure context
    | .Return statement_ => Return.Execute (Execute fuel) statement_ closure context
    | .ClassDefinition cls_ => ClassDefinition.Execute cls_ closure context
    | .IfElse condition_ if_body_ else_body_ =>
      IfElse.Execute (Execute fuel) condition_ if_body_ else_body_ closure context
    | .Comparison cmp_ lhs_ rhs_ =>
      Comparison.Execute (Execute fuel) cmp_ lhs_ rhs_ closure context
    | .NewInstance instance_ cls args_ =>
      NewInstance.Execute (Execute fuel) instance_ cls args_ closure context

end ast

/-! ## Vocabulary of the properties -/

namespace parse

/-- The reserved words as the specification lists them, each with the keyword
token it stands for. -/
def keywords : List (String × Token) :=
  [("class", Token.Class), ("return", Token.Return), ("if", Token.If),
   ("else", Token.Else), ("def", Token.Def), ("print", Token.Print),
   ("and", Token.And), ("or", Token.Or), ("not", Token.Not),
   ("None", Token.None), ("True", Token.True), ("False", Token.False)]

/-- The escape table of string literals as the specification gives it: the
character after the backslash and the byte it stands for. -/
def escapeTable : List (Char × Char) :=
  [('n', '\n'), ('t', '\t'), ('r', '\r'), ('"', '"'), ('\'', '\''), ('\\', '\\')]

/-- The lexer before the constructor makes its first `ParseToken` call: the
leading newlines have been skipped. -/
def Lexer.start (input : List Char) : Lexer :=
  { input_ := input.dropWhile (· = '\n') }

/-- The states in which the activations of one `ParseToken` call begin: the
state of the call itself, then the state of every nested call. -/
def activations : Nat → Lexer → List Lexer
  | 0, _ => []
  | fuel + 1, l =>
    l :: match ParseTokenBody l with
      | .ok (.recur l1) => activations fuel l1
      | .ok (.recur_from_indent l1) => activations fuel l1
      | _ => []

/-- An activation beginning in `l` measures the indentation of a line: a
character is parsed, it is a space, and the current token is `Newline`, so
`ParseIndent` counts the leading spaces. -/
def countsLine (l : Lexer) : Bool :=
  (CheckBeforeParse l).1 && l.input_.head? == some ' ' &&
    l.current_token_ == Token.Newline

/-- The line an activation measures is well indented: the number of leading
spaces is even and exceeds the active indentation by at most 2. -/
def wellIndentedAt (l : Lexer) : Bool :=
  !countsLine l ||
    ((l.input_.takeWhile (· = ' ')).length % 2 == 0 &&
      decide (Int.ofNat (l.input_.takeWhile (· = ' ')).length ≤ l.count_indent_ + 2))

/-- The activation beginning in `l` does not start at a `'!'` that no `'='`
follows (the one character for which `ParseSymbol` sets no token). -/
def noLoneBangAt (l : Lexer) : Bool :=
  match l.input_ with
  | '!' :: '=' :: _ => true
  | '!' :: _ => false
  | _ => true

/-- Property `P` holds at the start of every activation of `ParseToken` during
the first `n` calls made on lexer `l`. -/
def holdsDuring (P : Lexer → Bool) : Nat → Lexer → Bool
  | 0, _ => true
  | n + 1, l =>
    (activations (l.input_.length + 1) l).all P &&
      match ParseToken l with
      | .ok l1 => holdsDuring P n l1
      | .error _ => true

/-- The weight of a token in the indentation balance. -/
def indentWeight : Token → Int
  | Token.Indent => 2
  | Token.Dedent => -2
  | _ => 0

/-- The line-start flag is only up after a layout token: when
`is_start_line_` is set, the current token is `Newline`, `Dedent` or `Eof`. -/
def flagOk (l : Lexer) : Prop :=
  l.is_start_line_ = true →
    l.current_token_ = Token.Newline ∨ l.current_token_ = Token.Dedent ∨
      l.current_token_ = Token.Eof

/-- The indentation counters are consistent: `count_indent_` is an even
number that is not negative, and while characters remain the pending dedents
do not go below column 0. -/
def indentOk (l : Lexer) : Prop :=
  0 ≤ l.count_indent_ ∧ l.count_indent_ % 2 = 0 ∧ 0 ≤ l.dedent_count_ ∧
    (l.input_ ≠ [] → 2 * l.dedent_count_ ≤ l.count_indent_)

/-- The activation of `ParseToken` beginning in `l` assigns `current_token_`.
Every path through `CheckBeforeParse` and through the body does, except: the
return of `CheckBeforeParse` at `Eof`; a `'\n'` read while the current token
is `Newline`; the two branches of `ParseIndent` that go on with `ParseToken()`
(spaces after a token that is not `Newline`, and a line indented like the one
before); and `ParseSymbol` at a `'!'` that no `'='` follows. -/
def assignsAt (l : Lexer) : Bool :=
  if l.current_token_ = Token.Eof then false
  else if l.input_ = [] then true
  else if l.dedent_count_ > 0 then true
  else
    match l.input_ with
    | [] => true
    | ch :: rest =>
      if ch = '#' then true
      else if ch = '\n' ∧ l.current_token_ = Token.Newline then false
      else if l.is_start_line_ = true ∧ l.count_indent_ > 0 ∧ ch ≠ ' ' ∧
          l.is_code_block_ = false then true
      else if ch = ' ' then
        decide (l.current_token_ = Token.Newline ∧
          Int.ofNat ((ch :: rest).takeWhile (· = ' ')).length ≠ l.count_indent_)
      else if ch = '!' then decide (rest.head? = some '=')
      else true

/-- The token that a `ParseToken` call made in `l` and returning in `r` emits:
the value of `current_token_` at the return if an activation of the call has
assigned `current_token_`, and no token otherwise. -/
def emitted (l r : Lexer) : Option Token :=
  if (activations (l.input_.length + 1) l).any assignsAt then some r.current_token_
  else none

/-- The tokens emitted by `n` successive `NextToken` calls on `l`, oldest
first, and the lexer after the last call. -/
def emittedTokens : Nat → Lexer → Except Failure (List Token × Lexer)
  | 0, l => .ok ([], l)
  | n + 1, l =>
    match NextToken l with
    | .ok l1 => (emittedTokens n l1).map fun p => ((emitted l l1).toList ++ p.1, p.2)
    | .error e => .error e

/-- The tokens emitted by the constructor on `src` and by the `n` calls of
`NextToken` after it, oldest first, and the lexer after the last call. -/
def emittedAfter (n : Nat) (src : String) : Except Failure (List Token × Lexer) :=
  match Lexer.new src.toList with
  | .ok l =>
    (emittedTokens n l).map fun p =>
      ((emitted (Lexer.start src.toList) l).toList ++ p.1, p.2)
  | .error e => .error e

/-- The lexer right after the Dedent tokens of a line have been returned: the
first character `ch` of the line is unread, no dedent is pending. -/
def Lexer.afterDedents (ch : Char) (rest : List Char) (count_indent : Int) : Lexer :=
  { input_ := ch :: rest, current_token_ := Token.Dedent, count_indent_ := count_indent,
    dedent_count_ := 0, is_start_line_ := false, is_code_block_ := false }

/-- An activation beginning in `l` does not start at a string literal that is
not closed before the end of the input, nor at a run of digits that does not
fit in a 32-bit `int`. -/
def literalOkAt (l : Lexer) : Bool :=
  match l.input_ with
  | ch :: rest =>
    if ch = '\'' ∨ ch = '"' then (ParseStringLoop ch rest []).isSome
    else if ch.isDigit then decide (stoi (l.input_.takeWhile Char.isDigit) ≤ 2147483647)
    else true
  | [] => true

/-- How far a token is from `Eof` in the steps at the end of the input. -/
def tokenRank : Token → Nat
  | Token.Eof => 0
  | Token.Newline => 1
  | Token.Dedent => 1
  | _ => 2

/-- A bound on the number of `NextToken` calls that are still needed to reach
`Eof`: unread characters, open indentation, and the last steps. -/
def workLeft (l : Lexer) : Nat :=
  4 * l.input_.length + l.count_indent_.toNat + tokenRank l.current_token_

/-- While characters remain, the pending dedents do not go below column 0. -/
def pendingOk (l : Lexer) : Prop :=
  l.input_ ≠ [] → 0 < l.dedent_count_ → 2 * l.dedent_count_ ≤ l.count_indent_

/-- What an activation of `ParseToken` that returns without a nested call does
to the stream and to the indentation counters, from `l` to `r`: it reads at
least one character; or it returns a Dedent at column 0 or at the end of the
input; or it returns a pending Dedent; or it makes one of the last two steps
at the end of the input. -/
def StepKind (l r : Lexer) : Prop :=
  (r.input_.length < l.input_.length ∧ l.dedent_count_ ≤ 0 ∧
    (r.count_indent_ = l.count_indent_ ∨ r.count_indent_ = l.count_indent_ + 2 ∨
      r.count_indent_ = l.count_indent_ - 2) ∧
    (r.dedent_count_ = l.dedent_count_ ∨
      (r.current_token_ = Token.Dedent ∧ l.dedent_count_ ≤ r.dedent_count_ ∧
        (0 < r.dedent_count_ → 2 * r.dedent_count_ ≤ r.count_indent_)))) ∨
  (r.input_ = l.input_ ∧ r.count_indent_ = l.count_indent_ - 2 ∧ 0 < l.count_indent_ ∧
    r.current_token_ = Token.Dedent ∧ r.dedent_count_ = l.dedent_count_ ∧
    (l.dedent_count_ ≤ 0 ∨ l.input_ = [])) ∨
  (r.input_ = l.input_ ∧ l.input_ ≠ [] ∧ 0 < l.dedent_count_ ∧
    r.dedent_count_ = l.dedent_count_ - 1 ∧ r.count_indent_ = l.count_indent_ - 2 ∧
    r.current_token_ = Token.Dedent) ∨
  (l.input_ = [] ∧ r.input_ = [] ∧ r.count_indent_ = l.count_indent_ ∧
    r.dedent_count_ = l.dedent_count_ ∧
    ((r.current_token_ = Token.Newline ∧ l.current_token_ ≠ Token.Newline ∧
        l.current_token_ ≠ Token.Dedent) ∨ r.current_token_ = Token.Eof))

end parse

namespace runtime

/-- A parent class with a method `f` of no parameters. -/
def exampleParent : Class Unit := .base "P" [⟨"f", [], ()⟩]

/-- A child class that defines `f` with one parameter only. -/
def exampleChild : Class Unit := .derived "C" [⟨"f", ["x"], ()⟩] exampleParent

/-- The world at the start of a run: no instance has a field and nothing has
been written. -/
def World.initial {Body : Type} : World Body :=
  ⟨fun _ => Closure.empty, "", fun address => "<instance " ++ toString address ++ ">"⟩

/-- The dynamic types of objects. -/
inductive Kind where
  | Number | String | Bool | Class | ClassInstance
  deriving DecidableEq

/-- The dynamic type of an object. -/
def Object.kind {Body : Type} : Object Body → Kind
  | .Number _ => Kind.Number
  | .String _ => Kind.String
  | .Bool _ => Kind.Bool
  | .Class _ => Kind.Class
  | .ClassInstance _ _ => Kind.ClassInstance

/-- The methods of a class and of its ancestors, the class's own first. -/
def Class.allMethods {Body : Type} : Class Body → List (Method Body)
  | .base _ ms => ms
  | .derived _ ms p => ms ++ p.allMethods

/-- Both holders are Numbers, both are Strings or both are Bools. -/
def bothPrimitive {Body : Type} (a b : ObjectHolder Body) : Prop :=
  (∃ x y : Int, a = some (Object.Number x) ∧ b = some (Object.Number y)) ∨
  (∃ x y : String, a = some (Object.String x) ∧ b = some (Object.String y)) ∨
  (∃ x y : Bool, a = some (Object.Bool x) ∧ b = some (Object.Bool y))

end runtime

namespace ast

open runtime

/-- A class whose `__eq__` and `__lt__` answer without looking at the operand
and whose `__add__` returns the operand. -/
def exampleComparable : Class Statement :=
  .base "Comparable" [
    ⟨"__eq__", ["other"], .MethodBody (.Return (.BoolConst true))⟩,
    ⟨"__lt__", ["other"], .MethodBody (.Return (.BoolConst false))⟩,
    ⟨"__add__", ["other"], .MethodBody (.Return (.VariableValue ["other"]))⟩]

/-- A class without methods. -/
def examplePlain : Class Statement := .base "Plain" []

/-- A class whose method `speak` prints before it returns. -/
def exampleTalker : Class Statement :=
  .base "Talker" [⟨"speak", [],
    .MethodBody (.Compound [.Print [.StringConst "x"], .Return (.NumericConst 1)])⟩]

/-- A class whose method `set` stores 1 in the field `x` of the instance and
returns 2. -/
def exampleSetter : Class Statement :=
  .base "Setter" [⟨"set", [],
    .MethodBody (.Compound [.FieldAssignment ["self"] "x" (.NumericConst 1),
      .Return (.NumericConst 2)])⟩]

/-- A class whose `__init__` stores its argument in the field `x`. -/
def exampleBox : Class Statement :=
  .base "Box" [⟨"__init__", ["v"],
    .MethodBody (.FieldAssignment ["self"] "x" (.VariableValue ["v"]))⟩]

/-- A class whose method `f` without parameters calls `self.f(1)`, a call
that no method of the class accepts. -/
def exampleRecaller : Class Statement :=
  .base "Recaller" [⟨"f", [],
    .MethodBody (.Return (.MethodCall (.VariableValue ["self"]) "f" [.NumericConst 1]))⟩]

/-- A node that makes a `Box` from the argument 1; it owns the instance at
address 0. -/
def exampleNewBox : Statement := .NewInstance 0 exampleBox [.NumericConst 1]

/-- A program that executes the node `exampleNewBox` twice, and between the
two executions sets the field `y` and changes the field `x` of the instance. -/
def exampleTwice : Statement :=
  .Compound [.Assignment "p" exampleNewBox,
    .FieldAssignment ["p"] "y" (.NumericConst 5),
    .FieldAssignment ["p"] "x" (.NumericConst 9),
    .Assignment "q" exampleNewBox]

/-- The entry of field `name` of the instance at `address` after a call that
returned to its caller. -/
def fieldAfter (result : Result) (address : Nat) (name : String) : Option Holder :=
  match result with
  | .normal _ state => (state.2.fields address).find name
  | _ => none

/-- The entry of variable `name` in the closure after a call that returned to
its caller. -/
def variableAfter (result : Result) (name : String) : Option Holder :=
  match result with
  | .normal _ state => state.1.find name
  | _ => none

/-- The text in the output stream after a call that returned to its caller. -/
def outputOf (result : Result) : Option String :=
  match result with
  | .normal _ state => some state.2.output
  | _ => none

/-- The world with another text in the output stream. -/
def withOutput (w : World Statement) (text : String) : World Statement :=
  { w with output := text }

/-- The arguments of a `Print` are quiet with renderings `texts`: whatever the
output stream holds, each argument evaluates to a value that is rendered as
the text of its position, and neither step changes the closure or the world. -/
def Print.quiet (fuel : Nat) (closure : Closure Statement) (context : World Statement) :
    List Statement → List String → Prop
  | [], [] => True
  | arg :: rest, text :: texts =>
    (∀ out, ∃ value,
      ast.Execute fuel arg closure (withOutput context out) =
        .normal value (closure, withOutput context out) ∧
      PrintHolder (ast.Execute fuel) fuel value (withOutput context out) =
        .normal text (withOutput context out)) ∧
    Print.quiet fuel closure context rest texts
  | _, _ => False

/-- A place inside nested `Compound` and `IfElse` nodes. -/
inductive Nesting where
  | here
  | compound (before : List Statement) (inner : Nesting) (after : List Statement)
  | ifBody (condition_ : Statement) (inner : Nesting) (else_body_ : Option Statement)
  | elseBody (condition_ if_body_ : Statement) (inner : Nesting)

/-- The statement with `statement` put at the place. -/
def Nesting.fill : Nesting → Statement → Statement
  | .here, statement => statement
  | .compound before inner after, statement =>
    Statement.Compound (before ++ inner.fill statement :: after)
  | .ifBody condition_ inner else_body_, statement =>
    Statement.IfElse condition_ (inner.fill statement) else_body_
  | .elseBody condition_ if_body_ inner, statement =>
    Statement.IfElse condition_ if_body_ (some (inner.fill statement))

/-- The number of nodes around the place. -/
def Nesting.depth : Nesting → Nat
  | .here => 0
  | .compound _ inner _ => inner.depth + 1
  | .ifBody _ inner _ => inner.depth + 1
  | .elseBody _ _ inner => inner.depth + 1

/-- The state in which control arrives at the place when the filled statement
is executed with budget `fuel + depth`: every statement before the place in a
`Compound` completes normally, and every condition completes normally and
selects the branch of the place.  The result is `none` when control does not
arrive. -/
def Nesting.reach (fuel : Nat) : Nesting → State → Option State
  | .here, state => some state
  | .compound before inner _, state =>
    match Compound.Execute (Execute (fuel + inner.depth)) before state.1 state.2 with
    | .normal _ state1 => inner.reach fuel state1
    | _ => none
  | .ifBody condition_ inner _, state =>
    match Execute (fuel + inner.depth) condition_ state.1 state.2 with
    | .normal condition state1 => if IsTrue condition then inner.reach fuel state1 else none
    | _ => none
  | .elseBody condition_ _ inner, state =>
    match Execute (fuel + inner.depth) condition_ state.1 state.2 with
    | .normal condition state1 => if IsTrue condition then none else inner.reach fuel state1
    | _ => none

end ast

/-! ## Lexer: reading tokens -/

namespace parse

theorem tokensUntilEof_succ (n : Nat) : ∀ (l : Lexer) (ts : List Token),
    tokensUntilEof n l = some ts → tokensUntilEof (n + 1) l = some ts := by
  induction n with
  | zero =>
    intro l ts h
    unfold tokensUntilEof at h ⊢
    split at h
    · simp_all
    · exact absurd h (by simp)
  | succ n ih =>
    intro l ts h
    rw [tokensUntilEof] at h ⊢
    split
    · simp_all
    · rename_i hne
      rw [if_neg hne] at h
      cases hnt : NextToken l with
      | error e => rw [hnt] at h; exact absurd h (by simp)
      | ok l1 =>
        rw [hnt] at h
        simp only [Option.map_eq_some'] at h ⊢
        obtain ⟨ts1, h1, h2⟩ := h
        exact ⟨ts1, ih l1 ts1 h1, h2⟩

theorem tokensUntilEof_add (n k : Nat) (l : Lexer) (ts : List Token)
    (h : tokensUntilEof n l = some ts) : tokensUntilEof (n + k) l = some ts := by
  induction k with
  | zero => exact h
  | succ k ih => exact tokensUntilEof_succ (n + k) l ts ih

theorem lex_add (n k : Nat) (src : String) (ts : List Token)
    (h : lex n src = some ts) : lex (n + k) src = some ts := by
  unfold lex at h ⊢
  cases hnew : Lexer.new src.toList with
  | error e => rw [hnew] at h; exact absurd h (by simp)
  | ok l =>
    rw [hnew] at h
    exact tokensUntilEof_add n k l ts h

/-- C1: constructing the lexer on "if x:\n  y = 1\n" and calling NextToken
until Eof gives If, Id x, Char ':', Newline, Indent, Id y, Char '=', Number 1,
Newline, Dedent, Eof: ten calls reach Eof, and allowing more calls changes
nothing. -/
theorem lex_if_block (k : Nat) :
    lex (10 + k) "if x:\n  y = 1\n" =
      some [Token.If, Token.Id "x", Token.Char ':', Token.Newline, Token.Indent,
            Token.Id "y", Token.Char '=', Token.Number 1, Token.Newline,
            Token.Dedent, Token.Eof] :=
  lex_add 10 k _ _ (by decide)

/-- C3: the code at an input on which the claimed property fails.  A line ending
in a comment followed by a comment line yields two Newline tokens in a row. -/
theorem lex_comment_after_trailing_comment (k : Nat) :
    lex (5 + k) "x = 1 # a\n# b\n" =
      some [Token.Id "x", Token.Char '=', Token.Number 1, Token.Newline,
            Token.Newline, Token.Eof] :=
  lex_add 5 k _ _ (by decide)

theorem NextToken_of_Eof (l : Lexer) (h : l.current_token_ = Token.Eof) :
    NextToken l = .ok l := by
  simp [NextToken, ParseToken, ParseTokenFuel, ParseTokenBody, CheckBeforeParse, h]

/-- C4: in a lexer whose current token is Eof, NextToken returns Eof again and
leaves every member of the lexer as it was; hence so does any number of
further calls. -/
theorem NextToken_after_Eof (l : Lexer) (h : l.current_token_ = Token.Eof) (n : Nat) :
    NextToken l = .ok l ∧ NextTokenTimes n l = .ok l ∧
      ∀ l1, NextTokenTimes n l = .ok l1 → CurrentToken l1 = Token.Eof := by
  have hn : NextTokenTimes n l = .ok l := by
    induction n with
    | zero => rfl
    | succ n ih => simp [NextTokenTimes, NextToken_of_Eof l h, ih]
  refine ⟨NextToken_of_Eof l h, hn, ?_⟩
  intro l1 h1
  rw [hn] at h1
  cases h1
  exact h

theorem NextToken_after_Eof_witness :
    NextToken { input_ := [], current_token_ := Token.Eof } =
        .ok { input_ := [], current_token_ := Token.Eof } ∧
      NextTokenTimes 3 { input_ := [], current_token_ := Token.Eof } =
        .ok { input_ := [], current_token_ := Token.Eof } ∧
      ∀ l1, NextTokenTimes 3 { input_ := [], current_token_ := Token.Eof } = .ok l1 →
        CurrentToken l1 = Token.Eof :=
  NextToken_after_Eof { input_ := [], current_token_ := Token.Eof } rfl 3

end parse

/-! ## Lexer: one activation of ParseToken -/

namespace parse

theorem CheckBeforeParse_pass (l : Lexer) (htok : l.current_token_ ≠ Token.Eof)
    (hin : l.input_ ≠ []) (hdc : l.dedent_count_ ≤ 0) : CheckBeforeParse l = (true, l) := by
  simp [CheckBeforeParse, htok, hin, not_lt.mpr hdc]

theorem CheckBeforeParse_true (l : Lexer) (h : (CheckBeforeParse l).1 = true) :
    CheckBeforeParse l = (true, l) ∧ l.current_token_ ≠ Token.Eof ∧ l.input_ ≠ [] ∧
      l.dedent_count_ ≤ 0 := by
  unfold CheckBeforeParse at h ⊢
  split_ifs at h ⊢
  simp_all

theorem ParseTokenBody_pass (l : Lexer) (ch : Char) (rest : List Char)
    (htok : l.current_token_ ≠ Token.Eof) (hin : l.input_ = ch :: rest)
    (hdc : l.dedent_count_ ≤ 0) :
    ParseTokenBody l =
      if ch = '#' then
        if l.is_start_line_ = true then
          .ok (.recur { l with input_ := getline rest, current_token_ := Token.Newline })
        else .ok (.done { l with input_ := getline rest, current_token_ := Token.Newline })
      else if ch = '\n' ∧ l.current_token_ = Token.Newline then
        .ok (.recur { l with input_ := rest, is_start_line_ := true })
      else if l.is_start_line_ = true ∧ l.count_indent_ > 0 ∧ ch ≠ ' ' ∧
          l.is_code_block_ = false then
        .ok (.done { l with current_token_ := Token.Dedent,
                            count_indent_ := l.count_indent_ - 2 })
      else if ch = '\n' then
        .ok (.done { l with input_ := rest, current_token_ := Token.Newline,
                            is_start_line_ := true, is_code_block_ := false })
      else if ch = '\'' ∨ ch = '"' then
        (ParseString ch { l with input_ := rest, is_code_block_ := false }).map fun l3 =>
          .done { l3 with is_start_line_ := false }
      else if ch.isDigit = true then
        (ParseNumber { l with is_code_block_ := false }).map fun l3 =>
          .done { l3 with is_start_line_ := false }
      else if ch.isAlpha = true ∨ ch = '_' then
        .ok (.done { ParseIdentifier { l with is_code_block_ := false } with
                     is_start_line_ := false })
      else if ch = ' ' then
        match ParseIndent { l with is_code_block_ := false } with
        | .done l3 => .ok (.done { l3 with is_start_line_ := false })
        | .parse_token l3 => .ok (.recur_from_indent l3)
      else
        .ok (.done { ParseSymbol { l with is_code_block_ := false } with
                     is_start_line_ := false }) := by
  have hne : l.input_ ≠ [] := by rw [hin]; simp
  unfold ParseTokenBody
  rw [CheckBeforeParse_pass l htok hne hdc]
  simp only [hin]
  have e : ({ l with input_ := ch :: rest } : Lexer) = l := by rw [← hin]
  have e2 : ({ l with input_ := ch :: rest, is_code_block_ := false } : Lexer) =
      { l with is_code_block_ := false } := by rw [← hin]
  simp only [e, e2, Bool.true_eq_false, if_false]

theorem ParseTokenFuel_of_done (n : Nat) (l r : Lexer)
    (h : ParseTokenBody l = .ok (.done r)) : ParseTokenFuel (n + 1) l = .ok r := by
  rw [ParseTokenFuel, h]

theorem ParseTokenFuel_of_error (n : Nat) (l : Lexer) (e : Failure)
    (h : ParseTokenBody l = .error e) : ParseTokenFuel (n + 1) l = .error e := by
  rw [ParseTokenFuel, h]

end parse

/-! ## Lexer: string literals -/

namespace parse

theorem ParseStringLoop_plain (input : Char) (pre : List Char) :
    ∀ (rest s : List Char), (∀ c ∈ pre, c ≠ input ∧ c ≠ '\\') →
      ParseStringLoop input (pre ++ rest) s = ParseStringLoop input rest (s ++ pre) := by
  induction pre with
  | nil => intro rest s _; simp
  | cons c pre ih =>
    intro rest s h
    have hc := h c (List.mem_cons_self c pre)
    have hpre : ∀ x ∈ pre, x ≠ input ∧ x ≠ '\\' := fun x hx => h x (List.mem_cons_of_mem c hx)
    rw [List.cons_append, ParseStringLoop.eq_def]
    simp only [if_neg hc.1, if_neg hc.2]
    rw [ih rest (s ++ [c]) hpre]
    simp

theorem ParseStringLoop_escape (input e : Char) (hq : input ≠ '\\') (rest s : List Char) :
    ParseStringLoop input ('\\' :: e :: rest) s =
      ParseStringLoop input rest (HandleCharCases s e '\\') := by
  rw [ParseStringLoop.eq_def]
  simp [Ne.symm hq]

theorem ParseStringLoop_close (input : Char) (rest s : List Char) :
    ParseStringLoop input (input :: rest) s = some (s, rest) := by
  rw [ParseStringLoop.eq_def]
  simp

theorem ParseString_one_escape (input e : Char) (hq : input ≠ '\\') (l : Lexer)
    (pre post rest : List Char)
    (hpre : ∀ c ∈ pre, c ≠ input ∧ c ≠ '\\') (hpost : ∀ c ∈ post, c ≠ input ∧ c ≠ '\\')
    (hin : l.input_ = pre ++ '\\' :: e :: (post ++ input :: rest)) :
    ∃ s, HandleCharCases pre e '\\' = s ∧
      ParseString input l =
        .ok { l with input_ := rest, current_token_ := Token.String (String.mk (s ++ post)) } := by
  refine ⟨_, rfl, ?_⟩
  unfold ParseString
  rw [hin, ParseStringLoop_plain input pre _ _ hpre, ParseStringLoop_escape input e hq,
    ParseStringLoop_plain input post _ _ hpost, ParseStringLoop_close]
  simp

theorem ParseTokenBody_string (l l3 : Lexer) (input : Char) (body : List Char)
    (hq : input = '\'' ∨ input = '"') (hin : l.input_ = input :: body)
    (htok : l.current_token_ ≠ Token.Eof) (hdc : l.dedent_count_ ≤ 0)
    (hcol : ¬ (l.is_start_line_ = true ∧ l.count_indent_ > 0 ∧ l.is_code_block_ = false))
    (hs : ParseString input { l with input_ := body, is_code_block_ := false } = .ok l3) :
    ParseTokenBody l = .ok (.done { l3 with is_start_line_ := false }) := by
  have h1 : input ≠ '#' := by rcases hq with rfl | rfl <;> decide
  have h2 : input ≠ '\n' := by rcases hq with rfl | rfl <;> decide
  have hcol1 : ¬ (l.is_start_line_ = true ∧ l.count_indent_ > 0 ∧ input ≠ ' ' ∧
      l.is_code_block_ = false) := fun h => hcol ⟨h.1, h.2.1, h.2.2.2⟩
  rw [ParseTokenBody_pass l input body htok hin hdc, if_neg h1, if_neg (fun h => h2 h.1),
    if_neg hcol1, if_neg h2, if_pos hq, hs]
  rfl

theorem NextToken_one_escape (input e : Char) (hq : input = '\'' ∨ input = '"') (l : Lexer)
    (pre post rest : List Char)
    (hpre : ∀ c ∈ pre, c ≠ input ∧ c ≠ '\\') (hpost : ∀ c ∈ post, c ≠ input ∧ c ≠ '\\')
    (hin : l.input_ = input :: (pre ++ '\\' :: e :: (post ++ input :: rest)))
    (htok : l.current_token_ ≠ Token.Eof) (hdc : l.dedent_count_ ≤ 0)
    (hcol : ¬ (l.is_start_line_ = true ∧ l.count_indent_ > 0 ∧ l.is_code_block_ = false)) :
    ∃ s, HandleCharCases pre e '\\' = s ∧
      NextToken l =
        .ok { l with input_ := rest, current_token_ := Token.String (String.mk (s ++ post)),
                     is_start_line_ := false, is_code_block_ := false } := by
  have hq1 : input ≠ '\\' := by rcases hq with rfl | rfl <;> decide
  obtain ⟨s, hs, h⟩ := ParseString_one_escape input e hq1
    { l with input_ := pre ++ '\\' :: e :: (post ++ input :: rest), is_code_block_ := false }
    pre post rest hpre hpost rfl
  refine ⟨s, hs, ?_⟩
  have hb := ParseTokenBody_string l _ input _ hq hin htok hdc hcol h
  exact ParseTokenFuel_of_done _ l _ hb

theorem escapeTable_handled :
    ∀ p ∈ escapeTable, ∀ s : List Char, HandleCharCases s p.1 '\\' = s ++ [p.2] := by
  simp [escapeTable, HandleCharCases]

/-- C7: inside a string literal opened by either quote, each of the escapes
backslash-n, -t, -r, -double quote, -single quote, -backslash adds exactly the
one byte of the table (LF, TAB, CR, double quote, single quote, backslash) to
the value being built and the literal goes on after it, also when the escaped
character is the quote itself; so a literal with plain characters around one
such escape gets the String token with that byte in its place, from
ParseString and from the NextToken call that reads the literal. -/
theorem string_escape_table (input e v : Char) (hq : input = '\'' ∨ input = '"')
    (he : (e, v) ∈ escapeTable) :
    (∀ rest s : List Char,
      ParseStringLoop input ('\\' :: e :: rest) s = ParseStringLoop input rest (s ++ [v])) ∧
    (∀ (l : Lexer) (pre post rest : List Char),
      (∀ c ∈ pre, c ≠ input ∧ c ≠ '\\') → (∀ c ∈ post, c ≠ input ∧ c ≠ '\\') →
      l.input_ = pre ++ '\\' :: e :: (post ++ input :: rest) →
      ParseString input l =
        .ok { l with input_ := rest,
                     current_token_ := Token.String (String.mk (pre ++ v :: post)) }) ∧
    (∀ (l : Lexer) (pre post rest : List Char),
      (∀ c ∈ pre, c ≠ input ∧ c ≠ '\\') → (∀ c ∈ post, c ≠ input ∧ c ≠ '\\') →
      l.input_ = input :: (pre ++ '\\' :: e :: (post ++ input :: rest)) →
      l.current_token_ ≠ Token.Eof → l.dedent_count_ ≤ 0 →
      ¬ (l.is_start_line_ = true ∧ l.count_indent_ > 0 ∧ l.is_code_block_ = false) →
      NextToken l =
        .ok { l with input_ := rest,
                     current_token_ := Token.String (String.mk (pre ++ v :: post)),
                     is_start_line_ := false, is_code_block_ := false }) := by
  have hq1 : input ≠ '\\' := by rcases hq with rfl | rfl <;> decide
  have hv : ∀ s : List Char, HandleCharCases s e '\\' = s ++ [v] :=
    escapeTable_handled (e, v) he
  refine ⟨fun rest s => ?_, fun l pre post rest hpre hpost hin => ?_,
    fun l pre post rest hpre hpost hin htok hdc hcol => ?_⟩
  · rw [ParseStringLoop_escape input e hq1, hv]
  · obtain ⟨s, hs, h⟩ := ParseString_one_escape input e hq1 l pre post rest hpre hpost hin
    rw [h, ← hs, hv]
    simp
  · obtain ⟨s, hs, h⟩ := NextToken_one_escape input e hq l pre post rest hpre hpost hin htok
      hdc hcol
    rw [h, ← hs, hv]
    simp

theorem string_escape_table_witness :
    ParseStringLoop '\'' ('\\' :: '\'' :: ['b', '\'']) ['a'] =
      ParseStringLoop '\'' ['b', '\''] (['a'] ++ ['\'']) ∧
    ParseString '\'' { input_ := "a\\'b'+c".toList } =
      .ok { input_ := "+c".toList, current_token_ := Token.String "a'b" } ∧
    NextToken { input_ := "'a\\'b'+c".toList } =
      .ok { input_ := "+c".toList, current_token_ := Token.String "a'b",
            is_start_line_ := false, is_code_block_ := false } :=
  ⟨(string_escape_table '\'' '\'' '\'' (Or.inl rfl) (by decide)).1 ['b', '\''] ['a'],
    (string_escape_table '\'' '\'' '\'' (Or.inl rfl) (by decide)).2.1
      { input_ := "a\\'b'+c".toList } ['a'] ['b'] "+c".toList (by decide) (by decide) rfl,
    (string_escape_table '\'' '\'' '\'' (Or.inl rfl) (by decide)).2.2
      { input_ := "'a\\'b'+c".toList } ['a'] ['b'] "+c".toList (by decide) (by decide) rfl
      (by decide) (by decide) (by decide)⟩

/-- What the code does with an escape outside the table: inside a string
literal opened by either quote, a backslash followed by a character other than
n, t, r, double quote, single quote and backslash adds exactly one byte to the
value being built, and that byte is the backslash; the character after the
backslash is lost.  So a literal with plain characters around one such pair
gets the String token with a single backslash in its place, from ParseString
and from the NextToken call that reads the literal. -/
theorem string_unknown_escape (input e : Char) (hq : input = '\'' ∨ input = '"')
    (he : e ∉ escapeTable.map Prod.fst) :
    (∀ rest s : List Char,
      ParseStringLoop input ('\\' :: e :: rest) s = ParseStringLoop input rest (s ++ ['\\'])) ∧
    (∀ (l : Lexer) (pre post rest : List Char),
      (∀ c ∈ pre, c ≠ input ∧ c ≠ '\\') → (∀ c ∈ post, c ≠ input ∧ c ≠ '\\') →
      l.input_ = pre ++ '\\' :: e :: (post ++ input :: rest) →
      ParseString input l =
        .ok { l with input_ := rest,
                     current_token_ := Token.String (String.mk (pre ++ '\\' :: post)) }) ∧
    (∀ (l : Lexer) (pre post rest : List Char),
      (∀ c ∈ pre, c ≠ input ∧ c ≠ '\\') → (∀ c ∈ post, c ≠ input ∧ c ≠ '\\') →
      l.input_ = input :: (pre ++ '\\' :: e :: (post ++ input :: rest)) →
      l.current_token_ ≠ Token.Eof → l.dedent_count_ ≤ 0 →
      ¬ (l.is_start_line_ = true ∧ l.count_indent_ > 0 ∧ l.is_code_block_ = false) →
      NextToken l =
        .ok { l with input_ := rest,
                     current_token_ := Token.String (String.mk (pre ++ '\\' :: post)),
                     is_start_line_ := false, is_code_block_ := false }) := by
  have hq1 : input ≠ '\\' := by rcases hq with rfl | rfl <;> decide
  have hv : ∀ s : List Char, HandleCharCases s e '\\' = s ++ ['\\'] := by
    intro s
    simp only [escapeTable, List.map_cons, List.map_nil, List.mem_cons, List.mem_singleton,
      List.not_mem_nil, or_false, not_or] at he
    obtain ⟨e1, e2, e3, e4, e5, e6⟩ := he
    simp [HandleCharCases, e1, e2, e3, e4, e5, e6]
  refine ⟨fun rest s => ?_, fun l pre post rest hpre hpost hin => ?_,
    fun l pre post rest hpre hpost hin htok hdc hcol => ?_⟩
  · rw [ParseStringLoop_escape input e hq1, hv]
  · obtain ⟨s, hs, h⟩ := ParseString_one_escape input e hq1 l pre post rest hpre hpost hin
    rw [h, ← hs, hv]
    simp
  · obtain ⟨s, hs, h⟩ := NextToken_one_escape input e hq l pre post rest hpre hpost hin htok
      hdc hcol
    rw [h, ← hs, hv]
    simp

theorem string_unknown_escape_witness :
    ParseStringLoop '"' ('\\' :: 'a' :: ['b', '"']) ['x'] =
      ParseStringLoop '"' ['b', '"'] (['x'] ++ ['\\']) ∧
    ParseString '"' { input_ := "x\\ab\"+c".toList } =
      .ok { input_ := "+c".toList, current_token_ := Token.String "x\\b" } ∧
    NextToken { input_ := "\"x\\ab\"+c".toList } =
      .ok { input_ := "+c".toList, current_token_ := Token.String "x\\b",
            is_start_line_ := false, is_code_block_ := false } :=
  ⟨(string_unknown_escape '"' 'a' (Or.inr rfl) (by decide)).1 ['b', '"'] ['x'],
    (string_unknown_escape '"' 'a' (Or.inr rfl) (by decide)).2.1
      { input_ := "x\\ab\"+c".toList } ['x'] ['b'] "+c".toList (by decide) (by decide) rfl,
    (string_unknown_escape '"' 'a' (Or.inr rfl) (by decide)).2.2
      { input_ := "\"x\\ab\"+c".toList } ['x'] ['b'] "+c".toList (by decide) (by decide) rfl
      (by decide) (by decide) (by decide)⟩

/-- C8: the code at an input on which the claimed property fails.  The
literal quote, backslash, a, quote lexes to the String token whose value is
the single backslash, not the one-character string "a": the default case of
`HandleCharCases` pushes `ch`, the backslash, instead of the escaped
character, which is lost. -/
theorem lex_unknown_escape_not_literal :
    lex 2 "'\\a'" = some [Token.String "\\", Token.Newline, Token.Eof] ∧
      lex 2 "'\\a'" ≠ some [Token.String "a", Token.Newline, Token.Eof] := by
  decide

end parse

/-! ## Runtime: method resolution and truth values -/

namespace runtime

/-- C9 as claimed fails: the child defines f with one parameter only and its
parent defines f without parameters; looking up f with no arguments in the
child yields null, not the parent's method, which is what the parent itself
and the claimed rule resolve. -/
theorem GetMethod_other_arity_hides_parent :
    exampleChild.GetMethod "f" 0 = none ∧
      exampleParent.GetMethod "f" 0 = some ⟨"f", [], ()⟩ ∧
      exampleChild.GetMethodClaimed "f" 0 = some ⟨"f", [], ()⟩ ∧
      exampleChild.GetMethod "f" 0 ≠ exampleChild.GetMethodClaimed "f" 0 := by
  decide

/-- C9, as the code has it: GetMethod(n, a) resolves n by name alone.  If the
class's own table has a method named n, the first such method is the
candidate and the parent is not consulted; otherwise the lookup is the
parent's GetMethod(n, a), or null without a parent.  The candidate is returned
iff it has exactly a formal parameters, otherwise the result is null. -/
theorem GetMethod_resolution {Body : Type} (c : Class Body) (n : String) (a : Nat) :
    c.GetMethod n a =
      match c.methods_.find? (fun value => value.name = n) with
      | some m => if m.formal_params.length = a then some m else none
      | none =>
        match c.parent_ with
        | some p => p.GetMethod n a
        | none => none := by
  cases c with
  | base nm ms =>
    simp only [Class.GetMethod, Class.GetMethodByName, Class.methods_, Class.parent_]
  | derived nm ms p =>
    simp only [Class.GetMethod, Class.GetMethodByName, Class.methods_, Class.parent_]
    cases ms.find? (fun value => value.name = n) <;> rfl

/-- C10: IsTrue is false for a null holder, n ≠ 0 for Number n, s non-empty for
String s, b for Bool b, and false for every Class and ClassInstance; so it is
false for Number 0 and for the empty String. -/
theorem IsTrue_cases {Body : Type} :
    IsTrue (none : ObjectHolder Body) = false ∧
    (∀ n : Int, IsTrue (some (Object.Number n) : ObjectHolder Body) = decide (n ≠ 0)) ∧
    (∀ s : String, IsTrue (some (Object.String s) : ObjectHolder Body) = decide (s ≠ "")) ∧
    (∀ b : Bool, IsTrue (some (Object.Bool b) : ObjectHolder Body) = b) ∧
    (∀ c : Class Body, IsTrue (some (Object.Class c)) = false) ∧
    (∀ (c : Class Body) (address : Nat), IsTrue (some (Object.ClassInstance c address)) = false) ∧
    IsTrue (some (Object.Number 0) : ObjectHolder Body) = false ∧
    IsTrue (some (Object.String "") : ObjectHolder Body) = false := by
  refine ⟨rfl, fun _ => rfl, fun s => ?_, fun _ => rfl, fun _ => rfl, fun _ _ => rfl, rfl, rfl⟩
  simp only [IsTrue]
  by_cases h : s = ""
  · subst h; decide
  · have h1 : s.isEmpty = false := by
      cases h2 : s.isEmpty
      · rfl
      · exact absurd ((String.isEmpty_iff s).mp h2) h
    simp [h1, h]

end runtime

/-! ## Lexer: identifiers and keywords -/

namespace parse

theorem isDigit_false_of_isAlpha (c : Char) (h : c.isAlpha = true) : c.isDigit = false := by
  simp only [Char.isAlpha, Char.isUpper, Char.isLower, Char.isDigit, Bool.or_eq_true,
    Bool.and_eq_true, decide_eq_true_eq, ge_iff_le] at h ⊢
  simp only [UInt32.le_def, BitVec.le_def] at h ⊢
  have e1 : (UInt32.toBitVec 65).toNat = 65 := rfl
  have e2 : (UInt32.toBitVec 90).toNat = 90 := rfl
  have e3 : (UInt32.toBitVec 97).toNat = 97 := rfl
  have e4 : (UInt32.toBitVec 122).toNat = 122 := rfl
  have e5 : (UInt32.toBitVec 48).toNat = 48 := rfl
  have e6 : (UInt32.toBitVec 57).toNat = 57 := rfl
  simp only [e1, e2, e3, e4, e5, e6] at h ⊢
  simp only [Bool.and_eq_false_imp, decide_eq_true_eq, decide_eq_false_iff_not]
  omega

theorem ParseKeyword_table (l : Lexer) :
    ∀ p ∈ keywords, ParseKeyword p.1 l = (true, { l with current_token_ := p.2 }) := by
  simp [keywords, ParseKeyword]

theorem ParseKeyword_keyword (l : Lexer) (kw : String) (tok : Token) (h : (kw, tok) ∈ keywords) :
    ParseKeyword kw l = (true, { l with current_token_ := tok }) :=
  ParseKeyword_table l (kw, tok) h

theorem ParseKeyword_other (l : Lexer) (s : String) (h : s ∉ keywords.map Prod.fst) :
    ParseKeyword s l = (false, l) := by
  simp only [keywords, List.map_cons, List.map_nil, List.mem_cons, List.mem_singleton,
      List.not_mem_nil, or_false, not_or] at h
  obtain ⟨h1, h2, h3, h4, h5, h6, h7, h8, h9, h10, h11, h12⟩ := h
  simp [ParseKeyword, *]

theorem keywords_layout_free :
    ∀ p ∈ keywords, indentWeight p.2 = 0 ∧ p.2 ≠ Token.Eof ∧ p.2 ≠ Token.Newline ∧
      ∀ s, p.2 ≠ Token.Id s := by
  simp [keywords, indentWeight]

theorem keywords_not_Id (kw : String) (tok : Token) (h : (kw, tok) ∈ keywords) (s : String) :
    tok ≠ Token.Id s :=
  (keywords_layout_free (kw, tok) h).2.2.2 s

theorem takeWhile_eq_nil_of_head {p : Char → Bool} (rest : List Char)
    (h : ∀ x, rest.head? = some x → p x = false) : rest.takeWhile p = [] ∧ rest.dropWhile p = rest := by
  cases rest with
  | nil => simp
  | cons x xs => simp [List.takeWhile, List.dropWhile, h x rfl]

theorem ParseIdentifier_lexeme (l : Lexer) (lexeme rest : List Char)
    (hall : ∀ x ∈ lexeme, isIdentifierChar x = true)
    (hrest : ∀ x, rest.head? = some x → isIdentifierChar x = false)
    (hin : l.input_ = lexeme ++ rest) :
    (∀ kw tok, (kw, tok) ∈ keywords → String.mk lexeme = kw →
      ParseIdentifier l = { l with input_ := rest, current_token_ := tok }) ∧
    (String.mk lexeme ∉ keywords.map Prod.fst →
      ParseIdentifier l =
        { l with input_ := rest, current_token_ := Token.Id (String.mk lexeme) }) := by
  have h1 : l.input_.takeWhile isIdentifierChar = lexeme := by
    rw [hin, List.takeWhile_append_of_pos hall, (takeWhile_eq_nil_of_head rest hrest).1]
    simp
  have h2 : l.input_.dropWhile isIdentifierChar = rest := by
    rw [hin, List.dropWhile_append_of_pos hall, (takeWhile_eq_nil_of_head rest hrest).2]
  constructor
  · intro kw tok hmem hkw
    unfold ParseIdentifier
    simp only [h1, h2, hkw, ParseKeyword_keyword _ kw tok hmem, if_true]
  · intro hno
    unfold ParseIdentifier
    simp only [h1, h2, ParseKeyword_other _ _ hno]
    simp

/-- C6: when the lexer is about to read a maximal identifier-shaped lexeme (a
letter or underscore, then letters, digits and underscores, not followed by
one more such character), NextToken - and any nested activation of ParseToken
that starts there - consumes exactly the lexeme; if the lexeme is one of the
twelve reserved words the token is the keyword token of the table and no Id,
otherwise it is Id of the exact lexeme. -/
theorem identifier_or_keyword (l : Lexer) (c : Char) (cs rest : List Char)
    (hc : c.isAlpha = true ∨ c = '_')
    (hcs : ∀ x ∈ cs, x.isAlphanum = true ∨ x = '_')
    (hmax : ∀ x, rest.head? = some x → ¬ (x.isAlphanum = true ∨ x = '_'))
    (hin : l.input_ = c :: cs ++ rest)
    (htok : l.current_token_ ≠ Token.Eof) (hdc : l.dedent_count_ ≤ 0)
    (hcol : ¬ (l.is_start_line_ = true ∧ l.count_indent_ > 0 ∧ l.is_code_block_ = false)) :
    ∃ t, NextToken l = .ok { l with input_ := rest, current_token_ := t,
                                    is_start_line_ := false, is_code_block_ := false } ∧
      (∀ n, ParseTokenFuel (n + 1) l =
        .ok { l with input_ := rest, current_token_ := t,
                     is_start_line_ := false, is_code_block_ := false }) ∧
      (∀ kw tok, (kw, tok) ∈ keywords → String.mk (c :: cs) = kw → t = tok ∧ ∀ s, t ≠ Token.Id s) ∧
      (String.mk (c :: cs) ∉ keywords.map Prod.fst → t = Token.Id (String.mk (c :: cs))) := by
  have hne : l.input_ ≠ [] := by rw [hin]; simp
  have hc1 : c ≠ '#' := by rintro rfl; revert hc; decide
  have hc2 : c ≠ '\n' := by rintro rfl; revert hc; decide
  have hc3 : c ≠ '\'' := by rintro rfl; revert hc; decide
  have hc4 : c ≠ '"' := by rintro rfl; revert hc; decide
  have hc5 : c.isDigit = false := by
    rcases hc with h | rfl
    · exact isDigit_false_of_isAlpha c h
    · decide
  have hall : ∀ x ∈ c :: cs, isIdentifierChar x = true := by
    intro x hx
    rcases List.mem_cons.mp hx with rfl | hx
    · rcases hc with h | rfl
      · simp [isIdentifierChar, Char.isAlphanum, h]
      · decide
    · rcases hcs x hx with h | rfl
      · simp [isIdentifierChar, h]
      · decide
  have hrest : ∀ x, rest.head? = some x → isIdentifierChar x = false := by
    intro x hx
    have := hmax x hx
    simp only [isIdentifierChar, Bool.or_eq_false_iff, decide_eq_false_iff_not]
    constructor
    · cases h : x.isAlphanum
      · rfl
      · exact absurd (Or.inl h) this
    · exact fun h => this (Or.inr h)
  have hid := ParseIdentifier_lexeme { l with is_code_block_ := false } (c :: cs) rest hall hrest
    (by simpa using hin)
  have hbody : ParseTokenBody l = .ok (.done
      { ParseIdentifier { l with is_code_block_ := false } with is_start_line_ := false }) := by
    unfold ParseTokenBody
    rw [CheckBeforeParse_pass l htok hne hdc]
    simp only [hin, List.cons_append]
    have hcol' : ¬ (l.is_start_line_ = true ∧ l.count_indent_ > 0 ∧ c ≠ ' ' ∧ l.is_code_block_ = false) :=
      fun h => hcol ⟨h.1, h.2.1, h.2.2.2⟩
    simp [hc1, hc2, hc3, hc4, hc5, hcol', hc]
  have hfuel : ∀ n, ParseTokenFuel (n + 1) l = .ok
      { ParseIdentifier { l with is_code_block_ := false } with is_start_line_ := false } :=
    fun n => ParseTokenFuel_of_done n l _ hbody
  have hnt : NextToken l = .ok
      { ParseIdentifier { l with is_code_block_ := false } with is_start_line_ := false } :=
    hfuel _
  by_cases hk : String.mk (c :: cs) ∈ keywords.map Prod.fst
  · obtain ⟨⟨kw, tok⟩, hmem, hfst⟩ := List.mem_map.mp hk
    simp only at hfst
    refine ⟨tok, ?_, ?_, ?_, fun h => absurd hk h⟩
    · rw [hnt, hid.1 kw tok hmem hfst.symm]
    · intro n
      rw [hfuel n, hid.1 kw tok hmem hfst.symm]
    · intro kw1 tok1 hmem1 h1
      have hkw : kw1 = kw := by rw [← h1, ← hfst]
      subst hkw
      have e1 := ParseKeyword_keyword l kw1 tok hmem
      rw [ParseKeyword_keyword l kw1 tok1 hmem1] at e1
      have e2 : tok1 = tok := by
        have := congrArg (fun r : Bool × Lexer => r.2.current_token_) e1
        simpa using this
      exact ⟨e2.symm, keywords_not_Id kw1 tok hmem⟩
  · refine ⟨Token.Id (String.mk (c :: cs)), ?_, ?_, ?_, fun _ => rfl⟩
    · rw [hnt, hid.2 hk]
    · intro n
      rw [hfuel n, hid.2 hk]
    · intro kw tok hmem h1
      exact absurd (List.mem_map.mpr ⟨(kw, tok), hmem, h1.symm⟩) hk

theorem identifier_or_keyword_witness :
    ∃ t, NextToken { input_ := "print(x)".toList } =
        .ok { ({ input_ := "print(x)".toList } : Lexer) with
                input_ := "(x)".toList, current_token_ := t,
                is_start_line_ := false, is_code_block_ := false } ∧
      (∀ n, ParseTokenFuel (n + 1) { input_ := "print(x)".toList } =
        .ok { ({ input_ := "print(x)".toList } : Lexer) with
                input_ := "(x)".toList, current_token_ := t,
                is_start_line_ := false, is_code_block_ := false }) ∧
      (∀ kw tok, (kw, tok) ∈ keywords → String.mk ('p' :: "rint".toList) = kw →
        t = tok ∧ ∀ s, t ≠ Token.Id s) ∧
      (String.mk ('p' :: "rint".toList) ∉ keywords.map Prod.fst →
        t = Token.Id (String.mk ('p' :: "rint".toList))) :=
  identifier_or_keyword { input_ := "print(x)".toList } 'p' "rint".toList "(x)".toList
    (by decide) (by decide) (by intro x hx; cases hx; decide) rfl (by decide) (by decide)
    (by decide)

end parse

/-! ## Lexer: layout tokens -/

namespace parse

theorem ParseString_frame (input : Char) (l r : Lexer) (h : ParseString input l = .ok r) :
    ∃ inp s, r = { l with input_ := inp, current_token_ := Token.String s } := by
  unfold ParseString at h
  split at h
  · cases h; exact ⟨_, _, rfl⟩
  · cases h

theorem ParseNumber_frame (l r : Lexer) (h : ParseNumber l = .ok r) :
    ∃ inp v, r = { l with input_ := inp, current_token_ := Token.Number v } := by
  unfold ParseNumber at h
  simp only at h
  split_ifs at h
  · cases h; exact ⟨_, _, rfl⟩

theorem keywords_plain (kw : String) (tok : Token) (h : (kw, tok) ∈ keywords) :
    indentWeight tok = 0 ∧ tok ≠ Token.Eof ∧ tok ≠ Token.Newline :=
  have h1 := keywords_layout_free (kw, tok) h
  ⟨h1.1, h1.2.1, h1.2.2.1⟩

theorem ParseIdentifier_frame (l : Lexer) :
    ∃ inp t, ParseIdentifier l = { l with input_ := inp, current_token_ := t } ∧
      indentWeight t = 0 ∧ t ≠ Token.Eof ∧ t ≠ Token.Newline := by
  unfold ParseIdentifier
  simp only
  by_cases hk : String.mk (l.input_.takeWhile isIdentifierChar) ∈ keywords.map Prod.fst
  · obtain ⟨⟨kw, tok⟩, hmem, hfst⟩ := List.mem_map.mp hk
    simp only at hfst
    rw [← hfst, ParseKeyword_keyword _ kw tok hmem]
    exact ⟨_, tok, rfl, keywords_plain kw tok hmem⟩
  · rw [ParseKeyword_other _ _ hk]
    exact ⟨_, _, rfl, by simp [indentWeight]⟩

theorem ParseSymbol_frame (l : Lexer) (hne : l.input_ ≠ []) :
    (∃ inp t, ParseSymbol l = { l with input_ := inp, current_token_ := t } ∧
      indentWeight t = 0 ∧ t ≠ Token.Eof ∧ t ≠ Token.Newline) ∨
    (noLoneBangAt l = false ∧ ∃ inp, ParseSymbol l = { l with input_ := inp }) := by
  unfold ParseSymbol
  split
  · rename_i h
    exact absurd h hne
  · rename_i ch rest h
    split_ifs with h1 h2 h3 h4
    · split
      · exact Or.inl ⟨_, _, rfl, by simp [indentWeight]⟩
      · exact Or.inl ⟨_, _, rfl, by simp [indentWeight]⟩
    · split
      · exact Or.inl ⟨_, _, rfl, by simp [indentWeight]⟩
      · exact Or.inl ⟨_, _, rfl, by simp [indentWeight]⟩
    · split
      · exact Or.inl ⟨_, _, rfl, by simp [indentWeight]⟩
      · exact Or.inl ⟨_, _, rfl, by simp [indentWeight]⟩
    · split
      · exact Or.inl ⟨_, _, rfl, by simp [indentWeight]⟩
      · rename_i hne
        refine Or.inr ⟨?_, _, rfl⟩
        subst h4
        unfold noLoneBangAt
        rw [h]
        split
        · rename_i heq
          simp only [List.cons.injEq, true_and] at heq
          exact absurd heq (hne _)
        · rfl
        · rename_i hh
          exact absurd rfl (hh rest)
    · exact Or.inl ⟨_, _, rfl, by simp [indentWeight]⟩

theorem getline_length (xs : List Char) : (getline xs).length ≤ xs.length := by
  unfold getline
  have h := List.IsSuffix.length_le (List.dropWhile_suffix (fun x : Char => decide (x ≠ '\n')) (l := xs))
  simp only [List.length_tail]
  omega

theorem dropWhile_length (p : Char → Bool) (xs : List Char) :
    (xs.dropWhile p).length ≤ xs.length :=
  List.IsSuffix.length_le (List.dropWhile_suffix p)

theorem dedentLoop_even (n : Nat) : ∀ (d dc : Int), 2 ≤ d → d % 2 = 0 → d ≤ n →
    2 * dedentLoop n d dc = 2 * dc + d - 2 := by
  induction n with
  | zero => intro d dc h1 _ h3; omega
  | succ n ih =>
    intro d dc h1 h2 h3
    unfold dedentLoop
    split_ifs with h
    · rw [ih (d - 2) (dc + 1) (by omega) (by omega) (by push_cast at h3; omega)]
      ring
    · omega

theorem plain_done (l : Lexer) (inp : List Char) (t : Token) (hne : l.input_ ≠ [])
    (hw : indentWeight t = 0) (ht : t ≠ Token.Eof) (r : Lexer)
    (hr : r = { l with input_ := inp, current_token_ := t, is_start_line_ := false,
                       is_code_block_ := false }) :
    flagOk r ∧
    (noLoneBangAt l = true →
      r.count_indent_ = l.count_indent_ + indentWeight r.current_token_) ∧
    (r.current_token_ = Token.Eof → l.current_token_ ≠ Token.Eof →
      (l.current_token_ = Token.Newline ∨ l.current_token_ = Token.Dedent) ∧
        r.count_indent_ ≤ 0) ∧
    (indentOk l → wellIndentedAt l = true → indentOk r) := by
  subst hr
  refine ⟨fun h => absurd h (by simp), fun _ => by simp [hw], fun he => absurd he ht, ?_⟩
  rintro ⟨h1, h2, h3, h4⟩ _
  exact ⟨h1, h2, h3, fun _ => h4 hne⟩

theorem ParseTokenBody_done (l r : Lexer) (h : ParseTokenBody l = .ok (.done r)) :
    flagOk r ∧
    (noLoneBangAt l = true →
      r.count_indent_ = l.count_indent_ + indentWeight r.current_token_) ∧
    (r.current_token_ = Token.Eof → l.current_token_ ≠ Token.Eof →
      (l.current_token_ = Token.Newline ∨ l.current_token_ = Token.Dedent) ∧
        r.count_indent_ ≤ 0) ∧
    (indentOk l → wellIndentedAt l = true → indentOk r) := by
  by_cases hpass : (CheckBeforeParse l).1 = true
  · obtain ⟨_, htok, hne, hdc⟩ := CheckBeforeParse_true l hpass
    obtain ⟨ch, rest, hin⟩ := List.exists_cons_of_ne_nil hne
    rw [ParseTokenBody_pass l ch rest htok hin hdc] at h
    split_ifs at h with h1 h2 h3 h4 h5 h6 h7 h8 h9
    · simp at h
    · -- a comment after a token that did not start a line
      simp only [Except.ok.injEq, Step.done.injEq] at h
      subst h
      refine ⟨fun hs => absurd hs (by simpa using h2), fun _ => by simp [indentWeight],
        fun he => absurd he (by simp), ?_⟩
      rintro ⟨a1, a2, a3, a4⟩ _
      exact ⟨a1, a2, a3, fun _ => a4 hne⟩
    · simp at h
    · -- a dedent at column 0
      simp only [Except.ok.injEq, Step.done.injEq] at h
      subst h
      refine ⟨fun _ => Or.inr (Or.inl rfl), fun _ => by simp [indentWeight]; ring,
        fun he => absurd he (by simp), ?_⟩
      rintro ⟨a1, a2, a3, a4⟩ _
      have := a4 hne
      simp only [indentOk]
      refine ⟨by omega, by omega, a3, fun _ => by omega⟩
    · -- a newline
      simp only [Except.ok.injEq, Step.done.injEq] at h
      subst h
      refine ⟨fun _ => Or.inl rfl, fun _ => by simp [indentWeight],
        fun he => absurd he (by simp), ?_⟩
      rintro ⟨a1, a2, a3, a4⟩ _
      exact ⟨a1, a2, a3, fun _ => a4 hne⟩
    · -- a string literal
      cases hs : ParseString ch { l with input_ := rest, is_code_block_ := false } with
      | error e => rw [hs] at h; simp [Except.map] at h
      | ok l3 =>
        rw [hs] at h
        simp only [Except.map, Except.ok.injEq, Step.done.injEq] at h
        obtain ⟨inp, v, rfl⟩ := ParseString_frame _ _ _ hs
        exact plain_done l inp (Token.String v) hne rfl (by simp) r h.symm
    · -- a number
      cases hs : ParseNumber { l with is_code_block_ := false } with
      | error e => rw [hs] at h; simp [Except.map] at h
      | ok l3 =>
        rw [hs] at h
        simp only [Except.map, Except.ok.injEq, Step.done.injEq] at h
        obtain ⟨inp, v, rfl⟩ := ParseNumber_frame _ _ hs
        exact plain_done l inp (Token.Number v) hne rfl (by simp) r h.symm
    · -- an identifier or keyword
      simp only [Except.ok.injEq, Step.done.injEq] at h
      obtain ⟨inp, t, ht, hw, hE, _⟩ := ParseIdentifier_frame { l with is_code_block_ := false }
      rw [ht] at h
      exact plain_done l inp t hne hw hE r h.symm
    · -- leading or separating spaces
      unfold ParseIndent at h
      simp only at h
      split_ifs at h with k1 k2 k3
      · simp at h
      · simp at h
      · -- one level deeper
        simp only [Except.ok.injEq, Step.done.injEq] at h
        subst h
        refine ⟨fun hs => absurd hs (by simp), fun _ => by simp [indentWeight],
          fun he => absurd he (by simp), ?_⟩
        rintro ⟨a1, a2, a3, a4⟩ _
        have := a4 hne
        simp only [indentOk]
        refine ⟨by omega, by omega, a3, fun _ => by omega⟩
      · -- fewer spaces than the active indentation
        simp only [Except.ok.injEq, Step.done.injEq] at h
        subst h
        refine ⟨fun hs => absurd hs (by simp), fun _ => by simp [indentWeight]; ring,
          fun he => absurd he (by simp), ?_⟩
        rintro ⟨a1, a2, a3, a4⟩ hwell
        have hnl : l.current_token_ = Token.Newline := by simpa using k1
        have hcl : countsLine l = true := by
          simp [countsLine, hpass, hin, h9, hnl]
        simp only [wellIndentedAt, hcl, Bool.not_true, Bool.false_or, Bool.and_eq_true,
          beq_iff_eq, decide_eq_true_eq] at hwell
        obtain ⟨w1, w2⟩ := hwell
        simp only at k2 k3
        have hdc0 : l.dedent_count_ = 0 := le_antisymm hdc a3
        have a5 := a4 hne
        simp only [indentOk]
        generalize (List.takeWhile (fun x => decide (x = ' ')) l.input_).length = cs at *
        simp only [Int.ofNat_eq_coe] at k2 k3 w2 ⊢
        have hd := dedentLoop_even (l.count_indent_ - (cs : Int)).toNat
          (l.count_indent_ - (cs : Int)) l.dedent_count_ (by omega) (by omega) (by omega)
        refine ⟨by omega, by omega, by omega, fun _ => by omega⟩
    · -- a symbol
      simp only [Except.ok.injEq, Step.done.injEq] at h
      rcases ParseSymbol_frame { l with is_code_block_ := false } hne with
        ⟨inp, t, ht, hw, hE, _⟩ | ⟨hb, inp, ht⟩
      · rw [ht] at h
        exact plain_done l inp t hne hw hE r h.symm
      · rw [ht] at h
        subst h
        have hb1 : noLoneBangAt l = false := hb
        refine ⟨fun hs => absurd hs (by simp), fun hn => absurd hn (by simp [hb1]),
          fun he hl => absurd he hl, ?_⟩
        rintro ⟨a1, a2, a3, a4⟩ _
        exact ⟨a1, a2, a3, fun _ => a4 hne⟩
  · -- `CheckBeforeParse` returns false
    have hb : ParseTokenBody l = .ok (.done (CheckBeforeParse l).2) := by
      unfold ParseTokenBody
      simp [hpass]
    rw [hb] at h
    simp only [Except.ok.injEq, Step.done.injEq] at h
    subst h
    unfold CheckBeforeParse
    unfold CheckBeforeParse at hpass
    split_ifs at hpass ⊢ with c1 c2 c3 c4 c5
    · exact ⟨fun _ => Or.inr (Or.inr c1), fun _ => by simp [indentWeight, c1],
        fun _ hl => absurd c1 hl, fun hi _ => hi⟩
    · -- end of input inside a block
      refine ⟨fun _ => Or.inr (Or.inl rfl), fun _ => by simp [indentWeight]; ring,
        fun he => absurd he (by simp), ?_⟩
      rintro ⟨a1, a2, a3, a4⟩ _
      simp only [indentOk]
      exact ⟨by omega, by omega, a3, fun hn => absurd c2 hn⟩
    · -- end of input after a token that is no layout token
      refine ⟨fun _ => Or.inl rfl, fun _ => by simp [indentWeight],
        fun he => absurd he (by simp), fun hi _ => hi⟩
    · -- end of input, nothing left to close
      refine ⟨fun _ => Or.inr (Or.inr rfl), fun _ => by simp [indentWeight], fun _ _ => ?_,
        fun hi _ => hi⟩
      refine ⟨?_, by simpa using c3⟩
      by_contra hcon
      exact c4 ⟨fun hh => hcon (Or.inl hh), fun hh => hcon (Or.inr hh)⟩
    · -- a pending dedent
      refine ⟨fun _ => Or.inr (Or.inl rfl), fun _ => by simp [indentWeight]; ring,
        fun he => absurd he (by simp), ?_⟩
      rintro ⟨a1, a2, a3, a4⟩ _
      have := a4 c2
      simp only [indentOk]
      exact ⟨by omega, by omega, by omega, fun _ => by omega⟩
    · exact absurd rfl hpass

theorem ParseTokenBody_recur (l l1 : Lexer)
    (h : ParseTokenBody l = .ok (.recur l1) ∨ ParseTokenBody l = .ok (.recur_from_indent l1)) :
    l1.count_indent_ = l.count_indent_ ∧ l1.dedent_count_ = l.dedent_count_ ∧
    l1.input_.length < l.input_.length ∧
    l.current_token_ ≠ Token.Eof ∧ l1.current_token_ ≠ Token.Eof ∧
    (flagOk l → flagOk l1) ∧
    (flagOk l → (l1.current_token_ = Token.Newline ∨ l1.current_token_ = Token.Dedent) →
      (l.current_token_ = Token.Newline ∨ l.current_token_ = Token.Dedent)) := by
  by_cases hpass : (CheckBeforeParse l).1 = true
  · obtain ⟨_, htok, hne, hdc⟩ := CheckBeforeParse_true l hpass
    obtain ⟨ch, rest, hin⟩ := List.exists_cons_of_ne_nil hne
    rw [ParseTokenBody_pass l ch rest htok hin hdc] at h
    split_ifs at h with h1 h2 h3 h4 h5 h6 h7 h8 h9
    · -- a comment at the start of a line
      have e : l1 = { l with input_ := getline rest, current_token_ := Token.Newline } := by
        rcases h with h | h <;> simp at h
        exact h.symm
      subst e
      have hl := getline_length rest
      refine ⟨rfl, rfl, by simp only [hin, List.length_cons]; omega, htok, by simp,
        fun _ _ => Or.inl rfl, fun hf _ => ?_⟩
      rcases hf h2 with hh | hh | hh
      · exact Or.inl hh
      · exact Or.inr hh
      · exact absurd hh htok
    · rcases h with h | h <;> simp at h
    · -- a newline after a newline
      have e : l1 = { l with input_ := rest, is_start_line_ := true } := by
        rcases h with h | h <;> simp at h
        exact h.symm
      subst e
      refine ⟨rfl, rfl, by simp [hin], htok, htok, fun _ _ => Or.inl h3.2,
        fun _ _ => Or.inl h3.2⟩
    · rcases h with h | h <;> simp at h
    · rcases h with h | h <;> simp at h
    · rcases h with h | h <;> simp [Except.map] at h <;> split at h <;> simp at h
    · rcases h with h | h <;> simp [Except.map] at h <;> split at h <;> simp at h
    · rcases h with h | h <;> simp at h
    · -- spaces
      unfold ParseIndent at h
      simp only at h
      split_ifs at h with k1 k2 k3
      · -- spaces between tokens
        have e : l1 = { l with input_ := l.input_.tail, is_code_block_ := false } := by
          rcases h with h | h <;> simp at h
          exact h.symm
        subst e
        refine ⟨rfl, rfl, by simp [hin], htok, htok, fun hf hs => hf hs, fun _ hh => hh⟩
      · -- a line indented like the one before
        have e : l1 = { l with input_ := l.input_.dropWhile (· = ' '),
                               is_code_block_ := true } := by
          rcases h with h | h <;> simp at h
          exact h.symm
        subst e
        have hnl : l.current_token_ = Token.Newline := by simpa using k1
        have hl := dropWhile_length (· = ' ') rest
        refine ⟨rfl, rfl, ?_, htok, htok, fun _ _ => Or.inl hnl, fun _ _ => Or.inl hnl⟩
        simp only [hin, h9, List.dropWhile_cons_of_pos, decide_True, List.length_cons]
        omega
      · rcases h with h | h <;> simp at h
      · rcases h with h | h <;> simp at h
    · rcases h with h | h <;> simp at h
  · have hb : ParseTokenBody l = .ok (.done (CheckBeforeParse l).2) := by
      unfold ParseTokenBody
      simp [hpass]
    rw [hb] at h
    rcases h with h | h <;> simp at h

theorem map_clear_ok (x : Except Failure Lexer) (r : Lexer)
    (h : (x.map fun l2 => { l2 with is_start_line_ := false }) = .ok r) :
    ∃ r1, x = .ok r1 ∧ r = { r1 with is_start_line_ := false } := by
  cases x with
  | error e => simp [Except.map] at h
  | ok r1 =>
    simp only [Except.map, Except.ok.injEq] at h
    exact ⟨r1, rfl, h.symm⟩

theorem ParseTokenFuel_flagOk (n : Nat) : ∀ (l r : Lexer),
    ParseTokenFuel n l = .ok r → flagOk r := by
  induction n with
  | zero => intro l r h; simp [ParseTokenFuel] at h
  | succ n ih =>
    intro l r h
    rw [ParseTokenFuel] at h
    split at h
    · cases h
    · rename_i l1 hb
      cases h
      exact (ParseTokenBody_done l r hb).1
    · exact ih _ _ h
    · obtain ⟨r1, _, rfl⟩ := map_clear_ok _ _ h
      exact fun hs => absurd hs (by simp)

theorem ParseTokenFuel_Eof (n : Nat) : ∀ (l r : Lexer),
    ParseTokenFuel n l = .ok r → flagOk l → l.current_token_ ≠ Token.Eof →
      r.current_token_ = Token.Eof →
      (l.current_token_ = Token.Newline ∨ l.current_token_ = Token.Dedent) ∧
        r.count_indent_ ≤ 0 := by
  induction n with
  | zero => intro l r h; simp [ParseTokenFuel] at h
  | succ n ih =>
    intro l r h hf hl hr
    rw [ParseTokenFuel] at h
    split at h
    · cases h
    · rename_i l1 hb
      cases h
      exact (ParseTokenBody_done l r hb).2.2.1 hr hl
    · rename_i l1 hb
      obtain ⟨_, _, _, _, e5, e6, e7⟩ := ParseTokenBody_recur l l1 (Or.inl hb)
      have := ih l1 r h (e6 hf) e5 hr
      exact ⟨e7 hf this.1, this.2⟩
    · rename_i l1 hb
      obtain ⟨r1, h1, rfl⟩ := map_clear_ok _ _ h
      obtain ⟨_, _, _, _, e5, e6, e7⟩ := ParseTokenBody_recur l l1 (Or.inr hb)
      have := ih l1 r1 h1 (e6 hf) e5 hr
      exact ⟨e7 hf this.1, this.2⟩

theorem ParseTokenBody_error (l : Lexer) (e : Failure) (h : ParseTokenBody l = .error e) :
    e = Failure.out_of_range ∨ e = Failure.unterminated_string := by
  by_cases hpass : (CheckBeforeParse l).1 = true
  · obtain ⟨_, htok, hne, hdc⟩ := CheckBeforeParse_true l hpass
    obtain ⟨ch, rest, hin⟩ := List.exists_cons_of_ne_nil hne
    rw [ParseTokenBody_pass l ch rest htok hin hdc] at h
    split_ifs at h with h1 h2 h3 h4 h5 h6 h7 h8 h9
    · unfold ParseString at h
      split at h
      · simp [Except.map] at h
      · simp only [Except.map, Except.error.injEq] at h
        exact Or.inr h.symm
    · unfold ParseNumber at h
      simp only at h
      split_ifs at h
      · simp [Except.map] at h
      · simp only [Except.map, Except.error.injEq] at h
        exact Or.inl h.symm
    · split at h <;> cases h
  · have hb : ParseTokenBody l = .ok (.done (CheckBeforeParse l).2) := by
      unfold ParseTokenBody
      simp [hpass]
    rw [hb] at h
    cases h

theorem ParseTokenFuel_enough (n : Nat) : ∀ (l : Lexer), l.input_.length < n →
    ParseTokenFuel n l ≠ .error Failure.out_of_fuel := by
  induction n with
  | zero => intro l h; omega
  | succ n ih =>
    intro l hlen h
    rw [ParseTokenFuel] at h
    split at h
    · rename_i e hb
      cases h
      rcases ParseTokenBody_error l _ hb with h1 | h1 <;> cases h1
    · cases h
    · rename_i l1 hb
      have := (ParseTokenBody_recur l l1 (Or.inl hb)).2.2.1
      exact ih l1 (by omega) h
    · rename_i l1 hb
      have := (ParseTokenBody_recur l l1 (Or.inr hb)).2.2.1
      cases hx : ParseTokenFuel n l1 with
      | error e =>
        rw [hx] at h
        simp only [Except.map, Except.error.injEq] at h
        subst h
        exact ih l1 (by omega) hx
      | ok r1 => rw [hx] at h; simp [Except.map] at h

theorem ParseToken_ne_out_of_fuel (l : Lexer) :
    ParseToken l ≠ .error Failure.out_of_fuel :=
  ParseTokenFuel_enough _ l (Nat.lt_succ_self _)

theorem sum_indentWeight (toks : List Token) :
    (toks.map indentWeight).sum =
      2 * (toks.count Token.Indent : Int) - 2 * (toks.count Token.Dedent : Int) := by
  induction toks with
  | nil => simp
  | cons t ts ih =>
    simp only [List.map_cons, List.sum_cons, ih, List.count_cons]
    cases t <;> simp [indentWeight] <;> ring

theorem NextTokenTimes_flagOk (n : Nat) : ∀ (l0 l : Lexer),
    NextTokenTimes n l0 = .ok l → flagOk l0 → flagOk l := by
  induction n with
  | zero =>
    intro l0 l h hf
    simp only [NextTokenTimes, Except.ok.injEq] at h
    exact h ▸ hf
  | succ n ih =>
    intro l0 l h _
    rw [NextTokenTimes] at h
    split at h
    · rename_i l1 h1
      exact ih l1 l h (ParseTokenFuel_flagOk _ _ _ h1)
    · cases h

/-- C5: once the stream is exhausted, a NextToken call returns Dedent and
lowers the indentation by 2 while the indentation is positive; after that it
returns Newline if the current token is neither Newline nor Dedent, and the
call after that Newline returns Eof; otherwise it returns Eof at once.  Hence
whenever a NextToken call of a lexer built on any input produces Eof, the
token returned just before was Newline or Dedent. -/
theorem end_of_input_steps :
    (∀ l : Lexer, l.input_ = [] → l.current_token_ ≠ Token.Eof → l.count_indent_ > 0 →
      NextToken l = .ok { l with current_token_ := Token.Dedent,
                                 count_indent_ := l.count_indent_ - 2 }) ∧
    (∀ l : Lexer, l.input_ = [] → ¬ l.count_indent_ > 0 → l.current_token_ ≠ Token.Eof →
      l.current_token_ ≠ Token.Newline → l.current_token_ ≠ Token.Dedent →
      NextToken l = .ok { l with current_token_ := Token.Newline } ∧
      NextToken { l with current_token_ := Token.Newline } =
        .ok { l with current_token_ := Token.Eof }) ∧
    (∀ l : Lexer, l.input_ = [] → ¬ l.count_indent_ > 0 →
      (l.current_token_ = Token.Newline ∨ l.current_token_ = Token.Dedent) →
      NextToken l = .ok { l with current_token_ := Token.Eof }) ∧
    (∀ (input : List Char) (n : Nat) (l0 l l1 : Lexer),
      Lexer.new input = .ok l0 → NextTokenTimes n l0 = .ok l → NextToken l = .ok l1 →
      l.current_token_ ≠ Token.Eof → l1.current_token_ = Token.Eof →
      l.current_token_ = Token.Newline ∨ l.current_token_ = Token.Dedent) := by
  refine ⟨?_, ?_, ?_, ?_⟩
  · intro l hin htok hci
    simp [NextToken, ParseToken, ParseTokenFuel, ParseTokenBody, CheckBeforeParse, hin, htok, hci]
  · intro l hin hci htok hnl hd
    constructor
    · simp [NextToken, ParseToken, ParseTokenFuel, ParseTokenBody, CheckBeforeParse, hin, htok,
        hci, hnl, hd]
    · simp [NextToken, ParseToken, ParseTokenFuel, ParseTokenBody, CheckBeforeParse, hin, hci]
  · intro l hin hci ht
    rcases ht with ht | ht <;>
      simp [NextToken, ParseToken, ParseTokenFuel, ParseTokenBody, CheckBeforeParse, hin, hci, ht]
  · intro input n l0 l l1 hnew htimes hnext hl hl1
    have hf0 : flagOk l0 := ParseTokenFuel_flagOk _ _ l0 hnew
    have hf : flagOk l := NextTokenTimes_flagOk n l0 l htimes hf0
    exact (ParseTokenFuel_Eof _ l l1 hnext hf hl hl1).1

theorem end_of_input_steps_witness :
    NextToken { input_ := [], current_token_ := Token.Newline, count_indent_ := 2 } =
      .ok { input_ := [], current_token_ := Token.Dedent, count_indent_ := 0 } ∧
    (NextToken { input_ := [], current_token_ := Token.Id "x" } =
        .ok { input_ := [], current_token_ := Token.Newline } ∧
      NextToken { input_ := [], current_token_ := Token.Newline } =
        .ok { input_ := [], current_token_ := Token.Eof }) ∧
    NextToken { input_ := [], current_token_ := Token.Dedent } =
      .ok { input_ := [], current_token_ := Token.Eof } ∧
    (Token.Newline = Token.Newline ∨ Token.Newline = Token.Dedent) :=
  ⟨end_of_input_steps.1 { input_ := [], current_token_ := Token.Newline, count_indent_ := 2 }
      rfl (by decide) (by decide),
    end_of_input_steps.2.1 { input_ := [], current_token_ := Token.Id "x" }
      rfl (by decide) (by decide) (by decide) (by decide),
    end_of_input_steps.2.2.1 { input_ := [], current_token_ := Token.Dedent }
      rfl (by decide) (Or.inr rfl),
    end_of_input_steps.2.2.2 "x\n".toList 1
      { input_ := ['\n'], current_token_ := Token.Id "x", is_start_line_ := false }
      { input_ := [], current_token_ := Token.Newline }
      { input_ := [], current_token_ := Token.Eof }
      rfl rfl rfl (by decide) rfl⟩

end parse

/-! ## Runtime: calling a method of an instance -/

namespace runtime

theorem GetMethod_arity {Body : Type} (c : Class Body) (name : String) (n : Nat)
    (m : Method Body) (h : c.GetMethod name n = some m) : m.formal_params.length = n := by
  unfold Class.GetMethod at h
  split at h
  · split_ifs at h with hlen
    cases h
    exact hlen
  · cases h

theorem Call_resolved {Body : Type} (exec : Exec Body) (cls_ : Class Body) (address : Nat)
    (name : String) (args : List (ObjectHolder Body)) (w : World Body) (m : Method Body)
    (h : cls_.GetMethod name args.length = some m) :
    ClassInstance.Call exec cls_ address name args w =
      (exec m.body (ClassInstance.CreateLocalClosure (Object.ClassInstance cls_ address)
        m.formal_params args) w).mapState Prod.snd := by
  unfold ClassInstance.Call
  rw [h]
  simp only [ClassInstance.CallMethod, GetMethod_arity cls_ name args.length m h, if_true]

theorem Call_unresolved {Body : Type} (exec : Exec Body) (cls_ : Class Body) (address : Nat)
    (name : String) (args : List (ObjectHolder Body)) (w : World Body)
    (h : cls_.GetMethod name args.length = none) :
    ClassInstance.Call exec cls_ address name args w =
      .error ("Unknown method name: " ++ name) w := by
  unfold ClassInstance.Call
  rw [h]

/-- The loop of `CreateLocalClosure` over parameters that are pairwise
distinct and not bound yet: every parameter gets its argument and no other
name changes. -/
theorem emplace_loop {Body : Type} : ∀ (formal_params : List String)
    (actual_args : List (ObjectHolder Body)) (c0 : Closure Body),
    formal_params.Nodup → (∀ p ∈ formal_params, c0.find p = none) →
    (∀ name, name ∉ formal_params →
      ((formal_params.zip actual_args).foldl (fun closure p => (closure.emplace p.1 p.2).1)
        c0).find name = c0.find name) ∧
    (∀ (i : Nat) (p : String) (a : ObjectHolder Body), formal_params[i]? = some p →
      actual_args[i]? = some a →
      ((formal_params.zip actual_args).foldl (fun closure p => (closure.emplace p.1 p.2).1)
        c0).find p = some a) := by
  intro formal_params
  induction formal_params with
  | nil =>
    intro actual_args c0 _ _
    exact ⟨fun name _ => rfl, fun i p a hp _ => by simp at hp⟩
  | cons q rest ih =>
    intro actual_args c0 hnodup hfree
    cases actual_args with
    | nil =>
      refine ⟨fun name _ => rfl, fun i p a _ ha => by simp at ha⟩
    | cons b args =>
      have hq : c0.find q = none := hfree q (List.mem_cons_self q rest)
      have hstep : (c0.emplace q b).1 = c0.assign q b := by
        simp only [Closure.emplace, hq]
      have hnodup1 : rest.Nodup := (List.nodup_cons.mp hnodup).2
      have hqrest : q ∉ rest := (List.nodup_cons.mp hnodup).1
      have hfree1 : ∀ p ∈ rest, (c0.assign q b).find p = none := by
        intro p hp
        have hne : p ≠ q := fun h => hqrest (h ▸ hp)
        simp only [Closure.assign, hne, if_false]
        exact hfree p (List.mem_cons_of_mem q hp)
      obtain ⟨hother, hbound⟩ := ih args (c0.assign q b) hnodup1 hfree1
      simp only [List.zip_cons_cons, List.foldl_cons, hstep]
      refine ⟨fun name hname => ?_, fun i p a hp ha => ?_⟩
      · have h1 : name ∉ rest := fun h => hname (List.mem_cons_of_mem q h)
        have h2 : name ≠ q := fun h => hname (h ▸ List.mem_cons_self q rest)
        rw [hother name h1]
        simp only [Closure.assign, h2, if_false]
      · cases i with
        | zero =>
          simp only [List.getElem?_cons_zero, Option.some.injEq] at hp ha
          subst hp
          subst ha
          rw [hother q hqrest]
          simp only [Closure.assign, if_true]
        | succ j =>
          simp only [List.getElem?_cons_succ] at hp ha
          exact hbound j p a hp ha

theorem CreateLocalClosure_find {Body : Type} (self : Object Body)
    (formal_params : List String) (actual_args : List (ObjectHolder Body))
    (hnodup : formal_params.Nodup) (hself : "self" ∉ formal_params) :
    (ClassInstance.CreateLocalClosure self formal_params actual_args).find "self" =
      some (some self) ∧
    (∀ (i : Nat) (p : String) (a : ObjectHolder Body), formal_params[i]? = some p →
      actual_args[i]? = some a →
      (ClassInstance.CreateLocalClosure self formal_params actual_args).find p = some a) ∧
    (∀ name, name ≠ "self" → name ∉ formal_params →
      (ClassInstance.CreateLocalClosure self formal_params actual_args).find name = none) := by
  have hstart : (Closure.empty.emplace "self" (some self)).1 =
      (Closure.empty : Closure Body).assign "self" (some self) := rfl
  have hfree : ∀ p ∈ formal_params,
      ((Closure.empty : Closure Body).assign "self" (some self)).find p = none := by
    intro p hp
    have hne : p ≠ "self" := fun h => hself (h ▸ hp)
    simp only [Closure.assign, hne, if_false]
    rfl
  obtain ⟨hother, hbound⟩ := emplace_loop formal_params actual_args
    ((Closure.empty : Closure Body).assign "self" (some self)) hnodup hfree
  unfold ClassInstance.CreateLocalClosure
  rw [hstart]
  refine ⟨?_, hbound, fun name hname hnot => ?_⟩
  · rw [hother "self" hself]
    simp only [Closure.assign, if_true]
  · rw [hother name hnot]
    simp only [Closure.assign, hname, if_false]
    rfl

theorem mapState_error {Body σ τ α : Type} (g : σ → τ) (x : Outcome Body σ α)
    (what : String) (t : τ) :
    x.mapState g = .error what t ↔ ∃ s, x = .error what s ∧ g s = t := by
  cases x with
  | error what1 s =>
    simp only [Outcome.mapState, Outcome.error.injEq]
    constructor
    · rintro ⟨rfl, rfl⟩
      exact ⟨s, ⟨rfl, rfl⟩, rfl⟩
    · rintro ⟨s1, ⟨rfl, rfl⟩, rfl⟩
      exact ⟨rfl, rfl⟩
  | normal v s => simp [Outcome.mapState]
  | returned v s => simp [Outcome.mapState]
  | undefined => simp [Outcome.mapState]
  | out_of_fuel => simp [Outcome.mapState]

/-- C20 as claimed fails: the class `Recaller` resolves a method for the name
`f` and no argument, yet the call of `f` without arguments fails with the
runtime error "Unknown method name: f", which the call `self.f(1)` in the body
of that method raises. -/
theorem Call_fails_though_resolved :
    (ast.exampleRecaller.GetMethod "f" ([] : List (ObjectHolder ast.Statement)).length).isSome =
      true ∧
    ClassInstance.Call (ast.Execute 5) ast.exampleRecaller 0 "f" [] World.initial =
      .error "Unknown method name: f" World.initial :=
  ⟨rfl, rfl⟩

/-- C20, as the code has it: `ClassInstance::Call(name, args, ctx)` on the
instance of class `cls_` at `address`.  When the class resolves no method for
the name and the number of arguments, the call fails with the runtime error
"Unknown method name: name" and leaves the world as it was.  The call fails
with that error exactly when the class resolves no method, or it resolves one
and the execution of the body of that method ends with that error.  When a
method is resolved, the outcome of the call is the outcome of executing its
body in the closure made by `CreateLocalClosure`, the method has as many
formal parameters as there are arguments, and, when the formal parameters are
pairwise distinct and different from "self", that closure binds "self" to this
instance, the i-th formal parameter to the i-th argument, and no other
name. -/
theorem Call_contract {Body : Type} (cls_ : Class Body) (address : Nat) (name : String)
    (args : List (ObjectHolder Body)) (w : World Body) :
    (cls_.GetMethod name args.length = none →
      ∀ exec : Exec Body, ClassInstance.Call exec cls_ address name args w =
        .error ("Unknown method name: " ++ name) w) ∧
    (∀ (exec : Exec Body) (w1 : World Body),
      ClassInstance.Call exec cls_ address name args w =
          .error ("Unknown method name: " ++ name) w1 ↔
        (cls_.GetMethod name args.length = none ∧ w1 = w) ∨
        ∃ (m : Method Body) (s : Closure Body × World Body),
          cls_.GetMethod name args.length = some m ∧
          exec m.body (ClassInstance.CreateLocalClosure (Object.ClassInstance cls_ address)
            m.formal_params args) w = .error ("Unknown method name: " ++ name) s ∧
          s.2 = w1) ∧
    (∀ m : Method Body, cls_.GetMethod name args.length = some m →
      (∀ exec : Exec Body, ClassInstance.Call exec cls_ address name args w =
        (exec m.body (ClassInstance.CreateLocalClosure (Object.ClassInstance cls_ address)
          m.formal_params args) w).mapState Prod.snd) ∧
      m.formal_params.length = args.length ∧
      (m.formal_params.Nodup → "self" ∉ m.formal_params →
        (ClassInstance.CreateLocalClosure (Object.ClassInstance cls_ address)
          m.formal_params args).find "self" = some (some (Object.ClassInstance cls_ address)) ∧
        (∀ (i : Nat) (p : String) (a : ObjectHolder Body), m.formal_params[i]? = some p →
          args[i]? = some a →
          (ClassInstance.CreateLocalClosure (Object.ClassInstance cls_ address)
            m.formal_params args).find p = some a) ∧
        (∀ k, k ≠ "self" → k ∉ m.formal_params →
          (ClassInstance.CreateLocalClosure (Object.ClassInstance cls_ address)
            m.formal_params args).find k = none))) := by
  refine ⟨fun h exec => Call_unresolved exec cls_ address name args w h, fun exec w1 => ?_,
    fun m hm => ⟨fun exec => Call_resolved exec cls_ address name args w m hm,
      GetMethod_arity cls_ name args.length m hm,
      fun hnodup hself => CreateLocalClosure_find _ m.formal_params args hnodup hself⟩⟩
  cases hm : cls_.GetMethod name args.length with
  | none =>
    rw [Call_unresolved exec cls_ address name args w hm]
    simp only [Outcome.error.injEq, true_and, reduceCtorEq, false_and, exists_false,
      exists_const, or_false]
    exact eq_comm
  | some m =>
    rw [Call_resolved exec cls_ address name args w m hm, mapState_error]
    simp only [reduceCtorEq, false_and, false_or, Option.some.injEq]
    constructor
    · rintro ⟨s, h1, h2⟩
      exact ⟨m, s, rfl, h1, h2⟩
    · rintro ⟨m1, s, rfl, h1, h2⟩
      exact ⟨s, h1, h2⟩

theorem Call_contract_witness :
    ClassInstance.Call (ast.Execute 3) ast.exampleComparable 0 "__add__"
        [some (Object.Number 7)] World.initial =
      .normal (some (Object.Number 7)) World.initial ∧
    ClassInstance.Call (ast.Execute 3) ast.exampleComparable 0 "__add__" [] World.initial =
      .error "Unknown method name: __add__" World.initial ∧
    ClassInstance.Call (ast.Execute 5) ast.exampleRecaller 0 "f" [] World.initial =
      .error "Unknown method name: f" World.initial ∧
    (ClassInstance.CreateLocalClosure (Object.ClassInstance ast.exampleComparable 0)
      ["other"] [some (Object.Number 7)]).find "other" = some (some (Object.Number 7)) :=
  ⟨((Call_contract ast.exampleComparable 0 "__add__" [some (Object.Number 7)]
      World.initial).2.2 ⟨"__add__", ["other"],
        .MethodBody (.Return (.VariableValue ["other"]))⟩ rfl).1 (ast.Execute 3),
    (Call_contract ast.exampleComparable 0 "__add__" [] World.initial).1 rfl
      (ast.Execute 3),
    ((Call_contract ast.exampleRecaller 0 "f" [] World.initial).2.1 (ast.Execute 5)
      World.initial).mpr (Or.inr ⟨⟨"f", [], .MethodBody (.Return (.MethodCall
        (.VariableValue ["self"]) "f" [.NumericConst 1]))⟩,
        (ClassInstance.CreateLocalClosure (Object.ClassInstance ast.exampleRecaller 0) [] [],
          World.initial), rfl, rfl, rfl⟩),
    (((Call_contract ast.exampleComparable 0 "__add__" [some (Object.Number 7)]
      World.initial).2.2 ⟨"__add__", ["other"],
        .MethodBody (.Return (.VariableValue ["other"]))⟩ rfl).2.2
      (by decide) (by decide)).2.1 0 "other" (some (Object.Number 7)) rfl rfl⟩

end runtime

/-! ## Runtime: comparisons -/

namespace runtime

/-- C11, as the code has it: for every left operand that is a class instance
and every right operand that is not None (a Number, String, Bool, class or
instance), `Equal` (resp. `Less`) is `ClassInstance::Call` of `__eq__` (resp.
`__lt__`) with the right operand as the only argument, followed by `IsTrue`;
so when the class resolves the method with exactly one formal parameter, the
body of that method is executed in the local closure of the call and the
comparison returns `IsTrue` of its result.  When the right operand is None the
method is not called: both comparisons fail with "Cannot compare objects for
__eq__" (resp. `__lt__`). -/
theorem instance_comparison {Body : Type} (exec : Exec Body) (cls_ : Class Body) (address : Nat)
    (w : World Body) :
    (∀ rhs : Object Body,
      (Equal exec (some (Object.ClassInstance cls_ address)) (some rhs) w =
        (ClassInstance.Call exec cls_ address "__eq__" [some rhs] w).map IsTrue) ∧
      (Less exec (some (Object.ClassInstance cls_ address)) (some rhs) w =
        (ClassInstance.Call exec cls_ address "__lt__" [some rhs] w).map IsTrue) ∧
      (∀ m, cls_.GetMethod "__eq__" 1 = some m →
        Equal exec (some (Object.ClassInstance cls_ address)) (some rhs) w =
          ((exec m.body (ClassInstance.CreateLocalClosure (Object.ClassInstance cls_ address)
            m.formal_params [some rhs]) w).mapState Prod.snd).map IsTrue) ∧
      (∀ m, cls_.GetMethod "__lt__" 1 = some m →
        Less exec (some (Object.ClassInstance cls_ address)) (some rhs) w =
          ((exec m.body (ClassInstance.CreateLocalClosure (Object.ClassInstance cls_ address)
            m.formal_params [some rhs]) w).mapState Prod.snd).map IsTrue)) ∧
    Equal exec (some (Object.ClassInstance cls_ address)) none w =
      .error "Cannot compare objects for __eq__" w ∧
    Less exec (some (Object.ClassInstance cls_ address)) none w =
      .error "Cannot compare objects for __lt__" w := by
  refine ⟨fun rhs => ?_, rfl, rfl⟩
  have e1 : Equal exec (some (Object.ClassInstance cls_ address)) (some rhs) w =
      (ClassInstance.Call exec cls_ address "__eq__" [some rhs] w).map IsTrue := rfl
  have e2 : Less exec (some (Object.ClassInstance cls_ address)) (some rhs) w =
      (ClassInstance.Call exec cls_ address "__lt__" [some rhs] w).map IsTrue := rfl
  refine ⟨e1, e2, fun m hm => ?_, fun m hm => ?_⟩
  · rw [e1, Call_resolved exec cls_ address "__eq__" [some rhs] w m hm]
  · rw [e2, Call_resolved exec cls_ address "__lt__" [some rhs] w m hm]

theorem instance_comparison_witness :
    Equal (ast.Execute 3) (some (Object.ClassInstance ast.exampleComparable 0))
        (some (Object.Number 1)) World.initial = .normal true World.initial ∧
    Less (ast.Execute 3) (some (Object.ClassInstance ast.exampleComparable 0))
        (some (Object.Number 1)) World.initial = .normal false World.initial :=
  ⟨((instance_comparison (ast.Execute 3) ast.exampleComparable 0 World.initial).1
      (Object.Number 1)).2.2.1
      ⟨"__eq__", ["other"], .MethodBody (.Return (.BoolConst true))⟩ rfl,
    ((instance_comparison (ast.Execute 3) ast.exampleComparable 0 World.initial).1
      (Object.Number 1)).2.2.2
      ⟨"__lt__", ["other"], .MethodBody (.Return (.BoolConst false))⟩ rfl⟩

/-- C11 fails for a right operand that is None: the class of the left operand
resolves `__eq__` and `__lt__` with one formal parameter, yet `Equal` and
`Less` do not call them and fail. -/
theorem comparison_of_instance_with_None :
    (ast.exampleComparable.GetMethod "__eq__" 1).isSome = true ∧
    (ast.exampleComparable.GetMethod "__lt__" 1).isSome = true ∧
    Equal (ast.Execute 3) (some (Object.ClassInstance ast.exampleComparable 0)) none
        World.initial = .error "Cannot compare objects for __eq__" World.initial ∧
    Less (ast.Execute 3) (some (Object.ClassInstance ast.exampleComparable 0)) none
        World.initial = .error "Cannot compare objects for __lt__" World.initial :=
  ⟨rfl, rfl, rfl, rfl⟩

theorem MakeComparison_other_kinds {Body : Type} (exec : Exec Body) (l r : Object Body)
    (w : World Body) (func_name : String) (cmp : Compare)
    (hl : l.kind ≠ Kind.ClassInstance) (hk : l.kind ≠ r.kind ∨ l.kind = Kind.Class) :
    MakeComparison exec (some l) (some r) w func_name cmp =
      .error ("Cannot compare objects for " ++ func_name) w := by
  cases l <;> cases r <;> simp [Object.kind] at hl hk <;> rfl

/-- C12, as the code has it: when no comparison rule applies, `Equal` and
`Less` fail with a runtime error and return no value, and the message depends
on the operands.  For a left operand that is a class instance whose class
resolves no `__eq__` (resp. `__lt__`) with one formal parameter and a right
operand that is not None, the message is "Unknown method name: __eq__" (resp.
`__lt__`), raised by `ClassInstance::GetMethod`.  The message is "Cannot
compare objects for __eq__" (resp. `__lt__`) when the left operand is not an
instance and the operands are of different kinds (or the left one is a class),
when exactly one operand is None, and, for `Less`, when both are None. -/
theorem comparison_errors {Body : Type} (exec : Exec Body) (w : World Body) :
    (∀ (cls_ : Class Body) (address : Nat) (rhs : Object Body),
      cls_.GetMethod "__eq__" 1 = none →
      Equal exec (some (Object.ClassInstance cls_ address)) (some rhs) w =
        .error "Unknown method name: __eq__" w) ∧
    (∀ (cls_ : Class Body) (address : Nat) (rhs : Object Body),
      cls_.GetMethod "__lt__" 1 = none →
      Less exec (some (Object.ClassInstance cls_ address)) (some rhs) w =
        .error "Unknown method name: __lt__" w) ∧
    (∀ l r : Object Body, l.kind ≠ Kind.ClassInstance →
      (l.kind ≠ r.kind ∨ l.kind = Kind.Class) →
      Equal exec (some l) (some r) w = .error "Cannot compare objects for __eq__" w ∧
      Less exec (some l) (some r) w = .error "Cannot compare objects for __lt__" w) ∧
    (∀ l : Object Body,
      Equal exec (some l) none w = .error "Cannot compare objects for __eq__" w ∧
      Equal exec none (some l) w = .error "Cannot compare objects for __eq__" w ∧
      Less exec (some l) none w = .error "Cannot compare objects for __lt__" w ∧
      Less exec none (some l) w = .error "Cannot compare objects for __lt__" w) ∧
    Less exec none none w = .error "Cannot compare objects for __lt__" w := by
  refine ⟨fun cls_ address rhs h => ?_, fun cls_ address rhs h => ?_, fun l r hl hk => ?_,
    fun l => ?_, rfl⟩
  · show (ClassInstance.Call exec cls_ address "__eq__" [some rhs] w).map IsTrue = _
    rw [Call_unresolved exec cls_ address "__eq__" [some rhs] w h]
    rfl
  · show (ClassInstance.Call exec cls_ address "__lt__" [some rhs] w).map IsTrue = _
    rw [Call_unresolved exec cls_ address "__lt__" [some rhs] w h]
    rfl
  · exact ⟨MakeComparison_other_kinds exec l r w "__eq__" Compare.equal_to hl hk,
      MakeComparison_other_kinds exec l r w "__lt__" Compare.less hl hk⟩
  · cases l <;> exact ⟨rfl, rfl, rfl, rfl⟩

theorem comparison_errors_witness :
    Less (ast.Execute 3) (some (Object.ClassInstance ast.examplePlain 0))
        (some (Object.Number 1)) World.initial =
      .error "Unknown method name: __lt__" World.initial ∧
    Equal (ast.Execute 3) (some (Object.Number 1)) (some (Object.String "1"))
        World.initial = .error "Cannot compare objects for __eq__" World.initial :=
  ⟨(comparison_errors (ast.Execute 3) World.initial).2.1 ast.examplePlain 0
      (Object.Number 1) rfl,
    ((comparison_errors (ast.Execute 3) World.initial).2.2.1 (Object.Number 1)
      (Object.String "1") (by decide) (Or.inl (by decide))).1⟩

/-- C12 fails for an instance of a class without `__eq__` compared with a
Number: the error raised is not "Cannot compare objects for __eq__". -/
theorem comparison_without_method :
    ast.examplePlain.GetMethod "__eq__" 1 = none ∧
    Equal (ast.Execute 3) (some (Object.ClassInstance ast.examplePlain 0))
        (some (Object.Number 1)) World.initial =
      .error "Unknown method name: __eq__" World.initial ∧
    Equal (ast.Execute 3) (some (Object.ClassInstance ast.examplePlain 0))
        (some (Object.Number 1)) World.initial ≠
      .error "Cannot compare objects for __eq__" World.initial :=
  ⟨rfl, rfl, fun h => absurd (Outcome.error.inj h).1 (by decide)⟩

theorem trichotomy_bool {α : Type} [LinearOrder α] (x y : α)
    (d1 : Decidable (x < y)) (d2 : Decidable (y < x)) (d3 : Decidable (y = x)) :
    (@decide (x < y) d1 ==
      !(!(if @decide (y < x) d2 = true then false else !@decide (y = x) d3))) = true := by
  rcases lt_trichotomy x y with h | h | h
  · have h1 : ¬ y < x := not_lt.mpr (le_of_lt h)
    have h2 : y ≠ x := (ne_of_lt h).symm
    simp [h, h1, h2]
  · subst h
    simp
  · have h1 : ¬ x < y := not_lt.mpr (le_of_lt h)
    simp [h, h1]

/-- C13: for all a, b that are both Numbers, both Strings or both Bools, the
comparisons `Equal(a,b)`, `Equal(b,a)`, `Less(a,b)` and `LessOrEqual(b,a)`
return values and leave the world as it was; `Equal(a,b)` and `Equal(b,a)`
return the same value; `Less(a,b) == !LessOrEqual(b,a)` is true, and with it
the expression `(Less(a,b) == !LessOrEqual(b,a)) || Equal(a,b)`.  The
comparison `Equal(None, None)` returns true. -/
theorem primitive_comparisons {Body : Type} (exec : Exec Body) (w : World Body)
    (a b : ObjectHolder Body) (h : bothPrimitive a b) :
    ∃ eab eba lab leba : Bool,
      Equal exec a b w = .normal eab w ∧ Equal exec b a w = .normal eba w ∧
      Less exec a b w = .normal lab w ∧ LessOrEqual exec b a w = .normal leba w ∧
      eab = eba ∧ (lab == !leba) = true ∧ ((lab == !leba) || eab) = true ∧
      Equal exec (none : ObjectHolder Body) none w = .normal true w := by
  rcases h with ⟨x, y, rfl, rfl⟩ | ⟨x, y, rfl, rfl⟩ | ⟨x, y, rfl, rfl⟩
  · have key := trichotomy_bool x y inferInstance inferInstance inferInstance
    refine ⟨decide (x = y), decide (y = x), decide (x < y),
      !(if decide (y < x) = true then false else !decide (y = x)), rfl, rfl, rfl, ?_, ?_, key, ?_, rfl⟩
    · simp only [LessOrEqual, Greater, Less, MakeComparison, Compare.onInt, Outcome.bind, Equal,
        Outcome.map]
      split_ifs <;> simp_all
    · simp [eq_comm]
    · rw [key]; rfl
  · have key := trichotomy_bool x y (String.decidableLT x y) (String.decidableLT y x)
      inferInstance
    refine ⟨decide (x = y), decide (y = x), decide (x < y),
      !(if decide (y < x) = true then false else !decide (y = x)), rfl, rfl, rfl, ?_, ?_, key, ?_, rfl⟩
    · simp only [LessOrEqual, Greater, Less, MakeComparison, Compare.onString, Outcome.bind, Equal,
        Outcome.map]
      split_ifs <;> simp_all
    · simp [eq_comm]
    · rw [key]; rfl
  · refine ⟨decide (x = y), decide (y = x), !x && y,
      !(if (!y && x) = true then false else !decide (y = x)), rfl, rfl, rfl, ?_, ?_, ?_, ?_, rfl⟩
    · simp only [LessOrEqual, Greater, Less, MakeComparison, Compare.onBool, Outcome.bind, Equal,
        Outcome.map]
      split_ifs <;> simp_all
    · simp [eq_comm]
    · cases x <;> cases y <;> rfl
    · cases x <;> cases y <;> rfl

theorem primitive_comparisons_witness :
    bothPrimitive (some (Object.String "ab")) (some (Object.String "b") : ObjectHolder Unit) ∧
    ∃ eab eba lab leba : Bool,
      Equal (fun _ _ _ => .undefined) (some (Object.String "ab")) (some (Object.String "b"))
        (World.initial : World Unit) = .normal eab World.initial ∧
      Equal (fun _ _ _ => .undefined) (some (Object.String "b")) (some (Object.String "ab"))
        (World.initial : World Unit) = .normal eba World.initial ∧
      Less (fun _ _ _ => .undefined) (some (Object.String "ab")) (some (Object.String "b"))
        (World.initial : World Unit) = .normal lab World.initial ∧
      LessOrEqual (fun _ _ _ => .undefined) (some (Object.String "b"))
        (some (Object.String "ab")) (World.initial : World Unit) =
          .normal leba World.initial ∧
      eab = eba ∧ (lab == !leba) = true ∧ ((lab == !leba) || eab) = true ∧
      Equal (fun _ _ _ => .undefined) (none : ObjectHolder Unit) none World.initial =
        .normal true World.initial :=
  ⟨Or.inr (Or.inl ⟨"ab", "b", rfl, rfl⟩),
    primitive_comparisons (fun _ _ _ => .undefined) World.initial (some (Object.String "ab"))
      (some (Object.String "b")) (Or.inr (Or.inl ⟨"ab", "b", rfl, rfl⟩))⟩

end runtime

/-! ## Statements: arithmetic -/

namespace ast

open runtime

/-- C14: `Div::Execute`, for operands that evaluate (left first, then right)
to the holders `l` and `r`.  When both are Numbers `a` and `b`, the statement
fails with the runtime error "Division by zero" iff `b = 0`, and otherwise,
the quotient being representable in 32 bits, it returns the Number `a / b`
truncated toward zero: its absolute value is the floor of `|a| / |b|` and its
sign is that of the exact quotient.  When either operand is not a Number the
statement fails with "lhs or rhs not Number".  In particular `1 / 0` fails
with "Division by zero". -/
theorem Div_Execute (n : Nat) (lhs_ rhs_ : Statement) (c : Closure Statement)
    (w : World Statement) (l r : Holder) (s1 s2 : State)
    (hl : Execute n lhs_ c w = .normal l s1)
    (hr : Execute n rhs_ s1.1 s1.2 = .normal r s2) :
    (∀ a b : Int, l = some (Object.Number a) → r = some (Object.Number b) →
      (Execute (n + 1) (Statement.Div lhs_ rhs_) c w = .error "Division by zero" s2 ↔ b = 0) ∧
      (b ≠ 0 → -2147483648 ≤ Int.tdiv a b → Int.tdiv a b ≤ 2147483647 →
        Execute (n + 1) (Statement.Div lhs_ rhs_) c w =
          .normal (some (Object.Number (Int.tdiv a b))) s2) ∧
      (Int.tdiv a b).natAbs = a.natAbs / b.natAbs ∧
      (0 ≤ a → 0 ≤ b → 0 ≤ Int.tdiv a b) ∧ (a ≤ 0 → b ≤ 0 → 0 ≤ Int.tdiv a b) ∧
      (0 ≤ a → b ≤ 0 → Int.tdiv a b ≤ 0) ∧ (a ≤ 0 → 0 ≤ b → Int.tdiv a b ≤ 0)) ∧
    (((∀ a : Int, l ≠ some (Object.Number a)) ∨ (∀ b : Int, r ≠ some (Object.Number b))) →
      Execute (n + 1) (Statement.Div lhs_ rhs_) c w = .error "lhs or rhs not Number" s2) ∧
    (∀ (c0 : Closure Statement) (w0 : World Statement),
      Execute (n + 2) (Statement.Div (Statement.NumericConst 1) (Statement.NumericConst 0)) c0 w0 =
        .error "Division by zero" (c0, w0)) := by
  refine ⟨?_, ?_, fun c0 w0 => rfl⟩
  · rintro a b rfl rfl
    have hdiv : Execute (n + 1) (Statement.Div lhs_ rhs_) c w =
        if b = 0 then .error "Division by zero" s2 else intResult (Int.tdiv a b) s2 := by
      simp only [Execute, Div.Execute, hl, Outcome.bind, hr]
    refine ⟨?_, ?_, ?_, ?_, ?_, ?_, ?_⟩
    · constructor
      · intro h
        by_contra hb
        rw [hdiv, if_neg hb] at h
        unfold intResult at h
        split_ifs at h
      · intro hb
        rw [hdiv, if_pos hb]
    · intro hb h1 h2
      rw [hdiv, if_neg hb]
      simp [intResult, h1, h2]
    · simp [Int.natAbs_tdiv]
      rfl
    · exact fun ha hb => Int.tdiv_nonneg ha hb
    · intro ha hb
      have := Int.tdiv_nonneg (Int.neg_nonneg.mpr ha) (Int.neg_nonneg.mpr hb)
      simpa using this
    · intro ha hb
      have := Int.tdiv_nonneg ha (Int.neg_nonneg.mpr hb)
      simp only [Int.tdiv_neg] at this
      omega
    · intro ha hb
      have := Int.tdiv_nonneg (Int.neg_nonneg.mpr ha) hb
      simp only [Int.neg_tdiv] at this
      omega
  · intro h
    have hdiv : Execute (n + 1) (Statement.Div lhs_ rhs_) c w =
        Div.Execute (Execute n) lhs_ rhs_ c w := rfl
    rw [hdiv]
    simp only [Div.Execute, hl, Outcome.bind, hr]
    rcases h with h | h
    · split
      · rename_i a b
        exact absurd rfl (h a)
      · rfl
    · split
      · rename_i a b
        exact absurd rfl (h b)
      · rfl

theorem Div_Execute_witness :
    Execute 2 (Statement.Div (Statement.NumericConst (-7)) (Statement.NumericConst 2))
        Closure.empty World.initial =
      .normal (some (Object.Number (-3))) (Closure.empty, World.initial) ∧
    Execute 2 (Statement.Div (Statement.NumericConst 7) Statement.NoneConst)
        Closure.empty World.initial =
      .error "lhs or rhs not Number" (Closure.empty, World.initial) :=
  ⟨((Div_Execute 1 (Statement.NumericConst (-7)) (Statement.NumericConst 2) Closure.empty
      World.initial (some (Object.Number (-7))) (some (Object.Number 2))
      (Closure.empty, World.initial) (Closure.empty, World.initial) rfl rfl).1 (-7) 2 rfl
      rfl).2.1 (by decide) (by decide) (by decide),
    (Div_Execute 1 (Statement.NumericConst 7) Statement.NoneConst Closure.empty
      World.initial (some (Object.Number 7)) none
      (Closure.empty, World.initial) (Closure.empty, World.initial) rfl rfl).2.1
      (Or.inr (fun b h => by cases h))⟩

end ast

/-! ## Statements: method bodies and `Return` -/

namespace ast

open runtime

theorem Compound_append (exec : Exec Statement) (before : List Statement) :
    ∀ (rest : List Statement) (c : Closure Statement) (w : World Statement) (v : Holder)
      (s1 : State), Compound.Execute exec before c w = .normal v s1 →
      Compound.Execute exec (before ++ rest) c w = Compound.Execute exec rest s1.1 s1.2 := by
  induction before with
  | nil =>
    intro rest c w v s1 h
    simp only [Compound.Execute, Outcome.normal.injEq] at h
    rw [← h.2]
    rfl
  | cons stmt before ih =>
    intro rest c w v s1 h
    simp only [List.cons_append, Compound.Execute] at h ⊢
    cases hx : exec stmt c w with
    | normal v0 s0 =>
      rw [hx] at h
      simp only [Outcome.bind] at h ⊢
      exact ih rest s0.1 s0.2 v s1 h
    | returned v0 s0 => rw [hx] at h; simp [Outcome.bind] at h
    | error e s0 => rw [hx] at h; simp [Outcome.bind] at h
    | undefined => rw [hx] at h; simp [Outcome.bind] at h
    | out_of_fuel => rw [hx] at h; simp [Outcome.bind] at h

/-- A statement that is left by the return signal takes every enclosing
`Compound` and `IfElse` with it: the statements after it are not executed. -/
theorem returned_through (fuel : Nat) (k : Nesting) : ∀ (statement : Statement) (s s1 s2 : State)
    (v : Holder), k.reach fuel s = some s1 →
    Execute fuel statement s1.1 s1.2 = .returned v s2 →
    Execute (fuel + k.depth) (k.fill statement) s.1 s.2 = .returned v s2 := by
  induction k with
  | here =>
    intro statement s s1 s2 v hreach hret
    simp only [Nesting.reach, Option.some.injEq] at hreach
    subst hreach
    exact hret
  | compound before inner after ih =>
    intro statement s s1 s2 v hreach hret
    simp only [Nesting.reach] at hreach
    split at hreach
    · rename_i v0 s0 hbefore
      have hin := ih statement s0 s1 s2 v hreach hret
      show Compound.Execute (Execute (fuel + inner.depth)) (before ++ inner.fill statement :: after)
        s.1 s.2 = _
      rw [Compound_append _ before _ s.1 s.2 v0 s0 hbefore]
      simp only [Compound.Execute, hin, Outcome.bind]
    · cases hreach
  | ifBody condition_ inner else_body_ ih =>
    intro statement s s1 s2 v hreach hret
    simp only [Nesting.reach] at hreach
    split at hreach
    · rename_i cond s0 hcond
      split_ifs at hreach with ht
      have hin := ih statement s0 s1 s2 v hreach hret
      show IfElse.Execute (Execute (fuel + inner.depth)) condition_ (inner.fill statement)
        else_body_ s.1 s.2 = _
      simp only [IfElse.Execute, hcond, Outcome.bind, ht, if_true, hin]
    · cases hreach
  | elseBody condition_ if_body_ inner ih =>
    intro statement s s1 s2 v hreach hret
    simp only [Nesting.reach] at hreach
    split at hreach
    · rename_i cond s0 hcond
      split_ifs at hreach with ht
      have hin := ih statement s0 s1 s2 v hreach hret
      show IfElse.Execute (Execute (fuel + inner.depth)) condition_ if_body_
        (some (inner.fill statement)) s.1 s.2 = _
      simp only [IfElse.Execute, hcond, Outcome.bind, ht, hin]
      simp
    · cases hreach

/-- C16: `MethodBody::Execute`, for every inner statement.  When the inner
statement completes normally, whatever value it produced, the method body
returns None.  When the inner statement is left by the return signal, the
method body returns the holder the signal carries and the state the signal
left.  The method body itself is never left by the return signal.  And for a
`Return` at any place inside nested `Compound` and `IfElse` nodes: once
control arrives there and the statement of the `Return` evaluates to a holder,
the whole nest is left by the signal, and the method body around it returns
exactly that holder in the state right after the evaluation, so that no
statement following the `Return` in an enclosing `Compound` is executed. -/
theorem MethodBody_Execute (fuel : Nat) :
    (∀ (body_ : Statement) (c : Closure Statement) (w : World Statement) (v : Holder)
      (s1 : State), Execute fuel body_ c w = .normal v s1 →
      Execute (fuel + 1) (Statement.MethodBody body_) c w = .normal none s1) ∧
    (∀ (body_ : Statement) (c : Closure Statement) (w : World Statement) (v : Holder)
      (s1 : State), Execute fuel body_ c w = .returned v s1 →
      Execute (fuel + 1) (Statement.MethodBody body_) c w = .normal v s1) ∧
    (∀ (body_ : Statement) (c : Closure Statement) (w : World Statement) (v : Holder)
      (s1 : State), Execute fuel (Statement.MethodBody body_) c w ≠ .returned v s1) ∧
    (∀ (k : Nesting) (statement_ : Statement) (s s1 s2 : State) (v : Holder),
      k.reach (fuel + 1) s = some s1 →
      Execute fuel statement_ s1.1 s1.2 = .normal v s2 →
      Execute (fuel + 1 + k.depth) (k.fill (Statement.Return statement_)) s.1 s.2 =
          .returned v s2 ∧
        Execute (fuel + 1 + k.depth + 1)
          (Statement.MethodBody (k.fill (Statement.Return statement_))) s.1 s.2 =
          .normal v s2) := by
  refine ⟨?_, ?_, ?_, ?_⟩
  · intro body_ c w v s1 h
    simp only [Execute, MethodBody.Execute, h]
  · intro body_ c w v s1 h
    simp only [Execute, MethodBody.Execute, h]
  · intro body_ c w v s1 h
    cases fuel with
    | zero => simp [Execute] at h
    | succ m =>
      simp only [Execute, MethodBody.Execute] at h
      split at h <;> cases h
  · intro k statement_ s s1 s2 v hreach hval
    have hret : Execute (fuel + 1) (Statement.Return statement_) s1.1 s1.2 = .returned v s2 := by
      simp only [Execute, Return.Execute, hval, Outcome.bind]
    have hthrough := returned_through (fuel + 1) k _ s s1 s2 v hreach hret
    refine ⟨hthrough, ?_⟩
    simp only [Execute, MethodBody.Execute]
    simp only [Execute] at hthrough
    rw [hthrough]

theorem MethodBody_Execute_witness :
    Execute 5 (Statement.MethodBody (Statement.Compound
        [Statement.Assignment "x" (Statement.NumericConst 1),
          Statement.IfElse (Statement.BoolConst true)
            (Statement.Return (Statement.VariableValue ["x"])) none,
          Statement.Print [Statement.StringConst "after"]]))
        Closure.empty World.initial =
      .normal (some (Object.Number 1))
        ((Closure.empty.emplace "x" (some (Object.Number 1))).1, World.initial) ∧
    Execute 3 (Statement.MethodBody (Statement.Compound [Statement.NumericConst 1]))
        Closure.empty World.initial = .normal none (Closure.empty, World.initial) :=
  ⟨((MethodBody_Execute 1).2.2.2
      (Nesting.compound [Statement.Assignment "x" (Statement.NumericConst 1)]
        (Nesting.ifBody (Statement.BoolConst true) Nesting.here none)
        [Statement.Print [Statement.StringConst "after"]])
      (Statement.VariableValue ["x"]) (Closure.empty, World.initial)
      ((Closure.empty.emplace "x" (some (Object.Number 1))).1, World.initial)
      ((Closure.empty.emplace "x" (some (Object.Number 1))).1, World.initial)
      (some (Object.Number 1)) rfl rfl).2,
    (MethodBody_Execute 2).1 (Statement.Compound [Statement.NumericConst 1]) Closure.empty
      World.initial none (Closure.empty, World.initial) rfl⟩

end ast

/-! ## Statements: `Print` -/

namespace ast

open runtime

theorem intercalate_go (sep : String) : ∀ (texts : List String) (acc : String),
    String.intercalate.go acc sep texts = acc ++ String.intercalate.go "" sep texts := by
  intro texts
  induction texts with
  | nil => intro acc; simp [String.intercalate.go]
  | cons t texts ih =>
    intro acc
    simp only [String.intercalate.go]
    rw [ih (acc ++ sep ++ t), ih ("" ++ sep ++ t)]
    simp [String.append_assoc]

theorem intercalate_cons_cons (sep t u : String) (texts : List String) :
    sep.intercalate (t :: u :: texts) = t ++ sep ++ sep.intercalate (u :: texts) := by
  simp only [String.intercalate, String.intercalate.go]
  rw [intercalate_go sep texts (t ++ sep ++ u), intercalate_go sep texts u]
  simp [String.append_assoc]

theorem Print_argument (n : Nat) (arg : Statement) (separator : String) (c : Closure Statement)
    (w : World Statement) (value : Holder) (s1 : State) (text : String) (w2 : World Statement)
    (hv : Execute n arg c w = .normal value s1)
    (ht : PrintHolder (Execute n) n value s1.2 = .normal text w2) :
    Print.argument (Execute n) n arg separator c w =
      .normal () (s1.1, (w2.write text).write separator) := by
  simp only [Print.argument, hv, Outcome.bind, ht, Outcome.mapState]

theorem Print_last (n : Nat) (arg : Statement) (c : Closure Statement)
    (w : World Statement) (value : Holder) (s1 : State) (text : String) (w2 : World Statement)
    (hv : Execute n arg c w = .normal value s1)
    (ht : PrintHolder (Execute n) n value s1.2 = .normal text w2) :
    Execute (n + 1) (Statement.Print [arg]) c w =
      .normal none (s1.1, (w2.write text).write "\n") := by
  simp only [Execute, Print.Execute, Print.loop,
    Print_argument n arg "\n" c w value s1 text w2 hv ht, Outcome.bind]

theorem Print_next (n : Nat) (arg next : Statement) (rest : List Statement)
    (c : Closure Statement)
    (w : World Statement) (value : Holder) (s1 : State) (text : String) (w2 : World Statement)
    (hv : Execute n arg c w = .normal value s1)
    (ht : PrintHolder (Execute n) n value s1.2 = .normal text w2) :
    Execute (n + 1) (Statement.Print (arg :: next :: rest)) c w =
      Execute (n + 1) (Statement.Print (next :: rest)) s1.1 ((w2.write text).write " ") := by
  simp only [Execute, Print.Execute, Print.loop,
    Print_argument n arg " " c w value s1 text w2 hv ht, Outcome.bind]

theorem withOutput_write (w : World Statement) (out text : String) :
    (withOutput w out).write text = withOutput w (out ++ text) := rfl

theorem Print_quiet (n : Nat) (c : Closure Statement) (w : World Statement) :
    ∀ (args_ : List Statement) (texts : List String) (arg : Statement) (text out : String),
      Print.quiet n c w (arg :: args_) (text :: texts) →
      Execute (n + 1) (Statement.Print (arg :: args_)) c (withOutput w out) =
        .normal none (c, withOutput w (out ++ " ".intercalate (text :: texts) ++ "\n")) := by
  intro args_
  induction args_ with
  | nil =>
    intro texts arg text out h
    cases texts with
    | nil =>
      simp only [Print.quiet] at h
      obtain ⟨value, hv, ht⟩ := h.1 out
      rw [Print_last n arg c _ value _ text _ hv ht]
      rfl
    | cons u texts => simp [Print.quiet] at h
  | cons next rest ih =>
    intro texts arg text out h
    cases texts with
    | nil => simp [Print.quiet] at h
    | cons u texts =>
      rw [Print.quiet] at h
      obtain ⟨value, hv, ht⟩ := h.1 out
      rw [Print_next n arg next rest c _ value _ text _ hv ht]
      simp only [withOutput_write]
      rw [ih texts next u (out ++ text ++ " ") h.2, intercalate_cons_cons]
      simp [String.append_assoc]

/-- C17, as the code has it: `Print::Execute` deals with its arguments one at
a time, from left to right.  With zero arguments it appends just a newline to
the output.  Otherwise the first argument is evaluated and its value is
rendered, and the rendering is appended at once, followed by a newline when it
is the only argument, and by one space when more arguments follow, which are
then printed in the same way in the state reached; so whatever is written
while a later argument is evaluated or rendered lands after the renderings of
the earlier arguments.  When the arguments are quiet (evaluating and rendering
them changes nothing), what is appended is the renderings separated by exactly
one space and followed by exactly one newline.  A null holder is rendered as
"None", and the statement returns a null holder. -/
theorem Print_Execute (n : Nat) (c : Closure Statement) (w : World Statement) :
    Execute (n + 1) (Statement.Print []) c w = .normal none (c, w.write "\n") ∧
    (∀ (arg : Statement) (value : Holder) (s1 : State) (text : String)
        (w2 : World Statement),
      Execute n arg c w = .normal value s1 →
      PrintHolder (Execute n) n value s1.2 = .normal text w2 →
      Execute (n + 1) (Statement.Print [arg]) c w =
          .normal none (s1.1, (w2.write text).write "\n") ∧
        ∀ (next : Statement) (rest : List Statement),
          Execute (n + 1) (Statement.Print (arg :: next :: rest)) c w =
            Execute (n + 1) (Statement.Print (next :: rest)) s1.1
              ((w2.write text).write " ")) ∧
    (∀ (args_ : List Statement) (texts : List String), Print.quiet n c w args_ texts →
      Execute (n + 1) (Statement.Print args_) c w =
        .normal none (c, w.write (" ".intercalate texts ++ "\n"))) ∧
    (∀ context : World Statement,
      PrintHolder (Execute n) n none context = .normal "None" context) := by
  refine ⟨rfl, fun arg value s1 text w2 hv ht =>
    ⟨Print_last n arg c w value s1 text w2 hv ht,
      fun next rest => Print_next n arg next rest c w value s1 text w2 hv ht⟩,
    fun args_ texts h => ?_, fun context => rfl⟩
  cases args_ with
  | nil =>
    cases texts with
    | nil => rfl
    | cons text texts => simp [Print.quiet] at h
  | cons arg args_ =>
    cases texts with
    | nil => simp [Print.quiet] at h
    | cons text texts =>
      have hq := Print_quiet n c w args_ texts arg text w.output h
      have hw : withOutput w w.output = w := rfl
      rw [hw] at hq
      rw [hq]
      simp [withOutput, World.write, String.append_assoc]

theorem Print_Execute_witness :
    Execute 2 (Statement.Print [Statement.NumericConst 1, Statement.NoneConst,
        Statement.StringConst "a"]) Closure.empty World.initial =
      .normal none (Closure.empty, World.initial.write "1 None a\n") :=
  (Print_Execute 1 Closure.empty World.initial).2.2.1
    [Statement.NumericConst 1, Statement.NoneConst, Statement.StringConst "a"]
    ["1", "None", "a"]
    ⟨fun _ => ⟨some (Object.Number 1), rfl, rfl⟩, fun _ => ⟨none, rfl, rfl⟩,
      fun _ => ⟨some (Object.String "a"), rfl, rfl⟩, trivial⟩

/-- C17 fails for an argument list in which evaluating the second argument
prints: the arguments evaluate to 1 and 1, but what is appended is not "1 1"
followed by a newline, because the text printed by the call lands between the
rendering of the first argument and that of the second. -/
theorem Print_interleaves :
    outputOf (Execute 6 (Statement.Print [Statement.NumericConst 1,
      Statement.MethodCall (Statement.NewInstance 0 exampleTalker []) "speak" []])
      Closure.empty World.initial) = some "1 x\n1\n" ∧
    outputOf (Execute 6 (Statement.Print [Statement.NumericConst 1,
      Statement.MethodCall (Statement.NewInstance 0 exampleTalker []) "speak" []])
      Closure.empty World.initial) ≠ some ("" ++ " ".intercalate ["1", "1"] ++ "\n") ∧
    (∃ s, Execute 5 (Statement.NumericConst 1) Closure.empty World.initial =
      .normal (some (Object.Number 1)) s) ∧
    (∃ s, Execute 5 (Statement.MethodCall (Statement.NewInstance 0 exampleTalker []) "speak" [])
      Closure.empty World.initial = .normal (some (Object.Number 1)) s) :=
  ⟨by decide, by decide, ⟨_, rfl⟩, ⟨_, rfl⟩⟩

end ast

/-! ## Statements: class definitions and field assignments -/

namespace ast

open runtime

/-- C18 fails for every closure in which the name of the class is bound
already, whatever it is bound to: `emplace` inserts nothing then, so the
closure is left as it was, the name still refers to the old holder, and the
old holder is what `ClassDefinition::Execute` returns.  So with `Talker` bound
to the Number 1, defining the class `Talker` returns the Number 1 and leaves
`Talker` bound to it. -/
theorem ClassDefinition_bound_name (n : Nat) (cls_ : Class Statement) (c : Closure Statement)
    (w : World Statement) (old : Holder) :
    Execute (n + 1) (Statement.ClassDefinition cls_) (c.assign cls_.GetName old) w =
      .normal old (c.assign cls_.GetName old, w) ∧
    Execute 1 (Statement.ClassDefinition exampleTalker)
        (Closure.empty.assign "Talker" (some (Object.Number 1))) World.initial =
      .normal (some (Object.Number 1))
        (Closure.empty.assign "Talker" (some (Object.Number 1)), World.initial) ∧
    (Closure.empty.assign "Talker" (some (Object.Number 1)) : Closure Statement).find
      exampleTalker.GetName = some (some (Object.Number 1)) := by
  refine ⟨?_, rfl, rfl⟩
  simp [Execute, ClassDefinition.Execute, Closure.emplace, Closure.assign]

/-- C19 fails when the field does not exist before and evaluating the right
side creates it.  With `p` an instance of `Setter` without fields, the right
side `p.set()` stores 1 in `p.x` and evaluates to 2; after `p.x = p.set()` the
field `x` holds 1, and 1 is the value of the assignment.  When the field exists
before the assignment (here holding None), the same statement leaves 2 in it. -/
theorem FieldAssignment_field_created_by_rhs :
    (∃ s, Execute 7 (Statement.MethodCall (Statement.VariableValue ["p"]) "set" [])
        (Closure.empty.assign "p" (some (Object.ClassInstance exampleSetter 0)))
        World.initial = .normal (some (Object.Number 2)) s) ∧
    (∃ s, Execute 8 (Statement.FieldAssignment ["p"] "x"
          (Statement.MethodCall (Statement.VariableValue ["p"]) "set" []))
        (Closure.empty.assign "p" (some (Object.ClassInstance exampleSetter 0)))
        World.initial = .normal (some (Object.Number 1)) s ∧
      (s.2.fields 0).find "x" = some (some (Object.Number 1))) ∧
    (∃ s, Execute 8 (Statement.FieldAssignment ["p"] "x"
          (Statement.MethodCall (Statement.VariableValue ["p"]) "set" []))
        (Closure.empty.assign "p" (some (Object.ClassInstance exampleSetter 0)))
        (World.initial.setFields 0 (Closure.empty.assign "x" none)) =
          .normal (some (Object.Number 2)) s ∧
      (s.2.fields 0).find "x" = some (some (Object.Number 2))) :=
  ⟨⟨_, rfl⟩, ⟨_, rfl, rfl⟩, ⟨_, rfl, rfl⟩⟩

end ast

/-! ## Lexer: what a call reads and what it does to the counters -/

namespace parse

theorem ParseStringLoop_length (input : Char) (n : Nat) :
    ∀ (inp s v rest : List Char), inp.length ≤ n →
      ParseStringLoop input inp s = some (v, rest) → rest.length < inp.length := by
  induction n with
  | zero =>
    intro inp s v rest hn h
    have : inp = [] := List.length_eq_zero.mp (Nat.le_zero.mp hn)
    subst this
    simp [ParseStringLoop] at h
  | succ n ih =>
    intro inp s v rest hn h
    cases inp with
    | nil => simp [ParseStringLoop] at h
    | cons ch tl =>
      rw [ParseStringLoop.eq_def] at h
      simp only at h
      split_ifs at h with h1 h2
      · simp only [Option.some.injEq, Prod.mk.injEq] at h
        rw [← h.2]
        simp
      · cases tl with
        | nil => simp at h
        | cons e tl2 =>
          simp only at h
          have := ih tl2 _ v rest (by simp only [List.length_cons] at hn; omega) h
          simp only [List.length_cons]
          omega
      · have := ih tl _ v rest (by simp only [List.length_cons] at hn; omega) h
        simp only [List.length_cons]
        omega

theorem ParseString_length (input : Char) (l r : Lexer) (h : ParseString input l = .ok r) :
    r.input_.length < l.input_.length ∧ r.count_indent_ = l.count_indent_ ∧
      r.dedent_count_ = l.dedent_count_ := by
  unfold ParseString at h
  split at h
  · rename_i s rest hs
    cases h
    exact ⟨ParseStringLoop_length input _ _ _ _ _ (le_refl _) hs, rfl, rfl⟩
  · cases h

theorem ParseNumber_length (l r : Lexer) (h : ParseNumber l = .ok r) :
    r.input_ = l.input_.dropWhile Char.isDigit ∧ r.count_indent_ = l.count_indent_ ∧
      r.dedent_count_ = l.dedent_count_ := by
  unfold ParseNumber at h
  simp only at h
  split_ifs at h
  cases h
  exact ⟨rfl, rfl, rfl⟩

theorem ParseIdentifier_length (l : Lexer) :
    (ParseIdentifier l).input_ = l.input_.dropWhile isIdentifierChar ∧
      (ParseIdentifier l).count_indent_ = l.count_indent_ ∧
      (ParseIdentifier l).dedent_count_ = l.dedent_count_ := by
  unfold ParseIdentifier
  simp only
  by_cases hk : String.mk (l.input_.takeWhile isIdentifierChar) ∈ keywords.map Prod.fst
  · obtain ⟨⟨kw, tok⟩, hmem, hfst⟩ := List.mem_map.mp hk
    simp only at hfst
    rw [← hfst, ParseKeyword_keyword _ kw tok hmem]
    exact ⟨rfl, rfl, rfl⟩
  · rw [ParseKeyword_other _ _ hk]
    exact ⟨rfl, rfl, rfl⟩

theorem ParseSymbol_length (l : Lexer) (hne : l.input_ ≠ []) :
    (ParseSymbol l).input_.length < l.input_.length ∧
      (ParseSymbol l).count_indent_ = l.count_indent_ ∧
      (ParseSymbol l).dedent_count_ = l.dedent_count_ := by
  unfold ParseSymbol
  split
  · rename_i h
    exact absurd h hne
  · rename_i ch rest h
    rw [h]
    split_ifs
    all_goals first
      | exact ⟨by simp, rfl, rfl⟩
      | (split <;> exact ⟨by simp only [List.length_cons]; omega, rfl, rfl⟩)

theorem dropWhile_cons_length (p : Char → Bool) (ch : Char) (rest : List Char)
    (h : p ch = true) : ((ch :: rest).dropWhile p).length < (ch :: rest).length := by
  have := dropWhile_length p rest
  simp only [List.dropWhile_cons_of_pos h, List.length_cons]
  omega

theorem dedentLoop_bound (n : Nat) : ∀ (d dc : Int),
    dc ≤ dedentLoop n d dc ∧ (d ≤ 2 → dedentLoop n d dc = dc) ∧
      (2 < d → 2 * dedentLoop n d dc ≤ 2 * dc + d - 1) := by
  induction n with
  | zero => intro d dc; simp [dedentLoop]; omega
  | succ n ih =>
    intro d dc
    unfold dedentLoop
    split_ifs with h
    · obtain ⟨h1, h2, h3⟩ := ih (d - 2) (dc + 1)
      refine ⟨by omega, fun hd => by omega, fun _ => ?_⟩
      by_cases h4 : d - 2 ≤ 2
      · rw [h2 h4]; omega
      · have := h3 (by omega); omega
    · exact ⟨le_refl _, fun _ => rfl, fun hd => absurd hd h⟩

theorem consumed_kind (l r : Lexer) (hdc : l.dedent_count_ ≤ 0)
    (h : r.input_.length < l.input_.length ∧ r.count_indent_ = l.count_indent_ ∧
      r.dedent_count_ = l.dedent_count_) : StepKind l r :=
  Or.inl ⟨h.1, hdc, Or.inl h.2.1, Or.inl h.2.2⟩

theorem ParseTokenBody_done_kind (l r : Lexer) (h : ParseTokenBody l = .ok (.done r))
    (hl : l.current_token_ ≠ Token.Eof) : StepKind l r := by
  by_cases hpass : (CheckBeforeParse l).1 = true
  · obtain ⟨_, htok, hne, hdc⟩ := CheckBeforeParse_true l hpass
    obtain ⟨ch, rest, hin⟩ := List.exists_cons_of_ne_nil hne
    rw [ParseTokenBody_pass l ch rest htok hin hdc] at h
    have hlen : l.input_.length = rest.length + 1 := by rw [hin]; rfl
    split_ifs at h with h1 h2 h3 h4 h5 h6 h7 h8 h9
    · simp at h
    · simp only [Except.ok.injEq, Step.done.injEq] at h
      subst h
      have := getline_length rest
      exact consumed_kind _ _ hdc ⟨by simp only [hlen]; omega, rfl, rfl⟩
    · simp at h
    · simp only [Except.ok.injEq, Step.done.injEq] at h
      subst h
      exact Or.inr (Or.inl ⟨rfl, rfl, h4.2.1, rfl, rfl, Or.inl hdc⟩)
    · simp only [Except.ok.injEq, Step.done.injEq] at h
      subst h
      exact consumed_kind _ _ hdc ⟨by simp only [hlen]; omega, rfl, rfl⟩
    · cases hs : ParseString ch { l with input_ := rest, is_code_block_ := false } with
      | error e => rw [hs] at h; simp [Except.map] at h
      | ok l3 =>
        rw [hs] at h
        simp only [Except.map, Except.ok.injEq, Step.done.injEq] at h
        subst h
        obtain ⟨a1, a2, a3⟩ := ParseString_length _ _ _ hs
        simp only at a1 a2 a3
        exact consumed_kind _ _ hdc ⟨by simp only [hlen]; omega, a2, a3⟩
    · cases hs : ParseNumber { l with is_code_block_ := false } with
      | error e => rw [hs] at h; simp [Except.map] at h
      | ok l3 =>
        rw [hs] at h
        simp only [Except.map, Except.ok.injEq, Step.done.injEq] at h
        subst h
        obtain ⟨a1, a2, a3⟩ := ParseNumber_length _ _ hs
        simp only at a1 a2 a3
        have := dropWhile_cons_length Char.isDigit ch rest h7
        exact consumed_kind _ _ hdc ⟨by simp only [a1, hin]; exact this, a2, a3⟩
    · simp only [Except.ok.injEq, Step.done.injEq] at h
      subst h
      obtain ⟨a1, a2, a3⟩ := ParseIdentifier_length { l with is_code_block_ := false }
      simp only at a1 a2 a3
      have hid : isIdentifierChar ch = true := by
        rcases h8 with h8 | h8
        · simp [isIdentifierChar, Char.isAlphanum, h8]
        · simp [isIdentifierChar, h8]
      have := dropWhile_cons_length isIdentifierChar ch rest hid
      exact consumed_kind _ _ hdc ⟨by simp only [a1]; rw [hin]; exact this, a2, a3⟩
    · unfold ParseIndent at h
      simp only at h
      have hsp := dropWhile_cons_length (· = ' ') ch rest (by simp [h9])
      rw [← hin] at hsp
      split_ifs at h with k1 k2 k3
      · simp at h
      · simp at h
      · simp only [Except.ok.injEq, Step.done.injEq] at h
        subst h
        exact Or.inl ⟨hsp, hdc, Or.inr (Or.inl rfl), Or.inl rfl⟩
      · simp only [Except.ok.injEq, Step.done.injEq] at h
        subst h
        refine Or.inl ⟨hsp, hdc, Or.inr (Or.inr rfl), Or.inr ⟨rfl, ?_⟩⟩
        simp only
        have hge := (dedentLoop_bound
          (l.count_indent_ - Int.ofNat (l.input_.takeWhile (· = ' ')).length).toNat
          (l.count_indent_ - Int.ofNat (l.input_.takeWhile (· = ' ')).length)
          l.dedent_count_).1
        refine ⟨hge, ?_⟩
        intro hpos
        have htw : 1 ≤ (l.input_.takeWhile (· = ' ')).length := by
          rw [hin, List.takeWhile_cons_of_pos (by simp [h9])]
          simp
        generalize (List.takeWhile (fun x => decide (x = ' ')) l.input_).length = cs at *
        simp only [Int.ofNat_eq_coe] at hpos ⊢
        obtain ⟨b1, b2, b3⟩ := dedentLoop_bound (l.count_indent_ - (cs : Int)).toNat
          (l.count_indent_ - (cs : Int)) l.dedent_count_
        by_cases hd : l.count_indent_ - (cs : Int) ≤ 2
        · rw [b2 hd] at hpos
          omega
        · have := b3 (by omega)
          omega
    · simp only [Except.ok.injEq, Step.done.injEq] at h
      subst h
      obtain ⟨a1, a2, a3⟩ := ParseSymbol_length { l with is_code_block_ := false } hne
      exact consumed_kind _ _ hdc ⟨a1, a2, a3⟩
  · have hb : ParseTokenBody l = .ok (.done (CheckBeforeParse l).2) := by
      unfold ParseTokenBody
      simp [hpass]
    rw [hb] at h
    simp only [Except.ok.injEq, Step.done.injEq] at h
    subst h
    unfold CheckBeforeParse
    unfold CheckBeforeParse at hpass
    split_ifs at hpass ⊢ with c1 c2 c3 c4 c5
    · exact absurd c1 hl
    · exact Or.inr (Or.inl ⟨rfl, rfl, c3, rfl, rfl, Or.inr c2⟩)
    · exact Or.inr (Or.inr (Or.inr ⟨c2, c2, rfl, rfl, Or.inl ⟨rfl, c4.1, c4.2⟩⟩))
    · exact Or.inr (Or.inr (Or.inr ⟨c2, c2, rfl, rfl, Or.inr rfl⟩))
    · exact Or.inr (Or.inr (Or.inl ⟨rfl, c2, c5, rfl, rfl, rfl⟩))
    · exact absurd rfl hpass

theorem tokenRank_bounds (t : Token) :
    tokenRank t ≤ 2 ∧ (t ≠ Token.Eof → 1 ≤ tokenRank t) ∧
      (t ≠ Token.Eof → t ≠ Token.Newline → t ≠ Token.Dedent → tokenRank t = 2) := by
  cases t <;> simp [tokenRank]

theorem StepKind_progress (l r : Lexer) (hk : StepKind l r)
    (hl : l.current_token_ ≠ Token.Eof) :
    r.input_.length ≤ l.input_.length ∧
    (r.input_.length < l.input_.length ∨ r.count_indent_ < l.count_indent_ ∨
      r.dedent_count_ < l.dedent_count_ ∨
      (l.input_ = [] ∧ (r.current_token_ = Token.Newline ∨ r.current_token_ = Token.Eof))) ∧
    (pendingOk l → workLeft r < workLeft l ∧ pendingOk r) := by
  obtain ⟨t1, t2, t3⟩ := tokenRank_bounds l.current_token_
  obtain ⟨u1, u2, u3⟩ := tokenRank_bounds r.current_token_
  have t2 := t2 hl
  unfold workLeft pendingOk
  rcases hk with ⟨a1, a2, a3, a4⟩ | ⟨a1, a2, a3, a4, a5, a6⟩ | ⟨a1, a2, a3, a4, a5, a6⟩ |
    ⟨a1, a2, a3, a4, a5⟩
  · refine ⟨by omega, Or.inl a1, fun _ => ⟨by omega, fun _ hpos => ?_⟩⟩
    rcases a4 with a4 | a4
    · omega
    · exact a4.2.2 hpos
  · refine ⟨by rw [a1], Or.inr (Or.inl (by omega)), fun _ => ⟨?_, fun hne hpos => ?_⟩⟩
    · have hr : tokenRank r.current_token_ = 1 := by rw [a4]; rfl
      rw [a1, a2, hr]
      omega
    · rcases a6 with a6 | a6
      · omega
      · exact absurd (a1 ▸ a6) hne
  · refine ⟨by rw [a1], Or.inr (Or.inr (Or.inl (by omega))), fun hp => ?_⟩
    have := hp a2 a3
    refine ⟨?_, fun _ _ => by omega⟩
    have hr : tokenRank r.current_token_ = 1 := by rw [a6]; rfl
    rw [a1, a5, hr]
    omega
  · refine ⟨by rw [a1, a2], Or.inr (Or.inr (Or.inr ⟨a1, ?_⟩)), fun _ => ⟨?_, fun hne => absurd a2 hne⟩⟩
    · rcases a5 with a5 | a5
      · exact Or.inl a5.1
      · exact Or.inr a5
    · have hlen : r.input_.length = l.input_.length := by rw [a1, a2]
      rw [hlen, a3]
      rcases a5 with ⟨b1, b2, b3⟩ | b1
      · have hr : tokenRank r.current_token_ = 1 := by rw [b1]; rfl
        rw [hr, t3 hl b2 b3]
        omega
      · have hr : tokenRank r.current_token_ = 0 := by rw [b1]; rfl
        rw [hr]
        omega

theorem ParseTokenFuel_progress (n : Nat) : ∀ (l r : Lexer),
    ParseTokenFuel n l = .ok r → l.current_token_ ≠ Token.Eof →
    r.input_.length ≤ l.input_.length ∧
    (r.input_.length < l.input_.length ∨ r.count_indent_ < l.count_indent_ ∨
      r.dedent_count_ < l.dedent_count_ ∨
      (l.input_ = [] ∧ (r.current_token_ = Token.Newline ∨ r.current_token_ = Token.Eof))) ∧
    (pendingOk l → workLeft r < workLeft l ∧ pendingOk r) := by
  induction n with
  | zero => intro l r h; simp [ParseTokenFuel] at h
  | succ n ih =>
    intro l r h hl
    have step : ∀ l1 r1 : Lexer, (ParseTokenBody l = .ok (.recur l1) ∨
        ParseTokenBody l = .ok (.recur_from_indent l1)) → ParseTokenFuel n l1 = .ok r1 →
        r1.input_.length ≤ l.input_.length ∧ r1.input_.length < l.input_.length ∧
        (pendingOk l → workLeft r1 < workLeft l ∧ pendingOk r1) := by
      intro l1 r1 hb h1
      obtain ⟨e1, e2, e3, _, e5, _⟩ := ParseTokenBody_recur l l1 hb
      obtain ⟨p1, _, p3⟩ := ih l1 r1 h1 e5
      refine ⟨by omega, by omega, fun hp => ?_⟩
      have hp1 : pendingOk l1 := by
        intro _ hpos
        rw [e1, e2] at *
        exact hp (by intro hnil; rw [hnil] at e3; simp at e3) hpos
      obtain ⟨q1, q2⟩ := p3 hp1
      refine ⟨?_, q2⟩
      have b1 := (tokenRank_bounds l1.current_token_).1
      unfold workLeft at q1 ⊢
      rw [e1] at q1
      omega
    rw [ParseTokenFuel] at h
    split at h
    · cases h
    · rename_i l1 hb
      cases h
      exact StepKind_progress l r (ParseTokenBody_done_kind l r hb hl) hl
    · rename_i l1 hb
      obtain ⟨s1, s2, s3⟩ := step l1 r (Or.inl hb) h
      exact ⟨s1, Or.inl s2, s3⟩
    · rename_i l1 hb
      obtain ⟨r1, h1, rfl⟩ := map_clear_ok _ _ h
      obtain ⟨s1, s2, s3⟩ := step l1 r1 (Or.inr hb) h1
      exact ⟨s1, Or.inl s2, s3⟩

theorem ParseTokenBody_done_Eof (l r : Lexer) (h : ParseTokenBody l = .ok (.done r))
    (hl : l.current_token_ = Token.Eof) : r = l := by
  have hb : ParseTokenBody l = .ok (.done l) := by
    simp [ParseTokenBody, CheckBeforeParse, hl]
  rw [hb] at h
  simp only [Except.ok.injEq, Step.done.injEq] at h
  exact h.symm

/-- Whatever the input, a `ParseToken` call changes `count_indent_` by 0, 2
or -2, and leaves `dedent_count_` non-negative and zero unless it returns a
Dedent or the input is exhausted. -/
theorem ParseTokenFuel_counters (n : Nat) : ∀ (l r : Lexer), ParseTokenFuel n l = .ok r →
    (r.count_indent_ - l.count_indent_) % 2 = 0 ∧
    (0 ≤ l.dedent_count_ → 0 ≤ r.dedent_count_) ∧
    (l.current_token_ ≠ Token.Eof → r.current_token_ ≠ Token.Dedent → r.input_ ≠ [] →
      r.dedent_count_ ≤ 0) := by
  induction n with
  | zero => intro l r h; simp [ParseTokenFuel] at h
  | succ n ih =>
    intro l r h
    have step : ∀ l1 r1 : Lexer, (ParseTokenBody l = .ok (.recur l1) ∨
        ParseTokenBody l = .ok (.recur_from_indent l1)) → ParseTokenFuel n l1 = .ok r1 →
        (r1.count_indent_ - l.count_indent_) % 2 = 0 ∧
        (0 ≤ l.dedent_count_ → 0 ≤ r1.dedent_count_) ∧
        (r1.current_token_ ≠ Token.Dedent → r1.input_ ≠ [] → r1.dedent_count_ ≤ 0) := by
      intro l1 r1 hb h1
      obtain ⟨e1, e2, _, _, e5, _⟩ := ParseTokenBody_recur l l1 hb
      obtain ⟨p1, p2, p3⟩ := ih l1 r1 h1
      rw [e1] at p1
      rw [e2] at p2
      exact ⟨p1, p2, p3 e5⟩
    rw [ParseTokenFuel] at h
    split at h
    · cases h
    · rename_i l1 hb
      cases h
      by_cases hl : l.current_token_ = Token.Eof
      · rw [ParseTokenBody_done_Eof l r hb hl]
        exact ⟨by simp, fun h0 => h0, fun hne => absurd hl hne⟩
      · rcases ParseTokenBody_done_kind l r hb hl with ⟨a1, a2, a3, a4⟩ |
          ⟨a1, a2, a3, a4, a5, a6⟩ | ⟨a1, a2, a3, a4, a5, a6⟩ | ⟨a1, a2, a3, a4, a5⟩
        · refine ⟨by omega, fun h0 => ?_, fun _ hd _ => ?_⟩
          · rcases a4 with a4 | a4
            · omega
            · omega
          · rcases a4 with a4 | a4
            · omega
            · exact absurd a4.1 hd
        · exact ⟨by omega, fun h0 => by omega, fun _ hd => absurd a4 hd⟩
        · exact ⟨by omega, fun h0 => by omega, fun _ hd => absurd a6 hd⟩
        · exact ⟨by omega, fun h0 => by omega, fun _ _ hne => absurd a2 hne⟩
    · rename_i l1 hb
      obtain ⟨s1, s2, s3⟩ := step l1 r (Or.inl hb) h
      exact ⟨s1, s2, fun _ => s3⟩
    · rename_i l1 hb
      obtain ⟨r1, h1, rfl⟩ := map_clear_ok _ _ h
      obtain ⟨s1, s2, s3⟩ := step l1 r1 (Or.inr hb) h1
      exact ⟨s1, s2, fun _ => s3⟩

theorem ParseTokenFuel_Eof_count (n : Nat) : ∀ (l r : Lexer), ParseTokenFuel n l = .ok r →
    (l.current_token_ = Token.Eof → l.count_indent_ ≤ 0) →
    r.current_token_ = Token.Eof → r.count_indent_ ≤ 0 := by
  induction n with
  | zero => intro l r h; simp [ParseTokenFuel] at h
  | succ n ih =>
    intro l r h hl hr
    rw [ParseTokenFuel] at h
    split at h
    · cases h
    · rename_i l1 hb
      cases h
      by_cases he : l.current_token_ = Token.Eof
      · rw [ParseTokenBody_done_Eof l r hb he]
        exact hl he
      · exact ((ParseTokenBody_done l r hb).2.2.1 hr he).2
    · rename_i l1 hb
      obtain ⟨_, _, _, _, e5, _⟩ := ParseTokenBody_recur l l1 (Or.inl hb)
      exact ih l1 r h (fun he => absurd he e5) hr
    · rename_i l1 hb
      obtain ⟨r1, h1, rfl⟩ := map_clear_ok _ _ h
      obtain ⟨_, _, _, _, e5, _⟩ := ParseTokenBody_recur l l1 (Or.inr hb)
      exact ih l1 r1 h1 (fun he => absurd he e5) hr

end parse


/-! ## Lexer: dedents at the start of a line -/

namespace parse

/-- C21: the code at inputs on which the claimed property fails.  In both
sources the line `z` at column 0 follows an indented block, yet `Id z` is
returned before the Dedent: in the first the last line of the block ends in a
comment, in the second the block is followed by an indented comment line.  In
the first source, after eight NextToken calls the token returned last is
Newline, the indentation is 2 and the next unread character is `z`; the next
call returns `Id z`, consumes the `z` and leaves the indentation at 2. -/
theorem column0_line_after_comment (k : Nat) :
    lex (12 + k) "if x:\n  y = 1 # c\nz\n" =
      some [Token.If, Token.Id "x", Token.Char ':', Token.Newline, Token.Indent,
            Token.Id "y", Token.Char '=', Token.Number 1, Token.Newline,
            Token.Id "z", Token.Newline, Token.Dedent, Token.Eof] ∧
    lex (12 + k) "if x:\n  y = 1\n  # c\nz\n" =
      some [Token.If, Token.Id "x", Token.Char ':', Token.Newline, Token.Indent,
            Token.Id "y", Token.Char '=', Token.Number 1, Token.Newline,
            Token.Id "z", Token.Newline, Token.Dedent, Token.Eof] ∧
    (Lexer.new "if x:\n  y = 1 # c\nz\n".toList).bind (NextTokenTimes 8) =
      .ok { input_ := ['z', '\n'], current_token_ := Token.Newline, count_indent_ := 2,
            is_start_line_ := false } ∧
    NextToken { input_ := ['z', '\n'], current_token_ := Token.Newline, count_indent_ := 2,
                is_start_line_ := false } =
      .ok { input_ := ['\n'], current_token_ := Token.Id "z", count_indent_ := 2,
            is_start_line_ := false } :=
  ⟨lex_add 12 k _ _ (by decide), lex_add 12 k _ _ (by decide), rfl, rfl⟩

theorem takeWhile_spaces (s : Nat) (ch : Char) (rest : List Char) (hch : ch ≠ ' ') :
    (List.replicate s ' ' ++ ch :: rest).takeWhile (· = ' ') = List.replicate s ' ' ∧
    (List.replicate s ' ' ++ ch :: rest).dropWhile (· = ' ') = ch :: rest := by
  induction s with
  | zero => simp [hch]
  | succ s ih => simp [List.replicate_succ, ih.1, ih.2]

/-- The call that measures a line of `s` spaces under an indentation of
`s + 2 * m`: one Dedent at once, `m - 1` queued. -/
theorem NextToken_measures_dedent (l : Lexer) (s m : Nat) (ch : Char) (rest : List Char)
    (htok : l.current_token_ = Token.Newline)
    (hin : l.input_ = List.replicate s ' ' ++ ch :: rest)
    (hs : 1 ≤ s) (hm : 1 ≤ m) (hch : ch ≠ ' ')
    (hk : l.count_indent_ = s + 2 * m) (hdc : l.dedent_count_ = 0) :
    NextToken l = .ok { input_ := ch :: rest, current_token_ := Token.Dedent,
                        count_indent_ := s + 2 * m - 2, dedent_count_ := m - 1,
                        is_start_line_ := false, is_code_block_ := false } := by
  obtain ⟨s1, rfl⟩ : ∃ s1, s = s1 + 1 := ⟨s - 1, by omega⟩
  have hin1 : l.input_ = ' ' :: (List.replicate s1 ' ' ++ ch :: rest) := by
    rw [hin, List.replicate_succ]; rfl
  have htw := takeWhile_spaces (s1 + 1) ch rest hch
  have hbody : ParseTokenBody l = .ok (.done
      { input_ := ch :: rest, current_token_ := Token.Dedent,
        count_indent_ := ((s1 + 1 : Nat) : Int) + 2 * m - 2, dedent_count_ := (m : Int) - 1,
        is_start_line_ := false, is_code_block_ := false }) := by
    rw [ParseTokenBody_pass l ' ' _ (by rw [htok]; decide) hin1 (by omega)]
    have hloop : dedentLoop (2 * m) (2 * (m : Int)) 0 = (m : Int) - 1 := by
      have := dedentLoop_even (2 * m) (2 * (m : Int)) 0 (by omega) (by omega) (by push_cast; omega)
      omega
    have hne1 : ¬ ((s1 : Int) + 1 = s1 + 1 + 2 * m) := by omega
    have hne2 : ¬ ((s1 : Int) + 1 - (s1 + 1 + 2 * m) = 2) := by omega
    have hdiff : ((s1 : Int) + 1 + 2 * m - (s1 + 1)) = 2 * m := by ring
    have hne3 : ¬ (-(2 * (m : Int)) = 2) := by omega
    have htn : (2 * (m : Int)).toNat = 2 * m := by omega
    simp [ParseIndent, htok, hin, htw.1, htw.2, hk, hdc, hne1, hne2, hdiff, hne3, htn, hloop]
  unfold NextToken ParseToken
  rw [ParseTokenFuel, hbody]

theorem NextToken_queued_dedent (inp : List Char) (c d : Int) (hne : inp ≠ []) (hd : 0 < d) :
    NextToken { input_ := inp, current_token_ := Token.Dedent, count_indent_ := c,
                dedent_count_ := d, is_start_line_ := false, is_code_block_ := false } =
      .ok { input_ := inp, current_token_ := Token.Dedent, count_indent_ := c - 2,
            dedent_count_ := d - 1, is_start_line_ := false, is_code_block_ := false } := by
  simp [NextToken, ParseToken, ParseTokenFuel, ParseTokenBody, CheckBeforeParse, hne, hd]

theorem NextTokenTimes_queued_dedents (inp : List Char) (hne : inp ≠ []) (j : Nat) :
    ∀ (c d : Int), (j : Int) ≤ d →
    NextTokenTimes j { input_ := inp, current_token_ := Token.Dedent, count_indent_ := c,
                       dedent_count_ := d, is_start_line_ := false, is_code_block_ := false } =
      .ok { input_ := inp, current_token_ := Token.Dedent, count_indent_ := c - 2 * j,
            dedent_count_ := d - j, is_start_line_ := false, is_code_block_ := false } := by
  induction j with
  | zero => intro c d _; simp [NextTokenTimes]
  | succ j ih =>
    intro c d hd
    rw [NextTokenTimes, NextToken_queued_dedent inp c d hne (by push_cast at hd; omega)]
    simp only
    rw [ih (c - 2) (d - 1) (by push_cast at hd; omega)]
    congr 2
    · push_cast; ring
    · push_cast; ring

theorem NextToken_afterDedents (ch : Char) (rest : List Char) (c : Int)
    (hch : ch ≠ ' ' ∧ ch ≠ '\n' ∧ ch ≠ '#') :
    NextToken (Lexer.afterDedents ch rest c) =
      if ch = '\'' ∨ ch = '"' then
        (ParseString ch { Lexer.afterDedents ch rest c with input_ := rest }).map fun l3 =>
          { l3 with is_start_line_ := false }
      else if ch.isDigit = true then
        (ParseNumber (Lexer.afterDedents ch rest c)).map fun l3 =>
          { l3 with is_start_line_ := false }
      else if ch.isAlpha = true ∨ ch = '_' then
        .ok { ParseIdentifier (Lexer.afterDedents ch rest c) with is_start_line_ := false }
      else
        .ok { ParseSymbol (Lexer.afterDedents ch rest c) with is_start_line_ := false } := by
  obtain ⟨h1, h2, h3⟩ := hch
  have hbody := ParseTokenBody_pass (Lexer.afterDedents ch rest c) ch rest
    (by simp [Lexer.afterDedents]) rfl (le_refl _)
  have hs : (Lexer.afterDedents ch rest c).is_start_line_ = false := rfl
  simp only [h1, h2, h3, hs, false_and, if_false, Bool.false_eq_true] at hbody
  have hbody1 : ParseTokenBody (Lexer.afterDedents ch rest c) =
      if ch = '\'' ∨ ch = '"' then
        (ParseString ch { Lexer.afterDedents ch rest c with input_ := rest }).map fun l3 =>
          .done { l3 with is_start_line_ := false }
      else if ch.isDigit = true then
        (ParseNumber (Lexer.afterDedents ch rest c)).map fun l3 =>
          .done { l3 with is_start_line_ := false }
      else if ch.isAlpha = true ∨ ch = '_' then
        .ok (.done { ParseIdentifier (Lexer.afterDedents ch rest c) with
                     is_start_line_ := false })
      else
        .ok (.done { ParseSymbol (Lexer.afterDedents ch rest c) with
                     is_start_line_ := false }) := hbody
  unfold NextToken ParseToken
  rw [ParseTokenFuel, hbody1]
  split_ifs
  · generalize ParseString ch { Lexer.afterDedents ch rest c with input_ := rest } = x
    cases x <;> rfl
  · generalize ParseNumber (Lexer.afterDedents ch rest c) = x
    cases x <;> rfl
  · rfl
  · rfl

theorem NextToken_afterDedents_token (ch : Char) (rest : List Char) (c : Int)
    (hch : ch ≠ ' ' ∧ ch ≠ '\n' ∧ ch ≠ '#') (r : Lexer)
    (h : NextToken (Lexer.afterDedents ch rest c) = .ok r) :
    r.count_indent_ = c ∧ r.dedent_count_ = 0 ∧ r.input_.length < (ch :: rest).length ∧
    (noLoneBangAt (Lexer.afterDedents ch rest c) = true →
      indentWeight r.current_token_ = 0 ∧ r.current_token_ ≠ Token.Newline ∧
        r.current_token_ ≠ Token.Eof) := by
  rw [NextToken_afterDedents ch rest c hch] at h
  have hne : (Lexer.afterDedents ch rest c).input_ ≠ [] := by simp [Lexer.afterDedents]
  split_ifs at h with h1 h2 h3
  · cases hs : ParseString ch { Lexer.afterDedents ch rest c with input_ := rest } with
    | error e => rw [hs] at h; simp [Except.map] at h
    | ok l3 =>
      rw [hs] at h
      simp only [Except.map, Except.ok.injEq] at h
      subst h
      obtain ⟨a1, a2, a3⟩ := ParseString_length _ _ _ hs
      obtain ⟨inp, v, hf⟩ := ParseString_frame _ _ _ hs
      simp only at a1
      refine ⟨a2, a3, by simp only [List.length_cons]; omega, fun _ => ?_⟩
      rw [hf]
      simp [indentWeight]
  · cases hs : ParseNumber (Lexer.afterDedents ch rest c) with
    | error e => rw [hs] at h; simp [Except.map] at h
    | ok l3 =>
      rw [hs] at h
      simp only [Except.map, Except.ok.injEq] at h
      subst h
      obtain ⟨a1, a2, a3⟩ := ParseNumber_length _ _ hs
      obtain ⟨inp, v, hf⟩ := ParseNumber_frame _ _ hs
      refine ⟨a2, a3, ?_, fun _ => ?_⟩
      · simp only [a1]
        exact dropWhile_cons_length Char.isDigit ch rest h2
      · rw [hf]
        simp [indentWeight]
  · simp only [Except.ok.injEq] at h
    subst h
    obtain ⟨a1, a2, a3⟩ := ParseIdentifier_length (Lexer.afterDedents ch rest c)
    obtain ⟨inp, t, hf, hw, hE, hN⟩ := ParseIdentifier_frame (Lexer.afterDedents ch rest c)
    have hid : isIdentifierChar ch = true := by
      rcases h3 with h3 | h3
      · simp [isIdentifierChar, Char.isAlphanum, h3]
      · simp [isIdentifierChar, h3]
    refine ⟨a2, a3, ?_, fun _ => ?_⟩
    · simp only [a1]
      exact dropWhile_cons_length isIdentifierChar ch rest hid
    · simp only [hf]
      exact ⟨hw, hN, hE⟩
  · simp only [Except.ok.injEq] at h
    subst h
    obtain ⟨a1, a2, a3⟩ := ParseSymbol_length (Lexer.afterDedents ch rest c) hne
    refine ⟨a2, a3, a1, fun hb => ?_⟩
    rcases ParseSymbol_frame (Lexer.afterDedents ch rest c) hne with
      ⟨inp, t, hf, hw, hE, hN⟩ | ⟨hb1, _⟩
    · simp only [hf]
      exact ⟨hw, hN, hE⟩
    · rw [hb] at hb1
      cases hb1

theorem NextTokenTimes_counters (n : Nat) : ∀ (l0 l : Lexer), NextTokenTimes n l0 = .ok l →
    0 ≤ l0.dedent_count_ →
    (l0.current_token_ = Token.Newline → l0.input_ ≠ [] → l0.dedent_count_ = 0) →
    0 ≤ l.dedent_count_ ∧
      (l.current_token_ = Token.Newline → l.input_ ≠ [] → l.dedent_count_ = 0) := by
  induction n with
  | zero =>
    intro l0 l h h0 h1
    simp only [NextTokenTimes, Except.ok.injEq] at h
    subst h
    exact ⟨h0, h1⟩
  | succ n ih =>
    intro l0 l h h0 h1
    rw [NextTokenTimes] at h
    split at h
    · rename_i l1 hnt
      obtain ⟨_, c2, c3⟩ := ParseTokenFuel_counters _ l0 l1 hnt
      have g0 := c2 h0
      refine ih l1 l h g0 (fun hN hne => ?_)
      have hE : l0.current_token_ ≠ Token.Eof := by
        intro he
        rw [NextToken_of_Eof l0 he] at hnt
        cases hnt
        rw [he] at hN
        cases hN
      have := c3 hE (by rw [hN]; decide) hne
      omega
    · cases h

/-- C22, as the code has it: take a lexer whose current token is Newline, with
no dedent pending, whose unread input begins with `s ≥ 1` spaces followed by a
character `ch` that is no space, newline or '#', and whose indentation is
`s + 2 * m` with `m ≥ 1`.  Each of the next `m` NextToken calls returns Dedent
(the first reads the spaces and queues `m - 1` dedents, each later one releases
one), `ch` stays unread, and after the `m` calls the indentation is `s` and
nothing is pending.  The call after them runs the token parser that `ch`
selects, starting at `ch`; when it returns, the indentation is still `s` and at
least `ch` has been read, and unless `ch` is a '!' that no '=' follows, the
token it returns is not Dedent, Indent, Newline or Eof.  In every lexer reached
from construction by NextToken calls, no dedent is pending when the current
token is Newline and input remains. -/
theorem dedent_run (l : Lexer) (s m : Nat) (ch : Char) (rest : List Char)
    (htok : l.current_token_ = Token.Newline)
    (hin : l.input_ = List.replicate s ' ' ++ ch :: rest)
    (hs : 1 ≤ s) (hm : 1 ≤ m) (hch : ch ≠ ' ' ∧ ch ≠ '\n' ∧ ch ≠ '#')
    (hk : l.count_indent_ = s + 2 * m) (hdc : l.dedent_count_ = 0) :
    (∀ j, j < m →
      NextTokenTimes (j + 1) l =
        .ok { input_ := ch :: rest, current_token_ := Token.Dedent,
              count_indent_ := s + 2 * m - 2 * (j + 1), dedent_count_ := m - (j + 1),
              is_start_line_ := false, is_code_block_ := false }) ∧
    NextTokenTimes m l = .ok (Lexer.afterDedents ch rest s) ∧
    (NextToken (Lexer.afterDedents ch rest s) =
      if ch = '\'' ∨ ch = '"' then
        (ParseString ch { Lexer.afterDedents ch rest s with input_ := rest }).map fun l3 =>
          { l3 with is_start_line_ := false }
      else if ch.isDigit = true then
        (ParseNumber (Lexer.afterDedents ch rest s)).map fun l3 =>
          { l3 with is_start_line_ := false }
      else if ch.isAlpha = true ∨ ch = '_' then
        .ok { ParseIdentifier (Lexer.afterDedents ch rest s) with is_start_line_ := false }
      else
        .ok { ParseSymbol (Lexer.afterDedents ch rest s) with is_start_line_ := false }) ∧
    (∀ r, NextToken (Lexer.afterDedents ch rest s) = .ok r →
      r.count_indent_ = s ∧ r.dedent_count_ = 0 ∧ r.input_.length < (ch :: rest).length ∧
      (noLoneBangAt (Lexer.afterDedents ch rest s) = true →
        r.current_token_ ≠ Token.Dedent ∧ r.current_token_ ≠ Token.Indent ∧
          r.current_token_ ≠ Token.Newline ∧ r.current_token_ ≠ Token.Eof)) ∧
    (∀ (input : List Char) (n : Nat) (l0 l1 : Lexer), Lexer.new input = .ok l0 →
      NextTokenTimes n l0 = .ok l1 → l1.current_token_ = Token.Newline → l1.input_ ≠ [] →
      l1.dedent_count_ = 0) := by
  have hfirst := NextToken_measures_dedent l s m ch rest htok hin hs hm hch.1 hk hdc
  have hrun : ∀ j, j < m →
      NextTokenTimes (j + 1) l =
        .ok { input_ := ch :: rest, current_token_ := Token.Dedent,
              count_indent_ := s + 2 * m - 2 * (j + 1), dedent_count_ := m - (j + 1),
              is_start_line_ := false, is_code_block_ := false } := by
    intro j hj
    rw [NextTokenTimes, hfirst]
    simp only
    rw [NextTokenTimes_queued_dedents (ch :: rest) (by simp) j _ _ (by omega)]
    congr 2
    · ring
    · ring
  refine ⟨hrun, ?_, NextToken_afterDedents ch rest s hch, fun r hr => ?_,
    fun input n l0 l1 hnew htimes hN hne => ?_⟩
  · have := hrun (m - 1) (by omega)
    rw [Nat.sub_add_cancel hm] at this
    rw [this]
    unfold Lexer.afterDedents
    congr 2
    · omega
    · omega
  · obtain ⟨a1, a2, a3, a4⟩ := NextToken_afterDedents_token ch rest s hch r hr
    refine ⟨a1, a2, a3, fun hb => ?_⟩
    obtain ⟨b1, b2, b3⟩ := a4 hb
    refine ⟨?_, ?_, b2, b3⟩
    · intro hd; rw [hd] at b1; simp [indentWeight] at b1
    · intro hd; rw [hd] at b1; simp [indentWeight] at b1
  · have hpt : ParseTokenFuel _ (Lexer.start input) = .ok l0 := hnew
    obtain ⟨_, c2, c3⟩ := ParseTokenFuel_counters _ _ l0 hpt
    have g0 : 0 ≤ l0.dedent_count_ := c2 (by simp [Lexer.start])
    have g1 : l0.current_token_ = Token.Newline → l0.input_ ≠ [] → l0.dedent_count_ = 0 := by
      intro hN0 hne0
      have := c3 (by simp [Lexer.start]) (by rw [hN0]; decide) hne0
      omega
    exact (NextTokenTimes_counters n l0 l1 htimes g0 g1).2 hN hne

theorem dedent_run_witness :
    NextTokenTimes 2 { input_ := "  x\n".toList, current_token_ := Token.Newline,
                       count_indent_ := 6 } =
      .ok (Lexer.afterDedents 'x' ['\n'] 2) ∧
    (∀ r, NextToken (Lexer.afterDedents 'x' ['\n'] 2) = .ok r →
      r.count_indent_ = 2 ∧ r.dedent_count_ = 0 ∧ r.input_.length < ['x', '\n'].length ∧
      (noLoneBangAt (Lexer.afterDedents 'x' ['\n'] 2) = true →
        r.current_token_ ≠ Token.Dedent ∧ r.current_token_ ≠ Token.Indent ∧
          r.current_token_ ≠ Token.Newline ∧ r.current_token_ ≠ Token.Eof)) :=
  ⟨(dedent_run { input_ := "  x\n".toList, current_token_ := Token.Newline,
                 count_indent_ := 6 } 2 2 'x' ['\n'] rfl rfl (by decide) (by decide)
      (by decide) rfl rfl).2.1,
    (dedent_run { input_ := "  x\n".toList, current_token_ := Token.Newline,
                  count_indent_ := 6 } 2 2 'x' ['\n'] rfl rfl (by decide) (by decide)
      (by decide) rfl rfl).2.2.2.1⟩

/-- C22 as claimed fails when the line starts with a '!' that no '=' follows:
after eleven calls on this source the current token is Newline, the
indentation is 4 and the line read next has 2 leading spaces, so one Dedent is
due.  The first call returns it; the second call reads the '!', for which
`ParseSymbol` sets no token, and returns Dedent again; only the third call
returns the token `Id d`. -/
theorem dedent_run_fails_on_lone_bang :
    (Lexer.new "if a:\n  if b:\n    c\n  !d\n".toList).bind (NextTokenTimes 11) =
      .ok { input_ := "  !d\n".toList, current_token_ := Token.Newline, count_indent_ := 4 } ∧
    NextTokenTimes 1 { input_ := "  !d\n".toList, current_token_ := Token.Newline,
                       count_indent_ := 4 } =
      .ok { input_ := "!d\n".toList, current_token_ := Token.Dedent, count_indent_ := 2,
            is_start_line_ := false } ∧
    NextTokenTimes 2 { input_ := "  !d\n".toList, current_token_ := Token.Newline,
                       count_indent_ := 4 } =
      .ok { input_ := "d\n".toList, current_token_ := Token.Dedent, count_indent_ := 2,
            is_start_line_ := false } ∧
    NextTokenTimes 3 { input_ := "  !d\n".toList, current_token_ := Token.Newline,
                       count_indent_ := 4 } =
      .ok { input_ := "\n".toList, current_token_ := Token.Id "d", count_indent_ := 2,
            is_start_line_ := false } :=
  ⟨rfl, rfl, rfl, rfl⟩

end parse


/-! ## Lexer: the indentation counter and the tokens emitted -/

namespace parse

theorem assignsAt_pass (l : Lexer) (ch : Char) (rest : List Char)
    (htok : l.current_token_ ≠ Token.Eof) (hin : l.input_ = ch :: rest)
    (hdc : l.dedent_count_ ≤ 0) :
    assignsAt l =
      if ch = '#' then true
      else if ch = '\n' ∧ l.current_token_ = Token.Newline then false
      else if l.is_start_line_ = true ∧ l.count_indent_ > 0 ∧ ch ≠ ' ' ∧
          l.is_code_block_ = false then true
      else if ch = ' ' then
        decide (l.current_token_ = Token.Newline ∧
          Int.ofNat (l.input_.takeWhile (· = ' ')).length ≠ l.count_indent_)
      else if ch = '!' then decide (rest.head? = some '=')
      else true := by
  unfold assignsAt
  rw [if_neg htok, if_neg (by rw [hin]; simp), if_neg (not_lt.mpr hdc)]
  simp only [hin]

theorem ParseSymbol_lone_bang (l : Lexer) (rest : List Char) (hin : l.input_ = '!' :: rest)
    (h : rest.head? ≠ some '=') : ParseSymbol l = { l with input_ := rest } := by
  unfold ParseSymbol
  rw [hin]
  simp only [show ¬ ('!' = '=') by decide, show ¬ ('!' = '>') by decide,
    show ¬ ('!' = '<') by decide, if_false, if_true]
  split
  · rename_i rest' heq
    simp at h
  · rfl

theorem ParseSymbol_assigns (l : Lexer) (ch : Char) (rest : List Char)
    (hin : l.input_ = ch :: rest) (h : ¬ (ch = '!' ∧ rest.head? ≠ some '=')) :
    ∃ inp t, ParseSymbol l = { l with input_ := inp, current_token_ := t } ∧
      indentWeight t = 0 := by
  unfold ParseSymbol
  rw [hin]
  simp only
  split_ifs with h1 h2 h3 h4
  · split <;> exact ⟨_, _, rfl, by simp [indentWeight]⟩
  · split <;> exact ⟨_, _, rfl, by simp [indentWeight]⟩
  · split <;> exact ⟨_, _, rfl, by simp [indentWeight]⟩
  · split
    · exact ⟨_, _, rfl, by simp [indentWeight]⟩
    · rename_i hne
      exfalso
      apply h
      refine ⟨h4, ?_⟩
      cases rest with
      | nil => simp
      | cons x xs =>
        simp only [List.head?_cons, ne_eq, Option.some.injEq]
        intro hx
        exact hne xs (by rw [hx])
  · exact ⟨_, _, rfl, by simp [indentWeight]⟩

theorem plain_emit (l r : Lexer) (inp : List Char) (t : Token) (b1 b2 : Bool)
    (hw : indentWeight t = 0) (ha : assignsAt l = true)
    (hr : r = { l with input_ := inp, current_token_ := t, is_start_line_ := b1,
                       is_code_block_ := b2 }) :
    (assignsAt l = true ∧
      r.count_indent_ = l.count_indent_ + indentWeight r.current_token_) ∨
    (assignsAt l = false ∧ r.count_indent_ = l.count_indent_ ∧
      r.current_token_ = l.current_token_) := by
  subst hr
  exact Or.inl ⟨ha, by simp [hw]⟩

/-- An activation that returns without a nested call either assigns
`current_token_`, and then changes `count_indent_` by the weight of the token
assigned, or leaves both as they were. -/
theorem ParseTokenBody_done_emit (l r : Lexer) (h : ParseTokenBody l = .ok (.done r)) :
    (assignsAt l = true ∧
      r.count_indent_ = l.count_indent_ + indentWeight r.current_token_) ∨
    (assignsAt l = false ∧ r.count_indent_ = l.count_indent_ ∧
      r.current_token_ = l.current_token_) := by
  by_cases hpass : (CheckBeforeParse l).1 = true
  · obtain ⟨_, htok, hne, hdc⟩ := CheckBeforeParse_true l hpass
    obtain ⟨ch, rest, hin⟩ := List.exists_cons_of_ne_nil hne
    have hA := assignsAt_pass l ch rest htok hin hdc
    rw [ParseTokenBody_pass l ch rest htok hin hdc] at h
    split_ifs at h with h1 h2 h3 h4 h5 h6 h7 h8 h9
    · simp at h
    · simp only [Except.ok.injEq, Step.done.injEq] at h
      exact plain_emit l r _ Token.Newline _ _ rfl (by rw [hA, if_pos h1]) h.symm
    · simp at h
    · simp only [Except.ok.injEq, Step.done.injEq] at h
      subst h
      refine Or.inl ⟨by rw [hA, if_neg h1, if_neg h3, if_pos h4], ?_⟩
      simp [indentWeight]
      ring
    · simp only [Except.ok.injEq, Step.done.injEq] at h
      have hsp : ch ≠ ' ' := by rw [h5]; decide
      have hbang : ch ≠ '!' := by rw [h5]; decide
      exact plain_emit l r _ Token.Newline _ _ rfl
        (by rw [hA, if_neg h1, if_neg h3, if_neg h4, if_neg hsp, if_neg hbang]) h.symm
    · have hsp : ch ≠ ' ' := by rcases h6 with h6 | h6 <;> rw [h6] <;> decide
      have hbang : ch ≠ '!' := by rcases h6 with h6 | h6 <;> rw [h6] <;> decide
      cases hs : ParseString ch { l with input_ := rest, is_code_block_ := false } with
      | error e => rw [hs] at h; simp [Except.map] at h
      | ok l3 =>
        rw [hs] at h
        simp only [Except.map, Except.ok.injEq, Step.done.injEq] at h
        obtain ⟨inp, v, rfl⟩ := ParseString_frame _ _ _ hs
        exact plain_emit l r inp (Token.String v) _ _ rfl
          (by rw [hA, if_neg h1, if_neg h3, if_neg h4, if_neg hsp, if_neg hbang]) h.symm
    · have hsp : ch ≠ ' ' := by intro hc; rw [hc] at h7; exact absurd h7 (by decide)
      have hbang : ch ≠ '!' := by intro hc; rw [hc] at h7; exact absurd h7 (by decide)
      cases hs : ParseNumber { l with is_code_block_ := false } with
      | error e => rw [hs] at h; simp [Except.map] at h
      | ok l3 =>
        rw [hs] at h
        simp only [Except.map, Except.ok.injEq, Step.done.injEq] at h
        obtain ⟨inp, v, rfl⟩ := ParseNumber_frame _ _ hs
        exact plain_emit l r inp (Token.Number v) _ _ rfl
          (by rw [hA, if_neg h1, if_neg h3, if_neg h4, if_neg hsp, if_neg hbang]) h.symm
    · have hsp : ch ≠ ' ' := by
        intro hc; rw [hc] at h8; exact absurd h8 (by decide)
      have hbang : ch ≠ '!' := by
        intro hc; rw [hc] at h8; exact absurd h8 (by decide)
      simp only [Except.ok.injEq, Step.done.injEq] at h
      obtain ⟨inp, t, ht, hw, _, _⟩ := ParseIdentifier_frame { l with is_code_block_ := false }
      rw [ht] at h
      exact plain_emit l r inp t _ _ hw
        (by rw [hA, if_neg h1, if_neg h3, if_neg h4, if_neg hsp, if_neg hbang]) h.symm
    · unfold ParseIndent at h
      simp only at h
      split_ifs at h with k1 k2 k3
      · simp at h
      · simp at h
      · simp only [Except.ok.injEq, Step.done.injEq] at h
        subst h
        have hnl : l.current_token_ = Token.Newline := by simpa using k1
        refine Or.inl ⟨?_, by simp [indentWeight]⟩
        rw [hA, if_neg h1, if_neg h3, if_neg h4, if_pos h9]
        simp only [decide_eq_true_eq]
        exact ⟨hnl, k2⟩
      · simp only [Except.ok.injEq, Step.done.injEq] at h
        subst h
        have hnl : l.current_token_ = Token.Newline := by simpa using k1
        refine Or.inl ⟨?_, by simp [indentWeight]; ring⟩
        rw [hA, if_neg h1, if_neg h3, if_neg h4, if_pos h9]
        simp only [decide_eq_true_eq]
        exact ⟨hnl, k2⟩
    · simp only [Except.ok.injEq, Step.done.injEq] at h
      by_cases hb : ch = '!' ∧ rest.head? ≠ some '='
      · have hsym := ParseSymbol_lone_bang { l with is_code_block_ := false } rest
          (by simp only [hin, hb.1]) hb.2
        rw [hsym] at h
        subst h
        refine Or.inr ⟨?_, rfl, rfl⟩
        rw [hA, if_neg h1, if_neg h3, if_neg h4, if_neg h9, if_pos hb.1]
        simpa using hb.2
      · obtain ⟨inp, t, ht, hw⟩ := ParseSymbol_assigns { l with is_code_block_ := false }
          ch rest hin hb
        rw [ht] at h
        refine plain_emit l r inp t _ _ hw ?_ h.symm
        rw [hA, if_neg h1, if_neg h3, if_neg h4, if_neg h9]
        by_cases hc : ch = '!'
        · rw [if_pos hc]
          simp only [decide_eq_true_eq]
          by_contra hh
          exact hb ⟨hc, hh⟩
        · rw [if_neg hc]
  · have hb : ParseTokenBody l = .ok (.done (CheckBeforeParse l).2) := by
      unfold ParseTokenBody
      simp [hpass]
    rw [hb] at h
    simp only [Except.ok.injEq, Step.done.injEq] at h
    subst h
    unfold CheckBeforeParse assignsAt
    unfold CheckBeforeParse at hpass
    split_ifs at hpass ⊢ with c1 c2 c3 c4 c5
    · exact Or.inr ⟨rfl, rfl, rfl⟩
    · refine Or.inl ⟨rfl, ?_⟩
      simp [indentWeight]
      ring
    · exact Or.inl ⟨rfl, by simp [indentWeight]⟩
    · exact Or.inl ⟨rfl, by simp [indentWeight]⟩
    · refine Or.inl ⟨rfl, ?_⟩
      simp [indentWeight]
      ring
    · exact absurd rfl hpass

/-- An activation that goes on with a nested call assigns at most `Newline`
(the comment at the start of a line). -/
theorem ParseTokenBody_recur_emit (l l1 : Lexer)
    (h : ParseTokenBody l = .ok (.recur l1) ∨ ParseTokenBody l = .ok (.recur_from_indent l1)) :
    (assignsAt l = true → l1.current_token_ = Token.Newline) ∧
    (assignsAt l = false → l1.current_token_ = l.current_token_) := by
  by_cases hpass : (CheckBeforeParse l).1 = true
  · obtain ⟨_, htok, hne, hdc⟩ := CheckBeforeParse_true l hpass
    obtain ⟨ch, rest, hin⟩ := List.exists_cons_of_ne_nil hne
    have hA := assignsAt_pass l ch rest htok hin hdc
    rw [ParseTokenBody_pass l ch rest htok hin hdc] at h
    split_ifs at h with h1 h2 h3 h4 h5 h6 h7 h8 h9
    · have e : l1 = { l with input_ := getline rest, current_token_ := Token.Newline } := by
        rcases h with h | h <;> simp at h
        exact h.symm
      subst e
      exact ⟨fun _ => rfl, fun ha => by rw [hA, if_pos h1] at ha; cases ha⟩
    · rcases h with h | h <;> simp at h
    · have e : l1 = { l with input_ := rest, is_start_line_ := true } := by
        rcases h with h | h <;> simp at h
        exact h.symm
      subst e
      exact ⟨fun ha => (by rw [hA, if_neg h1, if_pos h3] at ha; cases ha), fun _ => rfl⟩
    · rcases h with h | h <;> simp at h
    · rcases h with h | h <;> simp at h
    · rcases h with h | h <;> simp [Except.map] at h <;> split at h <;> simp at h
    · rcases h with h | h <;> simp [Except.map] at h <;> split at h <;> simp at h
    · rcases h with h | h <;> simp at h
    · have hA1 : assignsAt l = decide (l.current_token_ = Token.Newline ∧
          Int.ofNat (l.input_.takeWhile (· = ' ')).length ≠ l.count_indent_) := by
        rw [hA, if_neg h1, if_neg h3, if_neg h4, if_pos h9]
      unfold ParseIndent at h
      simp only at h
      split_ifs at h with k1 k2 k3
      · have e : l1 = { l with input_ := l.input_.tail, is_code_block_ := false } := by
          rcases h with h | h <;> simp at h
          exact h.symm
        subst e
        refine ⟨fun ha => ?_, fun _ => rfl⟩
        rw [hA1] at ha
        simp only [decide_eq_true_eq] at ha
        exact absurd ha.1 k1
      · have e : l1 = { l with input_ := l.input_.dropWhile (· = ' '),
                               is_code_block_ := true } := by
          rcases h with h | h <;> simp at h
          exact h.symm
        subst e
        refine ⟨fun ha => ?_, fun _ => rfl⟩
        rw [hA1] at ha
        simp only [decide_eq_true_eq] at ha
        exact absurd k2 ha.2
      · rcases h with h | h <;> simp at h
      · rcases h with h | h <;> simp at h
    · rcases h with h | h <;> simp at h
  · have hb : ParseTokenBody l = .ok (.done (CheckBeforeParse l).2) := by
      unfold ParseTokenBody
      simp [hpass]
    rw [hb] at h
    rcases h with h | h <;> simp at h

/-- A `ParseToken` call changes `count_indent_` by the weight of the token it
emits, and leaves it and the current token as they were when it emits none. -/
theorem ParseTokenFuel_emit (n : Nat) : ∀ (l r : Lexer), ParseTokenFuel n l = .ok r →
    ((activations n l).any assignsAt = true →
      r.count_indent_ = l.count_indent_ + indentWeight r.current_token_) ∧
    ((activations n l).any assignsAt = false →
      r.count_indent_ = l.count_indent_ ∧ r.current_token_ = l.current_token_) := by
  induction n with
  | zero => intro l r h; simp [ParseTokenFuel] at h
  | succ n ih =>
    intro l r h
    have step : ∀ l1 r1 : Lexer, (ParseTokenBody l = .ok (.recur l1) ∨
        ParseTokenBody l = .ok (.recur_from_indent l1)) → ParseTokenFuel n l1 = .ok r1 →
        ((assignsAt l || (activations n l1).any assignsAt) = true →
          r1.count_indent_ = l.count_indent_ + indentWeight r1.current_token_) ∧
        ((assignsAt l || (activations n l1).any assignsAt) = false →
          r1.count_indent_ = l.count_indent_ ∧ r1.current_token_ = l.current_token_) := by
      intro l1 r1 hb h1
      obtain ⟨e1, _⟩ := ParseTokenBody_recur l l1 hb
      obtain ⟨q1, q2⟩ := ParseTokenBody_recur_emit l l1 hb
      obtain ⟨p1, p2⟩ := ih l1 r1 h1
      constructor
      · intro hany
        by_cases hc : (activations n l1).any assignsAt = true
        · rw [p1 hc, e1]
        · have hc1 : (activations n l1).any assignsAt = false := by simpa using hc
          have ha : assignsAt l = true := by
            rw [hc1] at hany
            simpa using hany
          obtain ⟨p3, p4⟩ := p2 hc1
          rw [p3, e1, p4, q1 ha]
          simp [indentWeight]
      · intro hany
        simp only [Bool.or_eq_false_iff] at hany
        obtain ⟨p3, p4⟩ := p2 hany.2
        exact ⟨by rw [p3, e1], by rw [p4, q2 hany.1]⟩
    rw [ParseTokenFuel] at h
    rw [activations]
    simp only [List.any_cons]
    split at h
    · cases h
    · rename_i l1 hb
      cases h
      rw [hb]
      simp only [List.any_nil, Bool.or_false]
      rcases ParseTokenBody_done_emit l r hb with ⟨a1, a2⟩ | ⟨a1, a2, a3⟩
      · exact ⟨fun _ => a2, fun hf => by rw [a1] at hf; cases hf⟩
      · exact ⟨fun ht => (by rw [a1] at ht; cases ht), fun _ => ⟨a2, a3⟩⟩
    · rename_i l1 hb
      rw [hb]
      exact step l1 r (Or.inl hb) h
    · rename_i l1 hb
      rw [hb]
      obtain ⟨r1, h1, rfl⟩ := map_clear_ok _ _ h
      exact step l1 r1 (Or.inr hb) h1

theorem emitted_weight (l r : Lexer) (h : NextToken l = .ok r) :
    r.count_indent_ = l.count_indent_ + ((emitted l r).toList.map indentWeight).sum ∧
    ((emitted l r).toList = [r.current_token_] ∨
      ((emitted l r).toList = [] ∧ r.current_token_ = l.current_token_)) := by
  obtain ⟨p1, p2⟩ := ParseTokenFuel_emit _ l r h
  unfold emitted
  by_cases hany : (activations (l.input_.length + 1) l).any assignsAt = true
  · rw [if_pos hany]
    exact ⟨by simp [p1 hany], Or.inl rfl⟩
  · have hf : (activations (l.input_.length + 1) l).any assignsAt = false := by simpa using hany
    rw [if_neg hany]
    exact ⟨by simp [(p2 hf).1], Or.inr ⟨rfl, (p2 hf).2⟩⟩

theorem emittedTokens_ok (n : Nat) (l r : Lexer) (toks : List Token)
    (h : emittedTokens (n + 1) l = .ok (toks, r)) :
    ∃ l1 ts, NextToken l = .ok l1 ∧ emittedTokens n l1 = .ok (ts, r) ∧
      toks = (emitted l l1).toList ++ ts := by
  rw [emittedTokens] at h
  cases hnt : NextToken l with
  | error e => rw [hnt] at h; cases h
  | ok l1 =>
    rw [hnt] at h
    simp only at h
    cases hrest : emittedTokens n l1 with
    | error e => rw [hrest] at h; simp [Except.map] at h
    | ok p =>
      rw [hrest] at h
      simp only [Except.map, Except.ok.injEq, Prod.mk.injEq] at h
      exact ⟨l1, p.1, rfl, by rw [hrest, ← h.2], h.1.symm⟩

theorem getLast_emitted (e ts : List Token) (a b c : Token)
    (he : e = [b] ∨ (e = [] ∧ b = a)) (hts : ts.getLast?.getD b = c) :
    (e ++ ts).getLast?.getD a = c := by
  rcases he with rfl | ⟨rfl, rfl⟩
  · cases ts with
    | nil => simpa using hts
    | cons t ts =>
      rw [List.singleton_append, List.getLast?_cons_cons]
      simpa using hts
  · simpa using hts

/-- What holds after every call, for every input. -/
theorem emittedTokens_counters (n : Nat) : ∀ (l r : Lexer) (toks : List Token),
    emittedTokens n l = .ok (toks, r) →
    r.count_indent_ = l.count_indent_ + (toks.map indentWeight).sum ∧
    toks.getLast?.getD l.current_token_ = r.current_token_ ∧
    ((l.current_token_ = Token.Eof → l.count_indent_ ≤ 0) →
      r.current_token_ = Token.Eof → r.count_indent_ ≤ 0) := by
  induction n with
  | zero =>
    intro l r toks h
    simp only [emittedTokens, Except.ok.injEq, Prod.mk.injEq] at h
    obtain ⟨rfl, rfl⟩ := h
    exact ⟨by simp, rfl, fun hl => hl⟩
  | succ n ih =>
    intro l r toks h
    obtain ⟨l1, ts, hnt, hrest, rfl⟩ := emittedTokens_ok n l r toks h
    obtain ⟨p1, p2, p3⟩ := ih l1 r ts hrest
    obtain ⟨w1, w2⟩ := emitted_weight l l1 hnt
    refine ⟨?_, getLast_emitted _ ts _ _ _ w2 p2,
      fun hl => p3 (ParseTokenFuel_Eof_count _ l l1 hnt hl)⟩
    rw [p1, w1]
    simp only [List.map_append, List.sum_append]
    ring

/-- C23: for every input and after every call, the constructor and `n` calls
of `NextToken`, `count_indent_` equals 2 × (number of Indent tokens emitted so
far − number of Dedent tokens emitted so far); it is even; and when the token
emitted last is Eof, or the current token is Eof, at least as many Dedent as
Indent tokens have been emitted. -/
theorem indent_count (src : String) (n : Nat) (toks : List Token) (l : Lexer)
    (h : emittedAfter n src = .ok (toks, l)) :
    l.count_indent_ =
      2 * ((toks.count Token.Indent : Int) - (toks.count Token.Dedent : Int)) ∧
    l.count_indent_ % 2 = 0 ∧
    (toks.getLast? = some Token.Eof → toks.count Token.Indent ≤ toks.count Token.Dedent) ∧
    (l.current_token_ = Token.Eof → toks.count Token.Indent ≤ toks.count Token.Dedent) := by
  unfold emittedAfter at h
  cases hnew : Lexer.new src.toList with
  | error e => rw [hnew] at h; cases h
  | ok l0 =>
    have hpt : ParseToken (Lexer.start src.toList) = .ok l0 := hnew
    rw [hnew] at h
    simp only at h
    cases hrest : emittedTokens n l0 with
    | error e => rw [hrest] at h; simp [Except.map] at h
    | ok p =>
      rw [hrest] at h
      simp only [Except.map, Except.ok.injEq, Prod.mk.injEq] at h
      obtain ⟨rfl, rfl⟩ := h
      obtain ⟨p1, p2, p3⟩ := emittedTokens_counters n l0 p.2 p.1 (by rw [hrest])
      obtain ⟨w1, w2⟩ := emitted_weight _ l0 hpt
      have hs : (Lexer.start src.toList).count_indent_ = 0 := rfl
      have e0 := ParseTokenFuel_Eof_count _ _ l0 hpt (fun he => by simp [Lexer.start] at he)
      have hlast := getLast_emitted _ p.1 _ _ _ w2 p2
      have hsum := sum_indentWeight ((emitted (Lexer.start src.toList) l0).toList ++ p.1)
      simp only [List.map_append, List.sum_append] at hsum
      have heq : p.2.count_indent_ =
          2 * ((((emitted (Lexer.start src.toList) l0).toList ++ p.1).count Token.Indent : Int) -
            (((emitted (Lexer.start src.toList) l0).toList ++ p.1).count Token.Dedent : Int)) := by
        rw [p1, w1, hs]
        omega
      have hEof : p.2.current_token_ = Token.Eof →
          ((emitted (Lexer.start src.toList) l0).toList ++ p.1).count Token.Indent ≤
            ((emitted (Lexer.start src.toList) l0).toList ++ p.1).count Token.Dedent := by
        intro he
        have := p3 e0 he
        omega
      refine ⟨heq, by omega, fun hl => hEof ?_, hEof⟩
      rw [hl] at hlast
      exact hlast.symm

theorem indent_count_witness :
    emittedAfter 3 "x\n  !y\n" =
      .ok ([Token.Id "x", Token.Newline, Token.Indent],
        { input_ := "y\n".toList, current_token_ := Token.Indent, count_indent_ := 2,
          is_start_line_ := false }) ∧
    (2 : Int) = 2 * (([Token.Id "x", Token.Newline, Token.Indent].count Token.Indent : Int) -
      ([Token.Id "x", Token.Newline, Token.Indent].count Token.Dedent : Int)) :=
  ⟨rfl, (indent_count "x\n  !y\n" 3 [Token.Id "x", Token.Newline, Token.Indent]
      { input_ := "y\n".toList, current_token_ := Token.Indent, count_indent_ := 2,
        is_start_line_ := false } rfl).1⟩

end parse


/-! ## Lexer: termination -/

namespace parse

theorem ParseTokenBody_literalOk (l : Lexer) (e : Failure) (h : ParseTokenBody l = .error e) :
    literalOkAt l = false := by
  by_cases hpass : (CheckBeforeParse l).1 = true
  · obtain ⟨_, htok, hne, hdc⟩ := CheckBeforeParse_true l hpass
    obtain ⟨ch, rest, hin⟩ := List.exists_cons_of_ne_nil hne
    rw [ParseTokenBody_pass l ch rest htok hin hdc] at h
    split_ifs at h with h1 h2 h3 h4 h5 h6 h7 h8 h9
    · unfold ParseString at h
      split at h
      · simp [Except.map] at h
      · rename_i hnone
        simp only at hnone
        simp [literalOkAt, hin, h6, hnone]
    · unfold ParseNumber at h
      simp only at h
      split_ifs at h with hfit
      · simp [Except.map] at h
      · simp only [hin] at hfit
        simp only [literalOkAt, hin, h6, h7, if_false, if_true, decide_eq_false_iff_not]
        exact hfit
    · split at h <;> cases h
  · have hb : ParseTokenBody l = .ok (.done (CheckBeforeParse l).2) := by
      unfold ParseTokenBody
      simp [hpass]
    rw [hb] at h
    cases h

theorem ParseTokenFuel_ok (n : Nat) : ∀ (l : Lexer), l.input_.length < n →
    (activations n l).all literalOkAt = true → ∃ r, ParseTokenFuel n l = .ok r := by
  induction n with
  | zero => intro l h; omega
  | succ n ih =>
    intro l hlen ha
    rw [activations] at ha
    simp only [List.all_cons, Bool.and_eq_true] at ha
    rw [ParseTokenFuel]
    cases hb : ParseTokenBody l with
    | error e =>
      rw [ParseTokenBody_literalOk l e hb] at ha
      exact absurd ha.1 (by simp)
    | ok st =>
      cases st with
      | done l1 => exact ⟨l1, rfl⟩
      | recur l1 =>
        rw [hb] at ha
        have := (ParseTokenBody_recur l l1 (Or.inl hb)).2.2.1
        exact ih l1 (by omega) ha.2
      | recur_from_indent l1 =>
        rw [hb] at ha
        have := (ParseTokenBody_recur l l1 (Or.inr hb)).2.2.1
        obtain ⟨r1, h1⟩ := ih l1 (by omega) ha.2
        refine ⟨{ r1 with is_start_line_ := false }, ?_⟩
        simp only [h1]
        rfl

theorem tokensUntilEof_bound (n : Nat) : ∀ (l : Lexer), workLeft l ≤ n → pendingOk l →
    holdsDuring literalOkAt n l = true →
    ∃ toks, tokensUntilEof n l = some toks ∧ toks.length ≤ n + 1 := by
  induction n with
  | zero =>
    intro l hw _ _
    have he : l.current_token_ = Token.Eof := by
      by_contra hne
      have := (tokenRank_bounds l.current_token_).2.1 hne
      unfold workLeft at hw
      omega
    exact ⟨[Token.Eof], by simp [tokensUntilEof, he], by simp⟩
  | succ n ih =>
    intro l hw hp hlit
    by_cases he : l.current_token_ = Token.Eof
    · exact ⟨[Token.Eof], by simp [tokensUntilEof, he], by simp⟩
    · rw [holdsDuring] at hlit
      simp only [Bool.and_eq_true] at hlit
      obtain ⟨r, hr⟩ := ParseTokenFuel_ok _ l (Nat.lt_succ_self _) hlit.1
      have hpt : ParseToken l = .ok r := hr
      rw [hpt] at hlit
      obtain ⟨_, _, p3⟩ := ParseTokenFuel_progress _ l r hr he
      obtain ⟨q1, q2⟩ := p3 hp
      obtain ⟨toks, ht, hlen⟩ := ih r (by omega) q2 hlit.2
      refine ⟨l.current_token_ :: toks, ?_, by simp only [List.length_cons]; omega⟩
      rw [tokensUntilEof, if_neg he]
      have hnt : NextToken l = .ok r := hpt
      rw [hnt]
      simp [ht]

theorem NextTokenTimes_total (m : Nat) : ∀ (l : Lexer), workLeft l ≤ m → pendingOk l →
    holdsDuring literalOkAt m l = true → ∀ n, ∃ r, NextTokenTimes n l = .ok r := by
  induction m with
  | zero =>
    intro l hw _ _ n
    have he : l.current_token_ = Token.Eof := by
      by_contra hne
      have := (tokenRank_bounds l.current_token_).2.1 hne
      unfold workLeft at hw
      omega
    exact ⟨l, (NextToken_after_Eof l he n).2.1⟩
  | succ m ih =>
    intro l hw hp hlit n
    by_cases he : l.current_token_ = Token.Eof
    · exact ⟨l, (NextToken_after_Eof l he n).2.1⟩
    · cases n with
      | zero => exact ⟨l, rfl⟩
      | succ n =>
        rw [holdsDuring] at hlit
        simp only [Bool.and_eq_true] at hlit
        obtain ⟨r, hr⟩ := ParseTokenFuel_ok _ l (Nat.lt_succ_self _) hlit.1
        have hpt : ParseToken l = .ok r := hr
        rw [hpt] at hlit
        obtain ⟨_, _, p3⟩ := ParseTokenFuel_progress _ l r hr he
        obtain ⟨q1, q2⟩ := p3 hp
        obtain ⟨r2, h2⟩ := ih r (by omega) q2 hlit.2 n
        refine ⟨r2, ?_⟩
        rw [NextTokenTimes]
        have hnt : NextToken l = .ok r := hpt
        rw [hnt]
        exact h2

/-- C24: for every source in which no activation of ParseToken starts at a
string literal that is not closed before the end of the input, or at a run of
digits that does not fit in a 32-bit int, the constructor returns, every number
of NextToken calls after it returns, and Eof is reached within `4 * |src| + 1`
NextToken calls.  Every NextToken call made while the current token is not Eof
reads at least one character, or lowers `count_indent_`, or lowers
`dedent_count_`, or is one of the steps Newline and Eof at the end of the
input. -/
theorem lexing_terminates (src : String)
    (hlit : holdsDuring literalOkAt (4 * src.length + 2) (Lexer.start src.toList) = true) :
    (∃ toks, lex (4 * src.length + 1) src = some toks ∧ toks.length ≤ 4 * src.length + 2) ∧
    (∃ l0, Lexer.new src.toList = .ok l0 ∧ ∀ n, ∃ l, NextTokenTimes n l0 = .ok l) ∧
    (∀ l r : Lexer, NextToken l = .ok r → l.current_token_ ≠ Token.Eof →
      r.input_.length < l.input_.length ∨ r.count_indent_ < l.count_indent_ ∨
        r.dedent_count_ < l.dedent_count_ ∨
        (l.input_ = [] ∧ (r.current_token_ = Token.Newline ∨ r.current_token_ = Token.Eof))) := by
  have hstart : workLeft (Lexer.start src.toList) ≤ 4 * src.length + 2 := by
    have h1 := dropWhile_length (· = '\n') src.toList
    have h2 : src.toList.length = src.length := rfl
    simp only [workLeft, Lexer.start, tokenRank, Int.toNat_zero]
    omega
  have hpend : pendingOk (Lexer.start src.toList) := by
    intro _ hpos
    simp [Lexer.start] at hpos
  rw [holdsDuring] at hlit
  simp only [Bool.and_eq_true] at hlit
  obtain ⟨l0, h0⟩ := ParseTokenFuel_ok _ (Lexer.start src.toList) (Nat.lt_succ_self _) hlit.1
  have hpt : ParseToken (Lexer.start src.toList) = .ok l0 := h0
  have hnew : Lexer.new src.toList = .ok l0 := h0
  rw [hpt] at hlit
  obtain ⟨_, _, p3⟩ := ParseTokenFuel_progress _ _ l0 h0 (by simp [Lexer.start])
  obtain ⟨q1, q2⟩ := p3 hpend
  refine ⟨?_, ⟨l0, hnew, NextTokenTimes_total _ l0 (by omega) q2 hlit.2⟩,
    fun l r h hl => (ParseTokenFuel_progress _ l r h hl).2.1⟩
  obtain ⟨toks, ht, hlen⟩ := tokensUntilEof_bound _ l0 (by omega) q2 hlit.2
  exact ⟨toks, by simp only [lex, hnew, ht], hlen⟩

theorem lexing_terminates_witness :
    (∃ toks, lex (4 * "'a' 1\n".length + 1) "'a' 1\n" = some toks ∧
      toks.length ≤ 4 * "'a' 1\n".length + 2) ∧
    (∃ l0, Lexer.new "'a' 1\n".toList = .ok l0 ∧ ∀ n, ∃ l, NextTokenTimes n l0 = .ok l) :=
  ⟨(lexing_terminates "'a' 1\n" (by decide)).1, (lexing_terminates "'a' 1\n" (by decide)).2.1⟩

end parse

/-! ## Statements: `NewInstance` -/

namespace runtime

theorem GetMethodByName_mem {Body : Type} (c : Class Body) (name : String) :
    ∀ m, c.GetMethodByName name = some m → m ∈ c.allMethods ∧ m.name = name := by
  induction c with
  | base nm ms =>
    intro m h
    simp only [Class.GetMethodByName] at h
    have h1 := List.find?_some h
    exact ⟨List.mem_of_find?_eq_some h, by simpa using h1⟩
  | derived nm ms p ih =>
    intro m h
    simp only [Class.GetMethodByName] at h
    split at h
    · rename_i m0 hf
      cases h
      have h1 := List.find?_some hf
      exact ⟨List.mem_append_left _ (List.mem_of_find?_eq_some hf), by simpa using h1⟩
    · obtain ⟨h1, h2⟩ := ih m h
      exact ⟨List.mem_append_right _ h1, h2⟩

theorem GetMethod_none_of_no_arity {Body : Type} (c : Class Body) (name : String) (k : Nat)
    (h : ∀ m ∈ c.allMethods, m.name = name → m.formal_params.length ≠ k) :
    c.GetMethod name k = none := by
  unfold Class.GetMethod
  split
  · rename_i m hm
    obtain ⟨h1, h2⟩ := GetMethodByName_mem c name m hm
    simp [h m h1 h2]
  · rfl
end runtime

namespace ast

open runtime

theorem ExecuteArgs_length (exec : Exec Statement) : ∀ (args_ : List Statement)
    (c : Closure Statement) (w : World Statement) (actual_args : List Holder) (s : State),
    ExecuteArgs exec args_ c w = .normal actual_args s → actual_args.length = args_.length := by
  intro args_
  induction args_ with
  | nil =>
    intro c w actual_args s h
    simp only [ExecuteArgs, Outcome.normal.injEq] at h
    rw [← h.1]
    rfl
  | cons arg rest ih =>
    intro c w actual_args s h
    simp only [ExecuteArgs] at h
    cases hx : exec arg c w with
    | normal v s0 =>
      rw [hx] at h
      simp only [Outcome.bind] at h
      cases hr : ExecuteArgs exec rest s0.1 s0.2 with
      | normal vs s1 =>
        rw [hr] at h
        simp only [Outcome.normal.injEq] at h
        rw [← h.1]
        simp [ih s0.1 s0.2 vs s1 hr]
      | returned v1 s1 => rw [hr] at h; cases h
      | error e s1 => rw [hr] at h; cases h
      | undefined => rw [hr] at h; cases h
      | out_of_fuel => rw [hr] at h; cases h
    | returned v0 s0 => rw [hx] at h; simp [Outcome.bind] at h
    | error e s0 => rw [hx] at h; simp [Outcome.bind] at h
    | undefined => rw [hx] at h; simp [Outcome.bind] at h
    | out_of_fuel => rw [hx] at h; simp [Outcome.bind] at h

theorem NewInstance_value (fuel : Nat) (instance_ : Nat) (cls : Class Statement)
    (args_ : List Statement) (c : Closure Statement) (w : World Statement) (v : Holder)
    (s : State) (h : Execute fuel (Statement.NewInstance instance_ cls args_) c w = .normal v s) :
    v = some (Object.ClassInstance cls instance_) := by
  cases fuel with
  | zero => simp [Execute] at h
  | succ n =>
    simp only [Execute, NewInstance.Execute] at h
    cases ha : ExecuteArgs (Execute n) args_ c w with
    | normal actual_args s0 =>
      rw [ha] at h
      simp only [Outcome.bind] at h
      split_ifs at h
      · cases hc : ClassInstance.Call (Execute n) cls instance_ "__init__" actual_args s0.2 with
        | normal v1 s1 =>
          rw [hc] at h
          simp only [Outcome.mapState, Outcome.bind, Outcome.normal.injEq] at h
          exact h.1.symm
        | returned v1 s1 => rw [hc] at h; simp [Outcome.mapState, Outcome.bind] at h
        | error e s1 => rw [hc] at h; simp [Outcome.mapState, Outcome.bind] at h
        | undefined => rw [hc] at h; simp [Outcome.mapState, Outcome.bind] at h
        | out_of_fuel => rw [hc] at h; simp [Outcome.mapState, Outcome.bind] at h
      · simp only [Outcome.normal.injEq] at h
        exact h.1.symm
    | returned v0 s0 => rw [ha] at h; simp [Outcome.bind] at h
    | error e s0 => rw [ha] at h; simp [Outcome.bind] at h
    | undefined => rw [ha] at h; simp [Outcome.bind] at h
    | out_of_fuel => rw [ha] at h; simp [Outcome.bind] at h

/-- C25: `NewInstance::Execute`, for arguments that evaluate to `actual_args`
and leave the state `s`.  Whenever an execution of the node returns, in any
state, the holder refers to the one instance the node owns.  When no method of
the class or of its ancestors is named `__init__` and has as many parameters
as there are arguments (more generally, when the class resolves no such
method), no initializer is run and no error is raised: the node returns its
instance in the state the arguments left, so every field is as it was.  When
the class resolves `__init__`, the node returns its instance in the state that
the body of `__init__`, run in the local closure of the call, leaves behind:
the fields are not reset, they change only as that body (or the arguments)
change them.  So in `exampleTwice`, which executes one node twice, both
variables refer to the same instance, the field `y` set after the first
execution still holds 5 after the second, and the field `x` holds 1 again
because the second `__init__` call reassigns it. -/
theorem NewInstance_Execute (n : Nat) (instance_ : Nat) (cls : Class Statement)
    (args_ : List Statement) (c : Closure Statement) (w : World Statement)
    (actual_args : List Holder) (s : State)
    (hargs : ExecuteArgs (Execute n) args_ c w = .normal actual_args s) :
    (∀ fuel c1 w1 v s1,
      Execute fuel (Statement.NewInstance instance_ cls args_) c1 w1 = .normal v s1 →
      v = some (Object.ClassInstance cls instance_)) ∧
    ((∀ m ∈ cls.allMethods, m.name = "__init__" → m.formal_params.length ≠ args_.length) →
      Execute (n + 1) (Statement.NewInstance instance_ cls args_) c w =
        .normal (some (Object.ClassInstance cls instance_)) s) ∧
    (cls.GetMethod "__init__" args_.length = none →
      Execute (n + 1) (Statement.NewInstance instance_ cls args_) c w =
        .normal (some (Object.ClassInstance cls instance_)) s) ∧
    (∀ m, cls.GetMethod "__init__" args_.length = some m →
      Execute (n + 1) (Statement.NewInstance instance_ cls args_) c w =
        ((Execute n m.body
            (ClassInstance.CreateLocalClosure (Object.ClassInstance cls instance_)
              m.formal_params actual_args) s.2).mapState fun s1 => (s.1, s1.2)).bind
          fun _ s2 => .normal (some (Object.ClassInstance cls instance_)) s2) ∧
    (variableAfter (Execute 8 exampleTwice Closure.empty World.initial) "p" =
        some (some (Object.ClassInstance exampleBox 0)) ∧
      variableAfter (Execute 8 exampleTwice Closure.empty World.initial) "q" =
        some (some (Object.ClassInstance exampleBox 0)) ∧
      fieldAfter (Execute 8 exampleTwice Closure.empty World.initial) 0 "y" =
        some (some (Object.Number 5)) ∧
      fieldAfter (Execute 8 exampleTwice Closure.empty World.initial) 0 "x" =
        some (some (Object.Number 1))) := by
  have hlen := ExecuteArgs_length (Execute n) args_ c w actual_args s hargs
  have hnone : cls.GetMethod "__init__" args_.length = none →
      Execute (n + 1) (Statement.NewInstance instance_ cls args_) c w =
        .normal (some (Object.ClassInstance cls instance_)) s := by
    intro hm
    simp only [Execute, NewInstance.Execute, hargs, Outcome.bind, ClassInstance.HasMethod, hlen,
      hm, Option.isSome_none, Bool.false_eq_true, if_false]
  refine ⟨fun fuel c1 w1 v s1 h => NewInstance_value fuel instance_ cls args_ c1 w1 v s1 h,
    fun hno => hnone (GetMethod_none_of_no_arity cls "__init__" args_.length hno), hnone,
    fun m hm => ?_, rfl, rfl, rfl, rfl⟩
  have hcall := Call_resolved (Execute n) cls instance_ "__init__" actual_args s.2 m
    (by rw [hlen]; exact hm)
  simp only [Execute, NewInstance.Execute, hargs, Outcome.bind, ClassInstance.HasMethod, hlen,
    hm, Option.isSome_some, if_true, hcall]
  cases Execute n m.body (ClassInstance.CreateLocalClosure (Object.ClassInstance cls instance_)
      m.formal_params actual_args) s.2 <;> rfl

theorem NewInstance_Execute_witness :
    Execute 1 (Statement.NewInstance 0 examplePlain []) Closure.empty World.initial =
      .normal (some (Object.ClassInstance examplePlain 0)) (Closure.empty, World.initial) ∧
    Execute 2 (Statement.NewInstance 0 exampleBox []) Closure.empty World.initial =
      .normal (some (Object.ClassInstance exampleBox 0)) (Closure.empty, World.initial) ∧
    fieldAfter (Execute 5 exampleNewBox Closure.empty World.initial) 0 "x" =
      some (some (Object.Number 1)) :=
  ⟨(NewInstance_Execute 0 0 examplePlain [] Closure.empty World.initial []
      (Closure.empty, World.initial) rfl).2.1 (by simp [Class.allMethods, examplePlain]),
    (NewInstance_Execute 1 0 exampleBox [] Closure.empty World.initial []
      (Closure.empty, World.initial) rfl).2.1 (by simp [Class.allMethods, exampleBox]),
    congrArg (fun result => fieldAfter result 0 "x")
      ((NewInstance_Execute 4 0 exampleBox [Statement.NumericConst 1] Closure.empty
        World.initial [some (Object.Number 1)] (Closure.empty, World.initial) rfl).2.2.2.1
        ⟨"__init__", ["v"],
          .MethodBody (.FieldAssignment ["self"] "x" (.VariableValue ["v"]))⟩ rfl)⟩

end ast
